import Mathlib

/-!
# xv6 lab kernel: per-CPU page allocator (`kernel/kalloc.c`) and hashed buffer cache (`kernel/bio.c`)

A shallow embedding of the two files and a verification of their specification.

* Physical memory is a function from byte addresses to bytes; a `struct run *` is the address of
  a page and `r->next` is the 64-bit little-endian word stored in the first eight bytes of the page.
* `kmems[i].freelist` is a function from CPU index to pointer (`0` is the null pointer).
* `cpuid()` is the argument `cid` of `kfree` / `kalloc`.
* Every `acquire` / `release` of a spinlock is recorded, in program order, in the state's lock log.
  `push_off` / `pop_off` only disable and re-enable interrupts and touch no modelled state.
* `panic` never returns: it is the outcome `Res.halt`.
* Loops whose trip count depends on the heap take a `fuel` argument; running out of fuel is the
  outcome `Res.spin` (the C loop would still be running).
-/

namespace Xv6

/-! ## Outcomes and lock events -/

/-- Outcome of a kernel call on a state of type `σ` with a result of type `α`. -/
inductive Res (σ α : Type) where
  /-- The call returned `a` and left the state `s`. -/
  | ret (a : α) (s : σ) : Res σ α
  /-- The call reached `panic(msg)` in state `s`. -/
  | halt (msg : String) (s : σ) : Res σ α
  /-- A loop did not finish within the given fuel. -/
  | spin : Res σ α
  /-- The caller went to sleep inside `acquiresleep` in state `s`; `a` is what the call returns
  once the sleep-lock is granted. -/
  | sleep (a : α) (s : σ) : Res σ α

/-- Locks of the two subsystems. -/
inductive Lock where
  /-- Spinlock `kmems[i].lock`. -/
  | kmem (i : Nat) : Lock
  /-- Spinlock `bcache.evict_lock`. -/
  | evict : Lock
  /-- Spinlock `bcache.locks[i]`. -/
  | bucket (i : Nat) : Lock
  /-- Sleep-lock `bcache.buf[b].lock`. -/
  | buf (b : Nat) : Lock
  deriving DecidableEq, Repr

/-- Events recorded in program order: a lock is requested (`acquire` / `acquiresleep`), a lock
is given back (`release` / `releasesleep`), or a block is transferred by the disk driver. -/
inductive Ev where
  | acq (l : Lock) : Ev
  | rel (l : Lock) : Ev
  /-- The call `virtio_disk_rw(b, write)` for the block `(dev, blockno)`. -/
  | io (write : Bool) (dev blockno : Nat) : Ev
  deriving DecidableEq, Repr

/-! ## Byte memory -/

/-- Byte-addressed memory. -/
abbrev Mem := Nat → Nat

/-- Pointwise update of a table (`t[i] = v`). -/
def upd {α : Type} (t : Nat → α) (i : Nat) (v : α) : Nat → α :=
  fun j => if j = i then v else t j

/-- Little-endian 64-bit load at address `a` (the read of `((struct run*)a)->next`). -/
def load64 (m : Mem) (a : Nat) : Nat :=
  m a % 256 + 256 * (m (a + 1) % 256 + 256 * (m (a + 2) % 256 + 256 * (m (a + 3) % 256
    + 256 * (m (a + 4) % 256 + 256 * (m (a + 5) % 256 + 256 * (m (a + 6) % 256
    + 256 * (m (a + 7) % 256)))))))

/-- Little-endian 64-bit store of `v` at address `a` (the write `((struct run*)a)->next = v`). -/
def store64 (m : Mem) (a v : Nat) : Mem :=
  fun x => if a ≤ x ∧ x < a + 8 then (v / 256 ^ (x - a)) % 256 else m x

/-- Effect of `memset(dst, c, n)`. -/
def memset (m : Mem) (dst c n : Nat) : Mem :=
  fun x => if dst ≤ x ∧ x < dst + n then c % 256 else m x

/-! ## `kernel/kalloc.c` -/

/-- Page size. `riscv.h` is not part of the sources; the value is the one stated in the header
comment of `kalloc.c` ("Allocates whole 4096-byte pages"). -/
def PGSIZE : Nat := 4096

/-- Modelled from the spec: the macro `PGROUNDUP` of `riscv.h` is missing; initialization
registers the page-aligned frames of the range, so the start is rounded up to the next multiple
of the page size (in 64-bit arithmetic). -/
def PGROUNDUP (a : Nat) : Nat :=
  ((a + PGSIZE - 1) % 2 ^ 64) / PGSIZE * PGSIZE

/-- Constants of the absent headers `param.h` / `memlayout.h` and the linker symbol `end`. -/
structure Params where
  /-- Number of CPUs, `NCPU`. -/
  NCPU : Nat
  /-- Top of physical memory, `PHYSTOP`. -/
  PHYSTOP : Nat
  /-- First address after the kernel, `end`. -/
  kend : Nat

/-- State of the allocator: physical memory, `kmems[i].freelist`, and the lock log. -/
structure KState where
  mem : Mem
  freelist : Nat → Nat
  log : List Ev

/-- Spinlock `acquire(&kmems[i].lock)`. -/
def KState.acquire (s : KState) (i : Nat) : KState :=
  { s with log := s.log ++ [Ev.acq (Lock.kmem i)] }

/-- Spinlock `release(&kmems[i].lock)`. -/
def KState.release (s : KState) (i : Nat) : KState :=
  { s with log := s.log ++ [Ev.rel (Lock.kmem i)] }

/-- Assignment `kmems[i].freelist = v`. -/
def KState.setFreelist (s : KState) (i v : Nat) : KState :=
  { s with freelist := upd s.freelist i v }

/-- Replace the memory. -/
def KState.setMem (s : KState) (m : Mem) : KState :=
  { s with mem := m }

/-- State at boot: `kmems` lives in zero-initialised storage, memory content is arbitrary. -/
def KState.boot (m : Mem) : KState :=
  { mem := m, freelist := fun _ => 0, log := [] }

/-- The function `kfree(pa)` run on CPU `cid`. -/
def kfree (P : Params) (cid pa : Nat) (s : KState) : Res KState Unit :=
  if pa % PGSIZE ≠ 0 ∨ pa < P.kend ∨ pa ≥ P.PHYSTOP then
    Res.halt "kfree" s
  else
    let s := s.setMem (memset s.mem pa 1 PGSIZE)
    let r := pa
    let s := s.acquire cid
    let s := s.setMem (store64 s.mem r (s.freelist cid))
    let s := s.setFreelist cid r
    let s := s.release cid
    Res.ret () s

/-- The loop of `freerange`: `for(; p + PGSIZE <= pa_end; p += PGSIZE) kfree(p);`. -/
def freerangeLoop (P : Params) (cid pa_end : Nat) : Nat → Nat → KState → Res KState Unit
  | 0, _, _ => Res.spin
  | fuel + 1, p, s =>
    if (p + PGSIZE) % 2 ^ 64 ≤ pa_end then
      match kfree P cid p s with
      | Res.ret _ s1 => freerangeLoop P cid pa_end fuel ((p + PGSIZE) % 2 ^ 64) s1
      | Res.halt msg s1 => Res.halt msg s1
      | Res.spin => Res.spin
      | Res.sleep a s1 => Res.sleep a s1
    else
      Res.ret () s

/-- The function `freerange(pa_start, pa_end)` run on CPU `cid`. -/
def freerange (P : Params) (fuel cid pa_start pa_end : Nat) (s : KState) : Res KState Unit :=
  freerangeLoop P cid pa_end fuel (PGROUNDUP pa_start) s

/-- The function `kinit()` run on CPU `cid`; `initlock` only names the locks. -/
def kinit (P : Params) (fuel cid : Nat) (s : KState) : Res KState Unit :=
  freerange P fuel cid P.kend P.PHYSTOP s

/-- The tortoise/hare loop of `kalloc`:
`while(fast->next && fast->next->next){ slow = slow->next; fast = fast->next->next; }`;
the result is the final `slow`. -/
def splitLoop (m : Mem) : Nat → Nat → Nat → Option Nat
  | 0, _, _ => none
  | fuel + 1, slow, fast =>
    if load64 m fast ≠ 0 ∧ load64 m (load64 m fast) ≠ 0 then
      splitLoop m fuel (load64 m slow) (load64 m (load64 m fast))
    else
      some slow

/-- The block of `kalloc` guarded by `if(steal_head)`: CPU `cid` takes the front half of the
non-empty free list of CPU `i` (whose lock is held) and allocates its first frame. -/
def stealHalf (fuel cid i : Nat) (s : KState) : Res KState Nat :=
  let steal_head := s.freelist i
  match splitLoop s.mem fuel steal_head steal_head with
  | none => Res.spin
  | some slow =>
    let s := s.setFreelist i (load64 s.mem slow)
    let s := s.setMem (store64 s.mem slow 0)
    let s := s.release i
    let s := s.acquire cid
    let s := s.setFreelist cid steal_head
    let r := s.freelist cid
    let s := s.setFreelist cid (load64 s.mem r)
    let s := s.release cid
    let s := s.setMem (memset s.mem r 5 PGSIZE)
    Res.ret r s

/-- The stealing loop of `kalloc`, `for(int i = 0; i < NCPU; i++)`, with `n` iterations left
(`i + n = NCPU`), followed by the final `return 0`. -/
def kallocSteal (fuel cid : Nat) : Nat → Nat → KState → Res KState Nat
  | 0, _, s => Res.ret 0 s
  | n + 1, i, s =>
    if i = cid then kallocSteal fuel cid n (i + 1) s
    else
      let s := s.acquire i
      let steal_head := s.freelist i
      if steal_head ≠ 0 then
        stealHalf fuel cid i s
      else
        kallocSteal fuel cid n (i + 1) (s.release i)

/-- The function `kalloc()` run on CPU `cid`; the result is the returned pointer (`0` on failure)
and the new state. -/
def kalloc (P : Params) (fuel cid : Nat) (s : KState) : Res KState Nat :=
  let s := s.acquire cid
  let r := s.freelist cid
  let s := if r ≠ 0 then s.setFreelist cid (load64 s.mem r) else s
  let s := s.release cid
  if r ≠ 0 then
    let s := s.setMem (memset s.mem r 5 PGSIZE)
    Res.ret r s
  else
    kallocSteal fuel cid P.NCPU 0 s

/-! ## `kernel/bio.c` -/

/-- Number of hash buckets, `#define NBUCKETS 13`. -/
def NBUCKETS : Nat := 13

/-- The function `hash`. -/
def hash (blockno : Nat) : Nat :=
  blockno % NBUCKETS

/-- Modelled from the spec: `sleeplock.h` is missing. The exclusive blocking lock of an entry
is either free or held by one process. -/
structure SleepLock where
  locked : Bool
  pid : Nat
  deriving DecidableEq, Repr

/-- Modelled from the spec: `buf.h` is missing. A cache entry has a validity flag, a device id,
a block number, a reference count (`uint`), its exclusive lock, the link `next` used by the
bucket lists (`none` is the null pointer, `some k` is `&bcache.buf[k]`), and its content. -/
structure Buf where
  valid : Nat
  dev : Nat
  blockno : Nat
  refcnt : Nat
  lock : SleepLock
  next : Option Nat
  data : List Nat
  deriving DecidableEq, Repr

/-- State of the buffer cache: the entries `bcache.buf[k]`, the list heads
`bcache.buckets[i].next`, the content of the disk per `(dev, blockno)`, and the event log. -/
structure BCache where
  buf : Nat → Buf
  head : Nat → Option Nat
  disk : Nat → Nat → List Nat
  log : List Ev

/-- Record an event. -/
def BCache.emit (c : BCache) (e : Ev) : BCache :=
  { c with log := c.log ++ [e] }

/-- Spinlock `acquire(&l)`. -/
def BCache.acquire (c : BCache) (l : Lock) : BCache :=
  c.emit (Ev.acq l)

/-- Spinlock `release(&l)`. -/
def BCache.release (c : BCache) (l : Lock) : BCache :=
  c.emit (Ev.rel l)

/-- Assignment to the fields of `bcache.buf[b]`. -/
def BCache.setBuf (c : BCache) (b : Nat) (v : Buf) : BCache :=
  { c with buf := upd c.buf b v }

/-- Assignment `bcache.buckets[i].next = p`. -/
def BCache.setHead (c : BCache) (i : Nat) (p : Option Nat) : BCache :=
  { c with head := upd c.head i p }

/-- Increment of a `uint`. -/
def incr32 (n : Nat) : Nat :=
  (n + 1) % 2 ^ 32

/-- Decrement of a `uint`. -/
def decr32 (n : Nat) : Nat :=
  (n + 2 ^ 32 - 1) % 2 ^ 32

/-- Modelled from the spec: `sleeplock.c` is missing. `initsleeplock` leaves the lock free. -/
def initsleeplock (c : BCache) (b : Nat) : BCache :=
  c.setBuf b { c.buf b with lock := { locked := false, pid := 0 } }

/-- Modelled from the spec: `sleeplock.c` is missing. `acquiresleep(&b->lock)` by process `pid`
is a blocking acquisition: if the lock is free the caller takes it and goes on (with `b` as the
value it is about to return); if the lock is held the caller sleeps. -/
def acquiresleep (pid b : Nat) (c : BCache) : Res BCache Nat :=
  let c := c.emit (Ev.acq (Lock.buf b))
  if (c.buf b).lock.locked then
    Res.sleep b c
  else
    Res.ret b (c.setBuf b { c.buf b with lock := { locked := true, pid := pid } })

/-- Modelled from the spec: `sleeplock.c` is missing. `releasesleep(&b->lock)` frees the
lock. -/
def releasesleep (b : Nat) (c : BCache) : BCache :=
  let c := c.setBuf b { c.buf b with lock := { locked := false, pid := 0 } }
  c.emit (Ev.rel (Lock.buf b))

/-- Modelled from the spec: `sleeplock.c` is missing. `holdingsleep(&b->lock)` tells whether the
calling process `pid` holds the lock. -/
def holdingsleep (pid b : Nat) (c : BCache) : Bool :=
  (c.buf b).lock.locked && (c.buf b).lock.pid == pid

/-- Modelled from the spec: the disk driver is missing. `virtio_disk_rw(b, write)` synchronously
copies the content of entry `b` to the device block `(b->dev, b->blockno)` when `write` is set
and from it otherwise. -/
def virtio_disk_rw (b : Nat) (write : Bool) (c : BCache) : BCache :=
  let e := c.buf b
  let c := c.emit (Ev.io write e.dev e.blockno)
  if write then
    { c with disk := fun d n => if d = e.dev ∧ n = e.blockno then e.data else c.disk d n }
  else
    c.setBuf b { e with data := c.disk e.dev e.blockno }

/-- The function `binit` for a cache of `NBUF` entries (`NBUF` comes from the absent
`param.h`). -/
def binit (NBUF : Nat) (c : BCache) : BCache :=
  let c := (List.range NBUCKETS).foldl
    (fun c i => c.setHead i none) c
  (List.range NBUF).foldl
    (fun c b =>
      let c := initsleeplock c b
      let c := c.setBuf b { c.buf b with next := c.head 0 }
      c.setHead 0 (some b)) c

/-- A scan `for(b = p; b; b = b->next) if(test(b)) ...` of a bucket list: the first entry that
passes the test (`some none` if the list ends without one, `none` if the fuel runs out). -/
def scan (test : Buf → Bool) (buf : Nat → Buf) : Nat → Option Nat → Option (Option Nat)
  | 0, _ => none
  | _ + 1, none => some none
  | fuel + 1, some b => if test (buf b) then some (some b) else scan test buf fuel (buf b).next

/-- The test `b->dev == dev && b->blockno == blockno`. -/
def isBlock (dev blockno : Nat) (b : Buf) : Bool :=
  b.dev == dev && b.blockno == blockno

/-- The test `b->refcnt == 0`. -/
def isFree (b : Buf) : Bool :=
  b.refcnt == 0

/-- The victim search of `bget`, `for (int j = 0; j < NBUCKETS; j++)` with `n` iterations left,
followed by `panic("bget: no buffers")`. On success the result is `(victim, old_bucket_idx)`
and the lock of that bucket is still held. -/
def findVictim (fuel : Nat) : Nat → Nat → BCache → Res BCache (Nat × Nat)
  | 0, _, c => Res.halt "bget: no buffers" c
  | n + 1, j, c =>
    let c := c.acquire (Lock.bucket j)
    match scan isFree c.buf fuel (c.head j) with
    | none => Res.spin
    | some (some victim) => Res.ret (victim, j) c
    | some none => findVictim fuel n (j + 1) (c.release (Lock.bucket j))

/-- The pointer `*p` where `p` is `&bcache.buckets[old].next` (`none`) or `&bcache.buf[k].next`
(`some k`). -/
def BCache.getLink (c : BCache) (old : Nat) (p : Option Nat) : Option Nat :=
  match p with
  | none => c.head old
  | some k => (c.buf k).next

/-- The assignment `*p = v`. -/
def BCache.setLink (c : BCache) (old : Nat) (p : Option Nat) (v : Option Nat) : BCache :=
  match p with
  | none => c.setHead old v
  | some k => c.setBuf k { c.buf k with next := v }

/-- The unlink loop of `bget`:
`for (p = &bcache.buckets[old].next; *p; p = &(*p)->next) if (*p == victim) { *p = victim->next; break; }`. -/
def unlink (victim old : Nat) : Nat → Option Nat → BCache → Option BCache
  | 0, _, _ => none
  | fuel + 1, p, c =>
    match c.getLink old p with
    | none => some c
    | some q =>
      if q = victim then some (c.setLink old p (c.buf victim).next)
      else unlink victim old fuel (some q) c

/-- The function `bget(dev, blockno)` called by process `pid`. -/
def bget (fuel pid dev blockno : Nat) (c : BCache) : Res BCache Nat :=
  let i := hash blockno
  let c := c.acquire (Lock.bucket i)
  match scan (isBlock dev blockno) c.buf fuel (c.head i) with
  | none => Res.spin
  | some (some b) =>
    let c := c.setBuf b { c.buf b with refcnt := incr32 (c.buf b).refcnt }
    let c := c.release (Lock.bucket i)
    acquiresleep pid b c
  | some none =>
    let c := c.release (Lock.bucket i)
    let c := c.acquire Lock.evict
    let c := c.acquire (Lock.bucket i)
    match scan (isBlock dev blockno) c.buf fuel (c.head i) with
    | none => Res.spin
    | some (some b) =>
      let c := c.setBuf b { c.buf b with refcnt := incr32 (c.buf b).refcnt }
      let c := c.release (Lock.bucket i)
      let c := c.release Lock.evict
      acquiresleep pid b c
    | some none =>
      let c := c.release (Lock.bucket i)
      match findVictim fuel NBUCKETS 0 c with
      | Res.halt msg c => Res.halt msg c
      | Res.spin => Res.spin
      | Res.sleep a c => Res.sleep a.1 c
      | Res.ret (victim, old_bucket_idx) c =>
        match unlink victim old_bucket_idx fuel none c with
        | none => Res.spin
        | some c =>
          let c := c.release (Lock.bucket old_bucket_idx)
          let c := c.setBuf victim
            { c.buf victim with dev := dev, blockno := blockno, valid := 0, refcnt := 1 }
          let c := c.acquire (Lock.bucket i)
          let c := c.setBuf victim { c.buf victim with next := c.head i }
          let c := c.setHead i (some victim)
          let c := c.release (Lock.bucket i)
          let c := c.release Lock.evict
          acquiresleep pid victim c

/-- The slow path of `bget`, entered at `acquire(&bcache.evict_lock)` in state `c`: the same
statements as the second half of `bget`, as a function of the state in which the arbiter lock
is taken (which, with other processes running, need not be the state the fast path saw). -/
def bgetSlow (fuel pid dev blockno : Nat) (c : BCache) : Res BCache Nat :=
  let i := hash blockno
  let c := c.acquire Lock.evict
  let c := c.acquire (Lock.bucket i)
  match scan (isBlock dev blockno) c.buf fuel (c.head i) with
  | none => Res.spin
  | some (some b) =>
    let c := c.setBuf b { c.buf b with refcnt := incr32 (c.buf b).refcnt }
    let c := c.release (Lock.bucket i)
    let c := c.release Lock.evict
    acquiresleep pid b c
  | some none =>
    let c := c.release (Lock.bucket i)
    match findVictim fuel NBUCKETS 0 c with
    | Res.halt msg c => Res.halt msg c
    | Res.spin => Res.spin
    | Res.sleep a c => Res.sleep a.1 c
    | Res.ret (victim, old_bucket_idx) c =>
      match unlink victim old_bucket_idx fuel none c with
      | none => Res.spin
      | some c =>
        let c := c.release (Lock.bucket old_bucket_idx)
        let c := c.setBuf victim
          { c.buf victim with dev := dev, blockno := blockno, valid := 0, refcnt := 1 }
        let c := c.acquire (Lock.bucket i)
        let c := c.setBuf victim { c.buf victim with next := c.head i }
        let c := c.setHead i (some victim)
        let c := c.release (Lock.bucket i)
        let c := c.release Lock.evict
        acquiresleep pid victim c

/-- The tail of `bread`: `if(!b->valid) { virtio_disk_rw(b, 0); b->valid = 1; }`. -/
def breadFill (b : Nat) (c : BCache) : BCache :=
  if (c.buf b).valid = 0 then
    let c := virtio_disk_rw b false c
    c.setBuf b { c.buf b with valid := 1 }
  else c

/-- The function `bread(dev, blockno)` called by process `pid`. -/
def bread (fuel pid dev blockno : Nat) (c : BCache) : Res BCache Nat :=
  match bget fuel pid dev blockno c with
  | Res.ret b c => Res.ret b (breadFill b c)
  | Res.halt msg c => Res.halt msg c
  | Res.spin => Res.spin
  | Res.sleep b c => Res.sleep b c

/-- The function `bwrite(b)` called by process `pid`. -/
def bwrite (pid b : Nat) (c : BCache) : Res BCache Unit :=
  if !holdingsleep pid b c then Res.halt "bwrite" c
  else Res.ret () (virtio_disk_rw b true c)

/-- The function `brelse(b)` called by process `pid`. -/
def brelse (pid b : Nat) (c : BCache) : Res BCache Unit :=
  if !holdingsleep pid b c then Res.halt "brelse" c
  else
    let c := releasesleep b c
    let i := hash (c.buf b).blockno
    let c := c.acquire (Lock.bucket i)
    let c := c.setBuf b { c.buf b with refcnt := decr32 (c.buf b).refcnt }
    let c := c.release (Lock.bucket i)
    Res.ret () c

/-- The function `bpin(b)`. -/
def bpin (b : Nat) (c : BCache) : Res BCache Unit :=
  let i := hash (c.buf b).blockno
  let c := c.acquire (Lock.bucket i)
  let c := c.setBuf b { c.buf b with refcnt := incr32 (c.buf b).refcnt }
  let c := c.release (Lock.bucket i)
  Res.ret () c

/-- The function `bunpin(b)`. -/
def bunpin (b : Nat) (c : BCache) : Res BCache Unit :=
  let i := hash (c.buf b).blockno
  let c := c.acquire (Lock.bucket i)
  let c := c.setBuf b { c.buf b with refcnt := decr32 (c.buf b).refcnt }
  let c := c.release (Lock.bucket i)
  Res.ret () c

/-! ### Abstraction of the allocator state -/

/-- Frame address accepted by `kfree`: page-aligned, not below `end`, below `PHYSTOP`. -/
def Frame (P : Params) (a : Nat) : Prop :=
  a % PGSIZE = 0 ∧ P.kend ≤ a ∧ a < P.PHYSTOP

instance (P : Params) (a : Nat) : Decidable (Frame P a) := by
  unfold Frame; infer_instance

/-- The linked list that starts at pointer `h` in memory `m` consists of the frames `l`, in this
order, and ends with the null pointer. -/
def FreeList (m : Mem) : Nat → List Nat → Prop
  | h, [] => h = 0
  | h, a :: l => h = a ∧ a ≠ 0 ∧ FreeList m (load64 m a) l

instance FreeList.decide (m : Mem) : (h : Nat) → (l : List Nat) → Decidable (FreeList m h l)
  | h, [] => inferInstanceAs (Decidable (h = 0))
  | h, a :: l =>
    have := FreeList.decide m (load64 m a) l
    inferInstanceAs (Decidable (h = a ∧ a ≠ 0 ∧ FreeList m (load64 m a) l))

/-- Number of frames in the pools of CPUs `0 .. n-1`. -/
def poolTotal (pools : Nat → List Nat) : Nat → Nat
  | 0 => 0
  | n + 1 => poolTotal pools n + (pools n).length

/-- The lists `pools 0 .. pools (NCPU-1)` hold frames only, none twice, and no frame is in two
lists. -/
def PoolLists (P : Params) (pools : Nat → List Nat) : Prop :=
  (∀ i, i < P.NCPU → ∀ a ∈ pools i, Frame P a) ∧
  (∀ i, i < P.NCPU → (pools i).Nodup) ∧
  (∀ i, i < P.NCPU → ∀ j, j < P.NCPU → ∀ a ∈ pools i, i ≠ j → a ∉ pools j)

instance (P : Params) (pools : Nat → List Nat) : Decidable (PoolLists P pools) := by
  unfold PoolLists; infer_instance

/-- The content of the per-CPU free lists of state `s` is `pools`: each `kmems[i].freelist` is
the null-terminated linked list of the frames `pools i`, and the lists are well formed. -/
def Pools (P : Params) (s : KState) (pools : Nat → List Nat) : Prop :=
  (∀ i, i < P.NCPU → FreeList s.mem (s.freelist i) (pools i)) ∧ PoolLists P pools

instance (P : Params) (s : KState) (pools : Nat → List Nat) : Decidable (Pools P s pools) := by
  unfold Pools; infer_instance

/-- Requirements on the constants: the kernel image lies in physical memory and does not end at
address 0, and physical addresses (with the rounding of `PGROUNDUP` and the loop bound
`p + PGSIZE` of `freerange`) fit in 64 bits. -/
def Params.ok (P : Params) : Prop :=
  0 < P.kend ∧ P.kend ≤ P.PHYSTOP ∧ P.PHYSTOP + 2 * PGSIZE ≤ 2 ^ 64

instance (P : Params) : Decidable P.ok := by
  unfold Params.ok; infer_instance

/-- The frames `p, p + PGSIZE, ..., p + (n-1) * PGSIZE`. -/
def frames (p n : Nat) : List Nat :=
  (List.range n).map (fun i => p + i * PGSIZE)

/-- Pools with the list `l` on CPU `cid` and nothing elsewhere. -/
def onlyPool (cid : Nat) (l : List Nat) : Nat → List Nat :=
  upd (fun _ => []) cid l

/-- States reachable from `s0` (the state left by initialization) by calls of `kalloc` and
`kfree` on any CPU, together with the list of frames that are allocated and not yet freed.
A `kfree` is applied only to a frame that is currently allocated. -/
inductive KReach (P : Params) (s0 : KState) : KState → List Nat → Prop where
  | init : KReach P s0 s0 []
  | free (s s1 : KState) (al : List Nat) (cid pa : Nat) :
      KReach P s0 s al → cid < P.NCPU → pa ∈ al → kfree P cid pa s = Res.ret () s1 →
      KReach P s0 s1 (al.erase pa)
  | alloc (s s1 : KState) (al : List Nat) (fuel cid r : Nat) :
      KReach P s0 s al → cid < P.NCPU → kalloc P fuel cid s = Res.ret r s1 → r ≠ 0 →
      KReach P s0 s1 (r :: al)
  | allocFail (s s1 : KState) (al : List Nat) (fuel cid : Nat) :
      KReach P s0 s al → cid < P.NCPU → kalloc P fuel cid s = Res.ret 0 s1 →
      KReach P s0 s1 al

/-! ### Abstraction of the buffer cache state -/

/-- The bucket list that starts at pointer `h` and follows the `next` links consists of the
entries `l`, in this order, and ends with the null pointer. -/
def BList (buf : Nat → Buf) : Option Nat → List Nat → Prop
  | h, [] => h = none
  | h, a :: l => h = some a ∧ BList buf (buf a).next l

instance BList.decide (buf : Nat → Buf) :
    (h : Option Nat) → (l : List Nat) → Decidable (BList buf h l)
  | h, [] => inferInstanceAs (Decidable (h = none))
  | h, a :: l =>
    have := BList.decide buf (buf a).next l
    inferInstanceAs (Decidable (h = some a ∧ BList buf (buf a).next l))

/-- The content of the hash table of state `c` is `L`: bucket `i` is the linked list `L i`, and
each of the `NBUF` entries is in exactly one bucket list, exactly once. -/
def Buckets (NBUF : Nat) (c : BCache) (L : Nat → List Nat) : Prop :=
  (∀ i, i < NBUCKETS → BList c.buf (c.head i) (L i)) ∧
  (∀ i, i < NBUCKETS → ∀ k ∈ L i, k < NBUF) ∧
  (∀ i, i < NBUCKETS → (L i).Nodup) ∧
  (∀ i, i < NBUCKETS → ∀ j, j < NBUCKETS → ∀ k ∈ L i, i ≠ j → k ∉ L j) ∧
  (∀ k, k < NBUF → ∃ i, i < NBUCKETS ∧ k ∈ L i)

instance (NBUF : Nat) (c : BCache) (L : Nat → List Nat) : Decidable (Buckets NBUF c L) := by
  unfold Buckets; infer_instance

/-- Effect of a hit by process `pid` on entry `b`: `c1` is `c` with one more reference on `b`
and, when the lock of `b` was free, with that lock taken by `pid`; no other entry, no other
field of `b`, no list head and no disk block differs. -/
def HitEffect (pid b : Nat) (c c1 : BCache) : Prop :=
  c1.head = c.head ∧ c1.disk = c.disk ∧ (∀ k, k ≠ b → c1.buf k = c.buf k) ∧
  c1.buf b = { c.buf b with
    refcnt := incr32 (c.buf b).refcnt,
    lock := if (c.buf b).lock.locked then (c.buf b).lock else { locked := true, pid := pid } }

/-- Every entry of the bucket list `L i` has a block number that hashes to `i`. -/
def HashInv (c : BCache) (L : Nat → List Nat) : Prop :=
  ∀ i, i < NBUCKETS → ∀ k ∈ L i, hash (c.buf k).blockno = i

instance (c : BCache) (L : Nat → List Nat) : Decidable (HashInv c L) := by
  unfold HashInv; infer_instance

/-- The bucket lists after entry `v` has been taken out of bucket `j` and put at the front of
bucket `i`. -/
def relink (L : Nat → List Nat) (j i v : Nat) : Nat → List Nat :=
  upd (upd L j ((L j).erase v)) i (v :: upd L j ((L j).erase v) i)

/-- Identity discipline of the bucket lists `L`: an entry that is referenced sits in the bucket
of its block number, and no entry earlier in its bucket list carries its identity. -/
def IdInv (NBUF : Nat) (c : BCache) (L : Nat → List Nat) : Prop :=
  (∀ k, k < NBUF → 0 < (c.buf k).refcnt → k ∈ L (hash (c.buf k).blockno)) ∧
  (∀ i, i < NBUCKETS → (L i).Pairwise (fun x y =>
    (c.buf x).dev = (c.buf y).dev ∧ (c.buf x).blockno = (c.buf y).blockno →
      (c.buf y).refcnt = 0))

/-- States of the cache reachable from `c0` by calls of `bget`, `bread`, `bwrite`, `brelse`,
`bpin` and `bunpin`. `brelse`, `bpin` and `bunpin` are applied only to entries with a reference
count of at least 1. A caller of `bget` / `bread` that went to sleep on the entry's lock leaves
the state it slept in, and finishes its call later (`wake`, `wakeRead`). -/
inductive BReach (NBUF : Nat) (c0 : BCache) : BCache → Prop where
  | init : BReach NBUF c0 c0
  | bget (c c1 : BCache) (fuel pid dev blockno b : Nat) :
      BReach NBUF c0 c → bget fuel pid dev blockno c = Res.ret b c1 → BReach NBUF c0 c1
  | bgetSleep (c c1 : BCache) (fuel pid dev blockno b : Nat) :
      BReach NBUF c0 c → bget fuel pid dev blockno c = Res.sleep b c1 → BReach NBUF c0 c1
  | wake (c c1 : BCache) (pid b : Nat) :
      BReach NBUF c0 c → acquiresleep pid b c = Res.ret b c1 → BReach NBUF c0 c1
  | bread (c c1 : BCache) (fuel pid dev blockno b : Nat) :
      BReach NBUF c0 c → bread fuel pid dev blockno c = Res.ret b c1 → BReach NBUF c0 c1
  | breadSleep (c c1 : BCache) (fuel pid dev blockno b : Nat) :
      BReach NBUF c0 c → bread fuel pid dev blockno c = Res.sleep b c1 → BReach NBUF c0 c1
  | wakeRead (c c1 : BCache) (pid b : Nat) :
      BReach NBUF c0 c → acquiresleep pid b c = Res.ret b c1 →
      BReach NBUF c0 (breadFill b c1)
  | bwrite (c c1 : BCache) (pid b : Nat) :
      BReach NBUF c0 c → bwrite pid b c = Res.ret () c1 → BReach NBUF c0 c1
  | brelse (c c1 : BCache) (pid b : Nat) :
      BReach NBUF c0 c → b < NBUF → 1 ≤ (c.buf b).refcnt →
      brelse pid b c = Res.ret () c1 → BReach NBUF c0 c1
  | bpin (c c1 : BCache) (b : Nat) :
      BReach NBUF c0 c → b < NBUF → 1 ≤ (c.buf b).refcnt →
      bpin b c = Res.ret () c1 → BReach NBUF c0 c1
  | bunpin (c c1 : BCache) (b : Nat) :
      BReach NBUF c0 c → b < NBUF → 1 ≤ (c.buf b).refcnt →
      bunpin b c = Res.ret () c1 → BReach NBUF c0 c1

/-- The disk transfers recorded in a log, in order. -/
def ioEvents (log : List Ev) : List Ev :=
  log.filter (fun e => match e with
    | Ev.io _ _ _ => true
    | _ => false)

/-- One operation on the cache: `c1` is the state left by a call of `bget`, `bread`, `bwrite`,
`brelse`, `bpin` or `bunpin` on `c` (for `bget` / `bread` also the state in which the caller
went to sleep), by a sleeper being granted the lock it waits for (`wake`), or by the
read-through tail of `bread` on an entry (`fill`). -/
inductive BStep : BCache → BCache → Prop where
  | bget (c c1 : BCache) (fuel pid dev blockno b : Nat) :
      bget fuel pid dev blockno c = Res.ret b c1 → BStep c c1
  | bgetSleep (c c1 : BCache) (fuel pid dev blockno b : Nat) :
      bget fuel pid dev blockno c = Res.sleep b c1 → BStep c c1
  | wake (c c1 : BCache) (pid b : Nat) :
      acquiresleep pid b c = Res.ret b c1 → BStep c c1
  | bread (c c1 : BCache) (fuel pid dev blockno b : Nat) :
      bread fuel pid dev blockno c = Res.ret b c1 → BStep c c1
  | breadSleep (c c1 : BCache) (fuel pid dev blockno b : Nat) :
      bread fuel pid dev blockno c = Res.sleep b c1 → BStep c c1
  | fill (c : BCache) (b : Nat) : BStep c (breadFill b c)
  | bwrite (c c1 : BCache) (pid b : Nat) :
      bwrite pid b c = Res.ret () c1 → BStep c c1
  | brelse (c c1 : BCache) (pid b : Nat) :
      brelse pid b c = Res.ret () c1 → BStep c c1
  | bpin (c c1 : BCache) (b : Nat) :
      bpin b c = Res.ret () c1 → BStep c c1
  | bunpin (c c1 : BCache) (b : Nat) :
      bunpin b c = Res.ret () c1 → BStep c c1

/-- The holder of entry `b` overwrites its content buffer with `d`: what a caller does between
`bread` and `bwrite`. -/
def BCache.edit (c : BCache) (b : Nat) (d : List Nat) : BCache :=
  c.setBuf b { c.buf b with data := d }

/-- Process `pid` reads and releases the blocks `ys` one after the other
(`b = bread(dev, blockno); brelse(b);` for each); `none` if one of the calls does not return. -/
def churn (fuel pid : Nat) : List (Nat × Nat) → BCache → Option BCache
  | [], c => some c
  | (dev, blockno) :: ys, c =>
    match bread fuel pid dev blockno c with
    | Res.ret b c1 =>
      match brelse pid b c1 with
      | Res.ret _ c2 => churn fuel pid ys c2
      | _ => none
    | _ => none

/-! ### Lock discipline -/

/-- The lock is the spinlock of a pool, `kmems[i].lock`. -/
def Lock.isPool : Lock → Bool
  | Lock.kmem _ => true
  | _ => false

/-- The lock is the spinlock of a bucket, `bcache.locks[i]`. -/
def Lock.isBucket : Lock → Bool
  | Lock.bucket _ => true
  | _ => false

/-- The lock is a spinlock (every lock but the sleep-locks of the cache entries). -/
def Lock.isSpin : Lock → Bool
  | Lock.buf _ => false
  | _ => true

/-- May lock `l` be requested while the locks `held` are held? A pool lock only when no pool
lock is held; the arbiter lock only when no bucket lock is held; a bucket lock only when no
bucket lock is held; the sleep-lock of an entry only when no spinlock is held. -/
def permitted (held : List Lock) : Lock → Bool
  | Lock.kmem _ => held.all (fun h => !h.isPool)
  | Lock.evict => held.all (fun h => !h.isBucket)
  | Lock.bucket _ => held.all (fun h => !h.isBucket)
  | Lock.buf _ => held.all (fun h => !h.isSpin)

/-- Replay of a sequence of events from the set `held` of locks held at its start: `none` as
soon as a lock is requested that is not `permitted` at that moment, otherwise the locks held
(or, for a caller blocked on a sleep-lock, waited for) at the end. -/
def discipline : List Lock → List Ev → Option (List Lock)
  | held, [] => some held
  | held, Ev.acq l :: es => if permitted held l then discipline (l :: held) es else none
  | held, Ev.rel l :: es => discipline (held.erase l) es
  | held, Ev.io _ _ _ :: es => discipline held es

/-- The events an operation added to the log: what `log` has after the first `base.length`
events. -/
def emitted (base log : List Ev) : List Ev :=
  log.drop base.length

/-! ### Concrete runs -/

/-- State carried by an outcome (`d` when a loop ran out of fuel). -/
def Res.state {σ α : Type} (r : Res σ α) (d : σ) : σ :=
  match r with
  | Res.ret _ s => s
  | Res.halt _ s => s
  | Res.spin => d
  | Res.sleep _ s => s

/-- The property `p` holds of the state carried by an outcome, if it carries one. -/
def Res.holds {σ α : Type} (p : σ → Prop) : Res σ α → Prop
  | Res.ret _ s => p s
  | Res.halt _ s => p s
  | Res.spin => True
  | Res.sleep _ s => p s

/-- The property `p` holds of the result and the state of an outcome in which the caller got
its result or waits for it, and `q` of the state of an outcome that halted. -/
def Res.outcome {σ α : Type} (p : α → σ → Prop) (q : σ → Prop) : Res σ α → Prop
  | Res.ret a s => p a s
  | Res.halt _ s => q s
  | Res.spin => True
  | Res.sleep a s => p a s

/-- A small machine: 3 CPUs, kernel image up to `0x1234`, memory up to `0x6000`, so that the
frames are `0x2000`, `0x3000`, `0x4000`, `0x5000`. -/
def demoParams : Params :=
  { NCPU := 3, PHYSTOP := 0x6000, kend := 0x1234 }

/-- The machine at boot, memory zeroed. -/
def demoBoot : KState :=
  KState.boot (fun _ => 0)

/-- After `kinit` on CPU 0. -/
def demoInit : KState :=
  (kinit demoParams 5 0 demoBoot).state demoBoot

/-- After a `kalloc` on CPU 1 (which steals from CPU 0). -/
def demoStolen : KState :=
  (kalloc demoParams 4 1 demoInit).state demoInit

/-- The cache at boot: `bcache` lies in zero-initialised storage. -/
def BCache.boot (data0 : List Nat) (disk : Nat → Nat → List Nat) : BCache :=
  { buf := fun _ =>
      { valid := 0, dev := 0, blockno := 0, refcnt := 0, lock := { locked := false, pid := 0 },
        next := none, data := data0 },
    head := fun _ => none
    disk := disk
    log := [] }

/-- A cache of 3 entries after `binit`. -/
def demoCache : BCache :=
  binit 3 (BCache.boot [] (fun _ _ => []))

/-- The cache of 3 entries after process 7 acquired block 5 of device 1. -/
def demoOne : BCache :=
  (bget 4 7 1 5 demoCache).state demoCache

/-- Then block 18 of device 1 (same bucket as block 5). -/
def demoTwo : BCache :=
  (bget 4 7 1 18 demoOne).state demoOne

/-- Then block 6 of device 1: all three entries are referenced. -/
def demoFull : BCache :=
  (bget 4 7 1 6 demoTwo).state demoTwo

/-- The bucket lists of `demoFull`. -/
def demoFullLists : Nat → List Nat :=
  upd (upd (fun _ => []) 5 [1, 2]) 6 [0]

/-- The bucket lists of `demoCache`: all entries in bucket 0, the last one first. -/
def demoCacheLists : Nat → List Nat :=
  onlyPool 0 [2, 1, 0]

/-- The bucket lists of `demoOne`. -/
def demoOneLists : Nat → List Nat :=
  upd (onlyPool 0 [1, 0]) 5 [2]

/-- A disk on which block 5 of device 1 holds `[10, 20, 30]` and block 6 holds `[40]`. -/
def demoDisk : Nat → Nat → List Nat :=
  fun d n => if d = 1 ∧ n = 5 then [10, 20, 30] else if d = 1 ∧ n = 6 then [40] else []

/-- A cache with a single entry over `demoDisk`, after `binit`. -/
def demoSingle : BCache :=
  binit 1 (BCache.boot [] demoDisk)

/-- Process 7 has read block 5 of device 1 into the single entry. -/
def demoRead : BCache :=
  (bread 2 7 1 5 demoSingle).state demoSingle

/-- It has changed the content of the entry to `[11, 21, 31]`. -/
def demoEdited : BCache :=
  demoRead.edit 0 [11, 21, 31]

/-- It has written the entry back. -/
def demoWritten : BCache :=
  (bwrite 7 0 demoEdited).state demoEdited

/-- It has released the entry. -/
def demoReleased : BCache :=
  (brelse 7 0 demoWritten).state demoWritten

/-- It has read and released block 6, which recycled the single entry. -/
def demoRecycled : BCache :=
  (churn 2 7 [(1, 6)] demoReleased).getD demoReleased

/-- It has read block 5 again. -/
def demoReread : BCache :=
  (bread 2 7 1 5 demoRecycled).state demoRecycled

/-- The cache `demoOne` after process 7 has released entry 2 and the entry has then been pinned
`2^32 - 1` times (`bpin` takes no sleep-lock): its reference count is the largest `uint`, its
lock is free. Entries, list heads and disk are those reached by these calls; their lock events
are left out of the log. -/
def demoPinned : BCache :=
  let c := (brelse 7 2 demoOne).state demoOne
  c.setBuf 2 { c.buf 2 with refcnt := 4294967295 }

/-- The pools of `demoStolen`: CPU 0 has `0x3000, 0x2000`, CPU 1 has `0x4000`, and `0x5000` is
allocated. -/
def demoStolenPools : Nat → List Nat :=
  upd (onlyPool 0 [0x3000, 0x2000]) 1 [0x4000]

/-- CPU 0 frees `0x3000` in `demoStolen`, where that frame is still the head of its pool. -/
def demoDouble : KState :=
  (kfree demoParams 0 0x3000 demoStolen).state demoStolen

/-- CPU 1 frees `0x3000` in `demoStolen`, where that frame is in the pool of CPU 0. -/
def demoCross : KState :=
  (kfree demoParams 1 0x3000 demoStolen).state demoStolen

/-! # Theorems -/

/-! ## Page allocator: memory and free lists -/

theorem load64_congr (m m' : Mem) (a : Nat) (h : ∀ k, k < 8 → m' (a + k) = m (a + k)) :
    load64 m' a = load64 m a := by
  unfold load64
  have h0 := h 0 (by omega)
  rw [Nat.add_zero] at h0
  rw [h0, h 1 (by omega), h 2 (by omega), h 3 (by omega), h 4 (by omega), h 5 (by omega),
    h 6 (by omega), h 7 (by omega)]

theorem load64_lt (m : Mem) (a : Nat) : load64 m a < 2 ^ 64 := by
  unfold load64
  omega

theorem load64_store64_mod (m : Mem) (a v : Nat) :
    load64 (store64 m a v) a = v % 2 ^ 64 := by
  unfold load64 store64
  simp only [show a ≤ a from le_refl a, show a ≤ a + 1 by omega, show a ≤ a + 2 by omega, show a ≤ a + 3 by omega, show a ≤ a + 4 by omega, show a ≤ a + 5 by omega, show a ≤ a + 6 by omega, show a ≤ a + 7 by omega, show a < a + 8 by omega, show a + 1 < a + 8 by omega,
   show a + 2 < a + 8 by omega, show a + 3 < a + 8 by omega, show a + 4 < a + 8 by omega, show a + 5 < a + 8 by omega, show a + 6 < a + 8 by omega, show a + 7 < a + 8 by omega, and_self, if_true, Nat.sub_self, Nat.add_sub_cancel_left, Nat.mod_mod]
  norm_num
  omega

theorem load64_store64_same (m : Mem) (a v : Nat) (hv : v < 2 ^ 64) :
    load64 (store64 m a v) a = v := by
  rw [load64_store64_mod, Nat.mod_eq_of_lt hv]

theorem load64_store64_other (m : Mem) (a v b : Nat) (h : b + 8 ≤ a ∨ a + 8 ≤ b) :
    load64 (store64 m a v) b = load64 m b := by
  apply load64_congr
  intro k hk
  unfold store64
  rw [if_neg]
  omega

theorem load64_memset_other (m : Mem) (dst c n b : Nat) (h : b + 8 ≤ dst ∨ dst + n ≤ b) :
    load64 (memset m dst c n) b = load64 m b := by
  apply load64_congr
  intro k hk
  unfold memset
  rw [if_neg]
  omega

/-! ### Linked free lists in memory -/

theorem aligned_apart (a b : Nat) (ha : a % PGSIZE = 0) (hb : b % PGSIZE = 0) (hab : a ≠ b) :
    a + PGSIZE ≤ b ∨ b + PGSIZE ≤ a := by
  unfold PGSIZE at *
  omega

theorem FreeList.congr_load (m m' : Mem) : ∀ (l : List Nat) (h : Nat),
    (∀ a ∈ l, load64 m' a = load64 m a) → FreeList m h l → FreeList m' h l
  | [], _, _, hl => hl
  | a :: l, h, hag, hl => by
    obtain ⟨h1, h2, h3⟩ := hl
    refine ⟨h1, h2, ?_⟩
    rw [hag a (List.mem_cons_self a l)]
    exact FreeList.congr_load m m' l _ (fun b hb => hag b (List.mem_cons_of_mem a hb)) h3

theorem FreeList.list_unique (m : Mem) : ∀ (l l' : List Nat) (h : Nat),
    FreeList m h l → FreeList m h l' → l = l'
  | [], [], _, _, _ => rfl
  | [], b :: l', h, h1, h2 => by
    have : h = 0 := h1
    obtain ⟨e, ne, _⟩ := h2
    omega
  | a :: l, [], h, h1, h2 => by
    have : h = 0 := h2
    obtain ⟨e, ne, _⟩ := h1
    omega
  | a :: l, b :: l', h, h1, h2 => by
    obtain ⟨e1, _, t1⟩ := h1
    obtain ⟨e2, _, t2⟩ := h2
    have hab : a = b := by omega
    subst hab
    rw [FreeList.list_unique m l l' _ t1 t2]

theorem FreeList.head_eq (m : Mem) (h : Nat) (l : List Nat) (hl : FreeList m h l) :
    h = l.getD 0 0 := by
  cases l with
  | nil => exact hl
  | cons a l => exact hl.1

theorem FreeList.null_iff (m : Mem) (h : Nat) (l : List Nat) (hl : FreeList m h l) :
    h = 0 ↔ l = [] := by
  cases l with
  | nil => simp; exact hl
  | cons a l =>
    obtain ⟨e, ne, _⟩ := hl
    simp; omega

theorem FreeList.getD_ne (m : Mem) : ∀ (l : List Nat) (h : Nat), FreeList m h l →
    ∀ j, j < l.length → l.getD j 0 ≠ 0
  | [], _, _, j, hj => by simp at hj
  | a :: l, h, hl, 0, _ => by simpa using hl.2.1
  | a :: l, h, hl, j + 1, hj => by
    simp only [List.getD_cons_succ]
    exact FreeList.getD_ne m l _ hl.2.2 j (by simpa using hj)

theorem FreeList.next (m : Mem) : ∀ (l : List Nat) (h : Nat), FreeList m h l →
    ∀ j, j < l.length → load64 m (l.getD j 0) = l.getD (j + 1) 0
  | [], _, _, j, hj => by simp at hj
  | a :: l, h, hl, 0, _ => by
    simp only [List.getD_cons_zero, List.getD_cons_succ]
    exact FreeList.head_eq m _ l hl.2.2
  | a :: l, h, hl, j + 1, hj => by
    simp only [List.getD_cons_succ]
    exact FreeList.next m l _ hl.2.2 j (by simpa using hj)

theorem FreeList.drop (m : Mem) : ∀ (l : List Nat) (h : Nat), FreeList m h l →
    ∀ j, FreeList m (l.getD j 0) (l.drop j)
  | [], _, _, j => by simp [FreeList]
  | a :: l, h, hl, 0 => by
    simp only [List.getD_cons_zero, List.drop_zero]
    exact ⟨rfl, hl.2.1, hl.2.2⟩
  | a :: l, h, hl, j + 1 => by
    simp only [List.getD_cons_succ, List.drop_succ_cons]
    exact FreeList.drop m l _ hl.2.2 j

theorem getD_mem (l : List Nat) (j : Nat) (hj : j < l.length) : l.getD j 0 ∈ l := by
  rw [List.getD_eq_getElem l 0 hj]
  exact List.getElem_mem hj

/-- Cutting the list after node `j`: storing the null pointer into the link of node `j` leaves
the first `j + 1` nodes linked from the old head. -/
theorem FreeList.take (m : Mem) : ∀ (l : List Nat) (h : Nat), FreeList m h l → l.Nodup →
    (∀ a ∈ l, a % PGSIZE = 0) → ∀ j, j < l.length →
    FreeList (store64 m (l.getD j 0) 0) h (l.take (j + 1))
  | [], _, _, _, _, j, hj => by simp at hj
  | a :: l, h, hl, _, _, 0, _ => by
    simp only [List.getD_cons_zero, List.take_succ_cons, List.take_zero]
    refine ⟨hl.1, hl.2.1, ?_⟩
    rw [load64_store64_same m a 0 (by norm_num)]
    rfl
  | a :: l, h, hl, hnd, hal, j + 1, hj => by
    have hj' : j < l.length := by simpa using hj
    simp only [List.getD_cons_succ, List.take_succ_cons]
    have hx : l.getD j 0 ∈ l := getD_mem l j hj'
    have hne : l.getD j 0 ≠ a := by
      intro e
      rw [e] at hx
      exact (List.nodup_cons.mp hnd).1 hx
    have hap := aligned_apart _ _ (hal _ (List.mem_cons_of_mem a hx))
      (hal a (List.mem_cons_self a l)) hne
    refine ⟨hl.1, hl.2.1, ?_⟩
    rw [load64_store64_other m _ 0 a (by unfold PGSIZE at hap; omega)]
    exact FreeList.take m l _ hl.2.2 (List.nodup_cons.mp hnd).2
      (fun b hb => hal b (List.mem_cons_of_mem a hb)) j hj'

theorem splitLoop_succ (m : Mem) (fuel slow fast : Nat) :
    splitLoop m (fuel + 1) slow fast =
      if load64 m fast ≠ 0 ∧ load64 m (load64 m fast) ≠ 0 then
        splitLoop m fuel (load64 m slow) (load64 m (load64 m fast))
      else some slow := rfl

/-- The tortoise/hare loop started with `slow` at node `i` and `fast` at node `2 * i` of a list
of `k` nodes stops with `slow` at node `(k - 1) / 2`. -/
theorem splitLoop_spec (m : Mem) (l : List Nat) (h : Nat) (hl : FreeList m h l) :
    ∀ (fuel i : Nat), 2 * i < l.length → (l.length - 1) / 2 - i < fuel →
      splitLoop m fuel (l.getD i 0) (l.getD (2 * i) 0) = some (l.getD ((l.length - 1) / 2) 0)
  | 0, _, _, hf => by omega
  | fuel + 1, i, hi, hf => by
    rw [splitLoop_succ]
    have n1 := FreeList.next m l h hl (2 * i) hi
    by_cases hc : 2 * i + 2 < l.length
    · have n2 := FreeList.next m l h hl (2 * i + 1) (by omega)
      have n3 := FreeList.next m l h hl i (by omega)
      have z1 := FreeList.getD_ne m l h hl (2 * i + 1) (by omega)
      have z2 := FreeList.getD_ne m l h hl (2 * i + 2) hc
      rw [n1, n2, n3, if_pos ⟨z1, z2⟩]
      have := splitLoop_spec m l h hl fuel (i + 1) (by omega) (by omega)
      rw [show 2 * (i + 1) = 2 * i + 1 + 1 by ring] at this
      exact this
    · have hstop : ¬ (load64 m (l.getD (2 * i) 0) ≠ 0 ∧
          load64 m (load64 m (l.getD (2 * i) 0)) ≠ 0) := by
        rw [n1]
        intro ⟨c1, c2⟩
        by_cases h1 : 2 * i + 1 < l.length
        · have n2 := FreeList.next m l h hl (2 * i + 1) h1
          rw [n2] at c2
          apply c2
          exact List.getD_eq_default l 0 (by omega)
        · apply c1
          exact List.getD_eq_default l 0 (by omega)
      rw [if_neg hstop]
      have : i = (l.length - 1) / 2 := by omega
      rw [← this]

/-! ### State bookkeeping -/

@[simp] theorem upd_same {α : Type} (t : Nat → α) (i : Nat) (v : α) : upd t i v i = v := by
  simp [upd]

theorem upd_ne {α : Type} (t : Nat → α) (i j : Nat) (v : α) (h : j ≠ i) : upd t i v j = t j := by
  simp [upd, h]

@[simp] theorem KState.acquire_mem (s : KState) (i : Nat) : (s.acquire i).mem = s.mem := rfl
@[simp] theorem KState.acquire_freelist (s : KState) (i : Nat) :
    (s.acquire i).freelist = s.freelist := rfl
@[simp] theorem KState.release_mem (s : KState) (i : Nat) : (s.release i).mem = s.mem := rfl
@[simp] theorem KState.release_freelist (s : KState) (i : Nat) :
    (s.release i).freelist = s.freelist := rfl
@[simp] theorem KState.setFreelist_mem (s : KState) (i v : Nat) :
    (s.setFreelist i v).mem = s.mem := rfl
@[simp] theorem KState.setFreelist_freelist (s : KState) (i v : Nat) :
    (s.setFreelist i v).freelist = upd s.freelist i v := rfl
@[simp] theorem KState.setMem_mem (s : KState) (m : Mem) : (s.setMem m).mem = m := rfl
@[simp] theorem KState.setMem_freelist (s : KState) (m : Mem) :
    (s.setMem m).freelist = s.freelist := rfl

theorem Pools.of_eq (P : Params) (s s1 : KState) (pools : Nat → List Nat)
    (hm : s1.mem = s.mem) (hf : s1.freelist = s.freelist) (h : Pools P s pools) :
    Pools P s1 pools := by
  unfold Pools at *
  rw [hm, hf]
  exact h

theorem Pools.head (P : Params) (s : KState) (pools : Nat → List Nat) (h : Pools P s pools)
    (i : Nat) (hi : i < P.NCPU) : s.freelist i = (pools i).getD 0 0 :=
  FreeList.head_eq _ _ _ (h.1 i hi)

theorem Pools.head_lt (P : Params) (s : KState) (pools : Nat → List Nat) (hP : P.ok)
    (h : Pools P s pools) (i : Nat) (hi : i < P.NCPU) : s.freelist i < 2 ^ 64 := by
  rw [Pools.head P s pools h i hi]
  rcases hl : pools i with _ | ⟨a, l⟩
  · simp
  · have := h.2.1 i hi a (by rw [hl]; exact List.mem_cons_self a l)
    simp only [List.getD_cons_zero]
    have h2 := hP.2.2
    have h3 := this.2.2
    unfold PGSIZE at h2
    omega

theorem Frame.ne_zero (P : Params) (hP : P.ok) (a : Nat) (h : Frame P a) : a ≠ 0 := by
  have := hP.1
  have := h.2.1
  omega

/-! ### `kfree` on the abstraction -/

theorem load64_kfree_other (m : Mem) (pa v a : Nat) (ha : a % PGSIZE = 0)
    (hpa : pa % PGSIZE = 0) (hne : a ≠ pa) :
    load64 (store64 (memset m pa 1 PGSIZE) pa v) a = load64 m a := by
  have hap := aligned_apart a pa ha hpa hne
  rw [load64_store64_other _ _ _ _ (by unfold PGSIZE at hap; omega),
    load64_memset_other _ _ _ _ _ (by unfold PGSIZE at *; omega)]

/-- A `kfree` of a frame that is in no pool pushes it on the pool of the calling CPU. -/
theorem kfree_pools (P : Params) (s : KState) (pools : Nat → List Nat) (cid pa : Nat)
    (hP : P.ok) (hrep : Pools P s pools) (hcid : cid < P.NCPU) (hf : Frame P pa)
    (hnew : ∀ i, i < P.NCPU → pa ∉ pools i) :
    ∃ s1, kfree P cid pa s = Res.ret () s1 ∧ Pools P s1 (upd pools cid (pa :: pools cid)) ∧
      s1.freelist = upd s.freelist cid pa ∧
      s1.mem = store64 (memset s.mem pa 1 PGSIZE) pa (s.freelist cid) := by
  have hcond : ¬ (pa % PGSIZE ≠ 0 ∨ pa < P.kend ∨ pa ≥ P.PHYSTOP) := by
    obtain ⟨h1, h2, h3⟩ := hf
    omega
  refine ⟨_, by unfold kfree; rw [if_neg hcond], ?_, rfl, rfl⟩
  simp only [KState.acquire_mem, KState.acquire_freelist, KState.release_mem,
    KState.release_freelist, KState.setFreelist_mem, KState.setFreelist_freelist,
    KState.setMem_mem, KState.setMem_freelist, Pools]
  have hkeep : ∀ i, i < P.NCPU → ∀ a ∈ pools i,
      load64 (store64 (memset s.mem pa 1 PGSIZE) pa (s.freelist cid)) a = load64 s.mem a := by
    intro i hi a ha
    apply load64_kfree_other _ _ _ _ (hrep.2.1 i hi a ha).1 hf.1
    intro e
    rw [e] at ha
    exact hnew i hi ha
  refine ⟨?_, ?_, ?_, ?_⟩
  · intro i hi
    by_cases hic : i = cid
    · subst hic
      rw [upd_same, upd_same]
      refine ⟨rfl, Frame.ne_zero P hP pa hf, ?_⟩
      rw [load64_store64_same _ _ _ (Pools.head_lt P s pools hP hrep i hi)]
      exact FreeList.congr_load _ _ _ _ (hkeep i hi) (hrep.1 i hi)
    · rw [upd_ne _ _ _ _ hic, upd_ne _ _ _ _ hic]
      exact FreeList.congr_load _ _ _ _ (hkeep i hi) (hrep.1 i hi)
  · intro i hi a ha
    by_cases hic : i = cid
    · subst hic
      rw [upd_same] at ha
      rcases List.mem_cons.mp ha with e | e
      · rw [e]; exact hf
      · exact hrep.2.1 i hi a e
    · rw [upd_ne _ _ _ _ hic] at ha
      exact hrep.2.1 i hi a ha
  · intro i hi
    by_cases hic : i = cid
    · subst hic
      rw [upd_same]
      exact List.nodup_cons.mpr ⟨hnew i hi, hrep.2.2.1 i hi⟩
    · rw [upd_ne _ _ _ _ hic]
      exact hrep.2.2.1 i hi
  · intro i hi j hj a ha hij
    by_cases hic : i = cid
    · subst hic
      rw [upd_same] at ha
      rw [upd_ne _ _ _ _ (Ne.symm hij)]
      rcases List.mem_cons.mp ha with e | e
      · rw [e]; exact hnew j hj
      · exact hrep.2.2.2 i hi j hj a e hij
    · rw [upd_ne _ _ _ _ hic] at ha
      by_cases hjc : j = cid
      · subst hjc
        rw [upd_same]
        intro hmem
        rcases List.mem_cons.mp hmem with e | e
        · rw [e] at ha; exact hnew i hi ha
        · exact hrep.2.2.2 i hi j hj a ha hij e
      · rw [upd_ne _ _ _ _ hjc]
        exact hrep.2.2.2 i hi j hj a ha hij

/-! ### `kalloc` on the abstraction -/

/-- Shrinking every list to a sublist keeps the lists well formed. -/
theorem PoolLists.sublist (P : Params) (pools pools1 : Nat → List Nat) (h : PoolLists P pools)
    (hsub : ∀ i, i < P.NCPU → (pools1 i).Sublist (pools i)) : PoolLists P pools1 := by
  refine ⟨?_, ?_, ?_⟩
  · intro i hi a ha
    exact h.1 i hi a ((hsub i hi).subset ha)
  · intro i hi
    exact (h.2.1 i hi).sublist (hsub i hi)
  · intro i hi j hj a ha hij hmem
    exact h.2.2 i hi j hj a ((hsub i hi).subset ha) hij ((hsub j hj).subset hmem)

/-- Moving part of list `B` to the empty list `A` keeps the lists well formed. -/
theorem PoolLists.move (P : Params) (pools : Nat → List Nat) (A B : Nat) (la lb : List Nat)
    (h : PoolLists P pools) (hA : A < P.NCPU) (hB : B < P.NCPU) (hAB : B ≠ A)
    (hAe : pools A = []) (hsub : (la ++ lb).Sublist (pools B)) :
    PoolLists P (upd (upd pools B lb) A la) := by
  have hnd : (la ++ lb).Nodup := (h.2.1 B hB).sublist hsub
  have hla : ∀ a ∈ la, a ∈ pools B := fun a ha => hsub.subset (List.mem_append_left lb ha)
  have hlb : ∀ a ∈ lb, a ∈ pools B := fun a ha => hsub.subset (List.mem_append_right la ha)
  have hval : ∀ i, i < P.NCPU → ∀ a ∈ upd (upd pools B lb) A la i,
      (i = A ∧ a ∈ la) ∨ (i = B ∧ a ∈ lb) ∨ (i ≠ A ∧ i ≠ B ∧ a ∈ pools i) := by
    intro i _ a ha
    by_cases hiA : i = A
    · subst hiA
      rw [upd_same] at ha
      exact Or.inl ⟨rfl, ha⟩
    · rw [upd_ne _ _ _ _ hiA] at ha
      by_cases hiB : i = B
      · subst hiB
        rw [upd_same] at ha
        exact Or.inr (Or.inl ⟨rfl, ha⟩)
      · rw [upd_ne _ _ _ _ hiB] at ha
        exact Or.inr (Or.inr ⟨hiA, hiB, ha⟩)
  refine ⟨?_, ?_, ?_⟩
  · intro i hi a ha
    rcases hval i hi a ha with ⟨_, m⟩ | ⟨_, m⟩ | ⟨_, _, m⟩
    · exact h.1 B hB a (hla a m)
    · exact h.1 B hB a (hlb a m)
    · exact h.1 i hi a m
  · intro i hi
    by_cases hiA : i = A
    · subst hiA
      rw [upd_same]
      exact (List.nodup_append.mp hnd).1
    · rw [upd_ne _ _ _ _ hiA]
      by_cases hiB : i = B
      · subst hiB
        rw [upd_same]
        exact (List.nodup_append.mp hnd).2.1
      · rw [upd_ne _ _ _ _ hiB]
        exact h.2.1 i hi
  · intro i hi j hj a ha hij hmem
    have hdis := (List.nodup_append.mp hnd).2.2
    rcases hval i hi a ha with ⟨e1, m1⟩ | ⟨e1, m1⟩ | ⟨n1, n2, m1⟩ <;>
      rcases hval j hj a hmem with ⟨e2, m2⟩ | ⟨e2, m2⟩ | ⟨k1, k2, m2⟩
    · exact hij (e1.trans e2.symm)
    · exact hdis m1 m2
    · exact h.2.2 B hB j hj a (hla a m1) (Ne.symm k2) m2
    · exact hdis m2 m1
    · exact hij (e1.trans e2.symm)
    · exact h.2.2 B hB j hj a (hlb a m1) (Ne.symm k2) m2
    · exact h.2.2 i hi B hB a m1 n2 (hla a m2)
    · exact h.2.2 i hi B hB a m1 n2 (hlb a m2)
    · exact h.2.2 i hi j hj a m1 hij m2

theorem kalloc_eq_local (P : Params) (fuel cid : Nat) (s : KState) (h : s.freelist cid ≠ 0) :
    kalloc P fuel cid s = Res.ret (s.freelist cid)
      ((((s.acquire cid).setFreelist cid (load64 s.mem (s.freelist cid))).release cid).setMem
        (memset s.mem (s.freelist cid) 5 PGSIZE)) := by
  unfold kalloc
  simp only [KState.acquire_freelist, KState.acquire_mem, if_pos h]
  rfl

theorem kalloc_eq_steal (P : Params) (fuel cid : Nat) (s : KState) (h : s.freelist cid = 0) :
    kalloc P fuel cid s = kallocSteal fuel cid P.NCPU 0 ((s.acquire cid).release cid) := by
  unfold kalloc
  simp only [KState.acquire_freelist, KState.acquire_mem, h]
  rfl

theorem load64_alloc_other (m : Mem) (f a : Nat) (ha : a % PGSIZE = 0)
    (hf : f % PGSIZE = 0) (hne : a ≠ f) :
    load64 (memset m f 5 PGSIZE) a = load64 m a := by
  have hap := aligned_apart a f ha hf hne
  rw [load64_memset_other _ _ _ _ _ (by unfold PGSIZE at *; omega)]

theorem memset_inside (m : Mem) (dst c n k : Nat) (hk : k < n) :
    memset m dst c n (dst + k) = c % 256 := by
  unfold memset
  rw [if_pos (by omega)]

theorem memset_outside (m : Mem) (dst c n x : Nat) (hx : x < dst ∨ dst + n ≤ x) :
    memset m dst c n x = m x := by
  unfold memset
  rw [if_neg (by omega)]

/-- Local path of `kalloc`: with a non-empty own pool the head frame is popped. -/
theorem kalloc_local_pools (P : Params) (s : KState) (pools : Nat → List Nat)
    (fuel cid f : Nat) (rest : List Nat) (hrep : Pools P s pools) (hcid : cid < P.NCPU)
    (hp : pools cid = f :: rest) :
    ∃ s1, kalloc P fuel cid s = Res.ret f s1 ∧ Pools P s1 (upd pools cid rest) ∧
      s1.freelist = upd s.freelist cid (rest.getD 0 0) ∧
      s1.mem = memset s.mem f 5 PGSIZE := by
  have hch := hrep.1 cid hcid
  rw [hp] at hch
  obtain ⟨hhead, hne, htail⟩ := hch
  have hfin : f ∈ pools cid := by rw [hp]; exact List.mem_cons_self f rest
  have hnd : (f :: rest).Nodup := by rw [← hp]; exact hrep.2.2.1 cid hcid
  have hkeep : ∀ i, i < P.NCPU → ∀ a ∈ upd pools cid rest i,
      load64 (memset s.mem f 5 PGSIZE) a = load64 s.mem a := by
    intro i hi a ha
    by_cases hic : i = cid
    · subst hic
      rw [upd_same] at ha
      have hain : a ∈ pools i := by rw [hp]; exact List.mem_cons_of_mem f ha
      apply load64_alloc_other _ _ _ (hrep.2.1 i hi a hain).1 (hrep.2.1 i hi f hfin).1
      intro e
      rw [e] at ha
      exact (List.nodup_cons.mp hnd).1 ha
    · rw [upd_ne _ _ _ _ hic] at ha
      apply load64_alloc_other _ _ _ (hrep.2.1 i hi a ha).1 (hrep.2.1 cid hcid f hfin).1
      intro e
      rw [e] at ha
      exact hrep.2.2.2 cid hcid i hi f hfin (Ne.symm hic) ha
  have hnz : s.freelist cid ≠ 0 := by rw [hhead]; exact hne
  rw [kalloc_eq_local P fuel cid s hnz, hhead]
  refine ⟨_, rfl, ⟨?_, ?_⟩, ?_, rfl⟩
  · intro i hi
    simp only [KState.setMem_mem, KState.setMem_freelist, KState.release_freelist,
      KState.setFreelist_freelist, KState.acquire_freelist]
    by_cases hic : i = cid
    · subst hic
      rw [upd_same, upd_same]
      have := FreeList.congr_load s.mem _ rest _ (by
        intro a ha
        have := hkeep i hi a (by rw [upd_same]; exact ha)
        exact this) htail
      exact this
    · rw [upd_ne _ _ _ _ hic]
      exact FreeList.congr_load s.mem _ _ _ (hkeep i hi) (by
        rw [upd_ne _ _ _ _ hic]; exact hrep.1 i hi)
  · apply PoolLists.sublist P pools _ hrep.2
    intro i hi
    by_cases hic : i = cid
    · subst hic
      rw [upd_same, hp]
      exact List.sublist_cons_self f rest
    · rw [upd_ne _ _ _ _ hic]
  · simp only [KState.setMem_freelist, KState.release_freelist,
      KState.setFreelist_freelist, KState.acquire_freelist, KState.acquire_mem]
    rw [FreeList.head_eq _ _ _ htail]

theorem load64_steal_other (m : Mem) (slow f a : Nat) (ha : a % PGSIZE = 0)
    (hs : slow % PGSIZE = 0) (hf : f % PGSIZE = 0) (hne1 : a ≠ slow) (hne2 : a ≠ f) :
    load64 (memset (store64 m slow 0) f 5 PGSIZE) a = load64 m a := by
  have h1 := aligned_apart a slow ha hs hne1
  rw [load64_alloc_other _ _ _ ha hf hne2,
    load64_store64_other _ _ _ _ (by unfold PGSIZE at *; omega)]

theorem take_tail_append_drop (l : List Nat) (n : Nat) :
    (l.take (n + 1)).tail ++ l.drop (n + 1) = l.tail := by
  cases l with
  | nil => simp
  | cons a l => simp

theorem stealHalf_eq (fuel cid i slow : Nat) (s : KState)
    (h : splitLoop s.mem fuel (s.freelist i) (s.freelist i) = some slow) :
    stealHalf fuel cid i s = Res.ret (s.freelist i)
      ((((((((s.setFreelist i (load64 s.mem slow)).setMem (store64 s.mem slow 0)).release
        i).acquire cid).setFreelist cid (s.freelist i)).setFreelist cid
        (load64 (store64 s.mem slow 0) (s.freelist i))).release cid).setMem
        (memset (store64 s.mem slow 0) (s.freelist i) 5 PGSIZE)) := by
  unfold stealHalf
  simp only [h]
  simp only [KState.acquire_freelist, KState.acquire_mem, KState.release_freelist,
    KState.release_mem, KState.setFreelist_freelist, KState.setFreelist_mem,
    KState.setMem_freelist, KState.setMem_mem, upd_same]

/-- Stealing: CPU `cid` with an empty pool takes the front half of the pool `l` of CPU `B`,
cut after node `(|l| - 1) / 2`, and allocates its first frame. -/
theorem stealHalf_pools (P : Params) (s : KState) (pools : Nat → List Nat)
    (fuel cid B f : Nat) (rest : List Nat) (hrep : Pools P s pools) (hcid : cid < P.NCPU)
    (hB : B < P.NCPU) (hBc : B ≠ cid) (hAe : pools cid = []) (hp : pools B = f :: rest)
    (hfuel : (rest.length + 1) / 2 + 1 ≤ fuel) :
    ∃ s1, stealHalf fuel cid B s = Res.ret f s1 ∧
      Pools P s1 (upd (upd pools B ((f :: rest).drop ((rest.length + 2) / 2))) cid
        (((f :: rest).take ((rest.length + 2) / 2)).tail)) ∧
      (∀ j, j ≠ cid → j ≠ B → s1.freelist j = s.freelist j) ∧
      (∀ k, k < PGSIZE → s1.mem (f + k) = 5) ∧
      (∀ x, (∀ a ∈ f :: rest, x < a ∨ a + PGSIZE ≤ x) → s1.mem x = s.mem x) := by
  have hch := hrep.1 B hB
  rw [hp] at hch
  have hfl : s.freelist B = f := hch.1
  have hnd : (f :: rest).Nodup := by rw [← hp]; exact hrep.2.2.1 B hB
  have hal : ∀ a ∈ f :: rest, a % PGSIZE = 0 := by
    intro a ha
    rw [← hp] at ha
    exact (hrep.2.1 B hB a ha).1
  have hlen : (f :: rest).length = rest.length + 1 := by simp
  -- the loop
  have hloop := splitLoop_spec s.mem (f :: rest) _ hch fuel 0 (by simp) (by rw [hlen]; omega)
  rw [hlen] at hloop
  simp only [Nat.mul_zero, List.getD_cons_zero, Nat.add_sub_cancel] at hloop
  set j0 := rest.length / 2 with hj0
  have hj0lt : j0 < (f :: rest).length := by rw [hlen]; omega
  have hcut : (rest.length + 2) / 2 = j0 + 1 := by omega
  set slow := (f :: rest).getD j0 0 with hslow
  have hslow_mem : slow ∈ f :: rest := getD_mem _ _ hj0lt
  have hnext := FreeList.next s.mem _ _ hch j0 hj0lt
  have htake := FreeList.take s.mem _ _ hch hnd hal j0 hj0lt
  have hdrop := FreeList.drop s.mem _ _ hch (j0 + 1)
  rw [← hslow] at hnext htake
  rw [hcut]
  -- the two halves are disjoint parts of the old list
  have hsplit : (f :: rest).take (j0 + 1) ++ (f :: rest).drop (j0 + 1) = f :: rest :=
    List.take_append_drop _ _
  have hnd2 : ((f :: rest).take (j0 + 1) ++ (f :: rest).drop (j0 + 1)).Nodup := by
    rw [hsplit]; exact hnd
  have hslow_take : slow ∈ (f :: rest).take (j0 + 1) := by
    rw [hslow, List.getD_eq_getElem _ 0 hj0lt]
    exact List.mem_take_iff_getElem.mpr ⟨j0, by rw [hlen] at hj0lt ⊢; omega, rfl⟩
  have hf_take : f ∈ (f :: rest).take (j0 + 1) := by
    simp
  have htake_cons : (f :: rest).take (j0 + 1) = f :: ((f :: rest).take (j0 + 1)).tail := by
    simp
  have hdis := (List.nodup_append.mp hnd2).2.2
  have hfal := hal f (List.mem_cons_self f rest)
  have hsal := hal slow hslow_mem
  rw [← hfl] at hloop
  rw [stealHalf_eq fuel cid B slow s hloop, hfl]
  refine ⟨_, rfl, ⟨?_, ?_⟩, ?_, ?_, ?_⟩
  · intro i hi
    simp only [KState.acquire_freelist, KState.acquire_mem, KState.release_freelist,
      KState.release_mem, KState.setFreelist_freelist, KState.setFreelist_mem,
      KState.setMem_freelist, KState.setMem_mem]
    by_cases hic : i = cid
    · subst hic
      rw [upd_same, upd_same]
      rw [htake_cons] at htake
      have ht := htake.2.2
      refine FreeList.congr_load _ _ _ _ ?_ ht
      intro a ha
      have hain : a ∈ (f :: rest).take (j0 + 1) := by
        rw [htake_cons]; exact List.mem_cons_of_mem f ha
      have hne : a ≠ f := by
        intro e
        rw [e] at ha
        have : (f :: ((f :: rest).take (j0 + 1)).tail).Nodup := by
          rw [← htake_cons]; exact (List.nodup_append.mp hnd2).1
        exact (List.nodup_cons.mp this).1 ha
      exact load64_alloc_other _ _ _ (hal a (List.mem_of_mem_take hain)) hfal hne
    · rw [upd_ne _ _ _ _ hic, upd_ne _ _ _ _ hic, upd_ne _ _ _ _ hic]
      by_cases hiB : i = B
      · subst hiB
        rw [upd_same, upd_same, hnext]
        refine FreeList.congr_load _ _ _ _ ?_ hdrop
        intro a ha
        apply load64_steal_other _ _ _ _ (hal a (List.mem_of_mem_drop ha)) hsal hfal
        · intro e; rw [e] at ha; exact hdis hslow_take ha
        · intro e; rw [e] at ha; exact hdis hf_take ha
      · rw [upd_ne _ _ _ _ hiB, upd_ne _ _ _ _ hiB]
        refine FreeList.congr_load _ _ _ _ ?_ (hrep.1 i hi)
        intro a ha
        apply load64_steal_other _ _ _ _ (hrep.2.1 i hi a ha).1 hsal hfal
        · intro e; rw [e] at ha
          exact hrep.2.2.2 B hB i hi slow (by rw [hp]; exact hslow_mem) (Ne.symm hiB) ha
        · intro e; rw [e] at ha
          exact hrep.2.2.2 B hB i hi f (by rw [hp]; exact List.mem_cons_self f rest)
            (Ne.symm hiB) ha
  · apply PoolLists.move P pools cid B _ _ hrep.2 hcid hB hBc hAe
    rw [take_tail_append_drop, hp]
    exact List.sublist_cons_self f rest
  · intro j hj1 hj2
    simp only [KState.acquire_freelist, KState.release_freelist,
      KState.setFreelist_freelist, KState.setMem_freelist]
    rw [upd_ne _ _ _ _ hj1, upd_ne _ _ _ _ hj1, upd_ne _ _ _ _ hj2]
  · intro k hk
    simp only [KState.setMem_mem]
    rw [memset_inside _ _ _ _ _ hk]
  · intro x hx
    simp only [KState.setMem_mem]
    have h1 := hx f (List.mem_cons_self f rest)
    have h2 := hx slow hslow_mem
    rw [memset_outside _ _ _ _ _ h1]
    unfold store64
    rw [if_neg (by unfold PGSIZE at h2; omega)]

theorem kallocSteal_succ (fuel cid n i : Nat) (s : KState) :
    kallocSteal fuel cid (n + 1) i s =
      if i = cid then kallocSteal fuel cid n (i + 1) s
      else if (s.acquire i).freelist i ≠ 0 then stealHalf fuel cid i (s.acquire i)
      else kallocSteal fuel cid n (i + 1) ((s.acquire i).release i) := rfl

/-- The stealing loop finds nothing when every other pool is empty. -/
theorem kallocSteal_none (fuel cid : Nat) : ∀ (n i : Nat) (s : KState),
    (∀ j, i ≤ j → j < i + n → j ≠ cid → s.freelist j = 0) →
    ∃ s1, kallocSteal fuel cid n i s = Res.ret 0 s1 ∧ s1.mem = s.mem ∧
      s1.freelist = s.freelist
  | 0, _, s, _ => ⟨s, rfl, rfl, rfl⟩
  | n + 1, i, s, h => by
    rw [kallocSteal_succ]
    by_cases hic : i = cid
    · rw [if_pos hic]
      exact kallocSteal_none fuel cid n (i + 1) s (fun j h1 h2 h3 => h j (by omega) (by omega) h3)
    · rw [if_neg hic]
      have hz : ¬ ((s.acquire i).freelist i ≠ 0) := by
        simp only [KState.acquire_freelist]
        have := h i (le_refl i) (by omega) hic
        omega
      rw [if_neg hz]
      obtain ⟨s1, e, hm, hf⟩ := kallocSteal_none fuel cid n (i + 1) ((s.acquire i).release i)
        (fun j h1 h2 h3 => h j (by omega) (by omega) h3)
      exact ⟨s1, e, hm, hf⟩

/-- The stealing loop stops at the first other CPU with a non-empty pool. -/
theorem kallocSteal_hit (fuel cid B : Nat) (hBc : B ≠ cid) : ∀ (n i : Nat) (s : KState),
    i ≤ B → B < i + n → s.freelist B ≠ 0 →
    (∀ j, i ≤ j → j < B → j ≠ cid → s.freelist j = 0) →
    ∃ s0, s0.mem = s.mem ∧ s0.freelist = s.freelist ∧
      kallocSteal fuel cid n i s = stealHalf fuel cid B s0
  | 0, i, _, h1, h2, _, _ => by omega
  | n + 1, i, s, h1, h2, hnz, h => by
    rw [kallocSteal_succ]
    by_cases hic : i = cid
    · rw [if_pos hic]
      have : i ≠ B := by intro e; exact hBc (e.symm.trans hic)
      exact kallocSteal_hit fuel cid B hBc n (i + 1) s (by omega) (by omega) hnz
        (fun j a b c => h j (by omega) b c)
    · rw [if_neg hic]
      by_cases hiB : i = B
      · subst hiB
        rw [if_pos (by simpa using hnz)]
        exact ⟨s.acquire i, rfl, rfl, rfl⟩
      · have hz : ¬ ((s.acquire i).freelist i ≠ 0) := by
          simp only [KState.acquire_freelist]
          have := h i (le_refl i) (by omega) hic
          omega
        rw [if_neg hz]
        obtain ⟨s0, hm, hf, e⟩ := kallocSteal_hit fuel cid B hBc n (i + 1)
          ((s.acquire i).release i) (by omega) (by omega) hnz (fun j a b c => h j (by omega) b c)
        exact ⟨s0, hm, hf, e⟩

/-- Failure path of `kalloc`: all pools empty. -/
theorem kalloc_fail_pools (P : Params) (s : KState) (pools : Nat → List Nat) (fuel cid : Nat)
    (hrep : Pools P s pools) (hcid : cid < P.NCPU) (hall : ∀ i, i < P.NCPU → pools i = []) :
    ∃ s1, kalloc P fuel cid s = Res.ret 0 s1 ∧ s1.mem = s.mem ∧ s1.freelist = s.freelist := by
  have hz : ∀ i, i < P.NCPU → s.freelist i = 0 := by
    intro i hi
    exact (FreeList.null_iff _ _ _ (hrep.1 i hi)).mpr (hall i hi)
  rw [kalloc_eq_steal P fuel cid s (hz cid hcid)]
  obtain ⟨s1, e, hm, hf⟩ := kallocSteal_none fuel cid P.NCPU 0 ((s.acquire cid).release cid)
    (fun j _ h2 _ => hz j (by omega))
  exact ⟨s1, e, hm, hf⟩

/-- Stealing path of `kalloc`: own pool empty, `B` the first other CPU with a non-empty pool. -/
theorem kalloc_steal_pools (P : Params) (s : KState) (pools : Nat → List Nat)
    (fuel cid B f : Nat) (rest : List Nat) (hrep : Pools P s pools) (hcid : cid < P.NCPU)
    (hB : B < P.NCPU) (hBc : B ≠ cid) (hAe : pools cid = []) (hp : pools B = f :: rest)
    (hlow : ∀ j, j < B → j ≠ cid → pools j = [])
    (hfuel : (rest.length + 1) / 2 + 1 ≤ fuel) :
    ∃ s1, kalloc P fuel cid s = Res.ret f s1 ∧
      Pools P s1 (upd (upd pools B ((f :: rest).drop ((rest.length + 2) / 2))) cid
        (((f :: rest).take ((rest.length + 2) / 2)).tail)) ∧
      (∀ j, j ≠ cid → j ≠ B → s1.freelist j = s.freelist j) ∧
      (∀ k, k < PGSIZE → s1.mem (f + k) = 5) ∧
      (∀ x, (∀ a ∈ f :: rest, x < a ∨ a + PGSIZE ≤ x) → s1.mem x = s.mem x) := by
  have hz : s.freelist cid = 0 := (FreeList.null_iff _ _ _ (hrep.1 cid hcid)).mpr hAe
  have hnz : s.freelist B ≠ 0 := by
    intro e
    have := (FreeList.null_iff _ _ _ (hrep.1 B hB)).mp e
    rw [hp] at this
    exact List.cons_ne_nil f rest this
  rw [kalloc_eq_steal P fuel cid s hz]
  obtain ⟨s0, hm, hf, e⟩ := kallocSteal_hit fuel cid B hBc P.NCPU 0
    ((s.acquire cid).release cid) (Nat.zero_le B) (by omega) hnz
    (fun j _ h2 h3 => (FreeList.null_iff _ _ _ (hrep.1 j (by omega))).mpr (hlow j h2 h3))
  rw [e]
  obtain ⟨s1, e1, hp1, hfl1, hby, hloc⟩ := stealHalf_pools P s0 pools fuel cid B f rest
    (Pools.of_eq P s s0 pools hm hf hrep) hcid hB hBc hAe hp hfuel
  refine ⟨s1, e1, hp1, ?_, hby, ?_⟩
  · intro j h1 h2
    rw [hfl1 j h1 h2, hf]
    rfl
  · intro x hx
    rw [hloc x hx, hm]
    rfl

theorem poolTotal_upd_ge (pools : Nat → List Nat) (i : Nat) (l : List Nat) :
    ∀ n, n ≤ i → poolTotal (upd pools i l) n = poolTotal pools n
  | 0, _ => rfl
  | n + 1, h => by
    simp only [poolTotal]
    rw [poolTotal_upd_ge pools i l n (by omega), upd_ne _ _ _ _ (by omega)]

theorem poolTotal_upd (pools : Nat → List Nat) (i : Nat) (l : List Nat) :
    ∀ n, i < n → poolTotal (upd pools i l) n + (pools i).length = poolTotal pools n + l.length
  | 0, h => by omega
  | n + 1, h => by
    simp only [poolTotal]
    by_cases hin : i = n
    · subst hin
      rw [poolTotal_upd_ge pools i l i (le_refl i), upd_same]
      omega
    · have := poolTotal_upd pools i l n (by omega)
      rw [upd_ne _ _ _ _ (Ne.symm hin)]
      omega

theorem poolTotal_zero (pools : Nat → List Nat) :
    ∀ n, (∀ i, i < n → pools i = []) → poolTotal pools n = 0
  | 0, _ => rfl
  | n + 1, h => by
    simp only [poolTotal]
    rw [poolTotal_zero pools n (fun i hi => h i (by omega)), h n (by omega)]
    rfl

/-! ### Fuel -/

theorem splitLoop_mono (m : Mem) : ∀ (fuel d slow fast x : Nat),
    splitLoop m fuel slow fast = some x → splitLoop m (fuel + d) slow fast = some x
  | 0, _, _, _, _, h => by simp [splitLoop] at h
  | fuel + 1, d, slow, fast, x, h => by
    rw [show fuel + 1 + d = (fuel + d) + 1 by omega, splitLoop_succ]
    rw [splitLoop_succ] at h
    by_cases hc : load64 m fast ≠ 0 ∧ load64 m (load64 m fast) ≠ 0
    · rw [if_pos hc] at h ⊢
      exact splitLoop_mono m fuel d _ _ x h
    · rw [if_neg hc] at h ⊢
      exact h

theorem stealHalf_mono (fuel d cid i r : Nat) (s s1 : KState)
    (h : stealHalf fuel cid i s = Res.ret r s1) : stealHalf (fuel + d) cid i s = Res.ret r s1 := by
  cases hs : splitLoop s.mem fuel (s.freelist i) (s.freelist i) with
  | none =>
    unfold stealHalf at h
    simp only [hs] at h
    cases h
  | some slow =>
    rw [stealHalf_eq fuel cid i slow s hs] at h
    rw [stealHalf_eq (fuel + d) cid i slow s (splitLoop_mono _ _ _ _ _ _ hs)]
    exact h

theorem kallocSteal_mono (fuel d cid r : Nat) (s1 : KState) : ∀ (n i : Nat) (s : KState),
    kallocSteal fuel cid n i s = Res.ret r s1 → kallocSteal (fuel + d) cid n i s = Res.ret r s1
  | 0, _, _, h => h
  | n + 1, i, s, h => by
    rw [kallocSteal_succ] at h ⊢
    by_cases hic : i = cid
    · rw [if_pos hic] at h ⊢
      exact kallocSteal_mono fuel d cid r s1 n (i + 1) s h
    · rw [if_neg hic] at h ⊢
      by_cases hz : (s.acquire i).freelist i ≠ 0
      · rw [if_pos hz] at h ⊢
        exact stealHalf_mono fuel d cid i r _ s1 h
      · rw [if_neg hz] at h ⊢
        exact kallocSteal_mono fuel d cid r s1 n (i + 1) _ h

theorem kalloc_mono (P : Params) (fuel d cid r : Nat) (s s1 : KState)
    (h : kalloc P fuel cid s = Res.ret r s1) : kalloc P (fuel + d) cid s = Res.ret r s1 := by
  by_cases hz : s.freelist cid = 0
  · rw [kalloc_eq_steal P _ cid s hz] at h ⊢
    exact kallocSteal_mono fuel d cid r s1 _ _ _ h
  · rw [kalloc_eq_local P _ cid s hz] at h ⊢
    exact h

/-! ### What an allocation does to the pools -/

/-- Relation between the pools before and after a successful allocation of frame `r`. -/
theorem took_local (P : Params) (pools : Nat → List Nat) (cid f : Nat) (rest : List Nat)
    (h : PoolLists P pools) (hcid : cid < P.NCPU) (hp : pools cid = f :: rest) :
    (∀ i, i < P.NCPU → ∀ a ∈ upd pools cid rest i, a ≠ f ∧ a ∈ pools i) ∧
      poolTotal (upd pools cid rest) P.NCPU + 1 = poolTotal pools P.NCPU := by
  have hnd : (f :: rest).Nodup := by rw [← hp]; exact h.2.1 cid hcid
  have hfin : f ∈ pools cid := by rw [hp]; exact List.mem_cons_self f rest
  constructor
  · intro i hi a ha
    by_cases hic : i = cid
    · subst hic
      rw [upd_same] at ha
      refine ⟨?_, by rw [hp]; exact List.mem_cons_of_mem f ha⟩
      intro e; rw [e] at ha
      exact (List.nodup_cons.mp hnd).1 ha
    · rw [upd_ne _ _ _ _ hic] at ha
      refine ⟨?_, ha⟩
      intro e; rw [e] at ha
      exact h.2.2 cid hcid i hi f hfin (Ne.symm hic) ha
  · have := poolTotal_upd pools cid rest P.NCPU hcid
    rw [hp] at this
    simp only [List.length_cons] at this
    omega

theorem took_steal (P : Params) (pools : Nat → List Nat) (cid B f : Nat) (rest la lb : List Nat)
    (h : PoolLists P pools) (hcid : cid < P.NCPU) (hB : B < P.NCPU) (hBc : B ≠ cid)
    (hAe : pools cid = []) (hp : pools B = f :: rest) (hab : la ++ lb = rest) :
    (∀ i, i < P.NCPU → ∀ a ∈ upd (upd pools B lb) cid la i,
        a ≠ f ∧ ∃ j, j < P.NCPU ∧ a ∈ pools j) ∧
      poolTotal (upd (upd pools B lb) cid la) P.NCPU + 1 = poolTotal pools P.NCPU := by
  have hnd : (f :: rest).Nodup := by rw [← hp]; exact h.2.1 B hB
  have hfin : f ∈ pools B := by rw [hp]; exact List.mem_cons_self f rest
  have hrest : ∀ a ∈ rest, a ≠ f ∧ a ∈ pools B := by
    intro a ha
    refine ⟨?_, by rw [hp]; exact List.mem_cons_of_mem f ha⟩
    intro e; rw [e] at ha
    exact (List.nodup_cons.mp hnd).1 ha
  constructor
  · intro i hi a ha
    by_cases hic : i = cid
    · subst hic
      rw [upd_same] at ha
      have := hrest a (by rw [← hab]; exact List.mem_append_left lb ha)
      exact ⟨this.1, B, hB, this.2⟩
    · rw [upd_ne _ _ _ _ hic] at ha
      by_cases hiB : i = B
      · subst hiB
        rw [upd_same] at ha
        have := hrest a (by rw [← hab]; exact List.mem_append_right la ha)
        exact ⟨this.1, i, hB, this.2⟩
      · rw [upd_ne _ _ _ _ hiB] at ha
        refine ⟨?_, i, hi, ha⟩
        intro e; rw [e] at ha
        exact h.2.2 B hB i hi f hfin (Ne.symm hiB) ha
  · have h1 := poolTotal_upd (upd pools B lb) cid la P.NCPU hcid
    have h2 := poolTotal_upd pools B lb P.NCPU hB
    rw [upd_ne _ _ _ _ (Ne.symm hBc), hAe] at h1
    rw [hp] at h2
    have h3 : la.length + lb.length = rest.length := by rw [← hab, List.length_append]
    simp only [List.length_cons, List.length_nil] at h1 h2
    omega

/-- Some other CPU has a non-empty pool: take the one with the lowest index. -/
theorem lowest_nonempty (n cid : Nat) (pools : Nat → List Nat)
    (h : ∃ i, i < n ∧ i ≠ cid ∧ pools i ≠ []) :
    ∃ B, B < n ∧ B ≠ cid ∧ pools B ≠ [] ∧ ∀ j, j < B → j ≠ cid → pools j = [] := by
  classical
  refine ⟨Nat.find h, (Nat.find_spec h).1, (Nat.find_spec h).2.1, (Nat.find_spec h).2.2, ?_⟩
  intro j hj hjc
  by_contra hne
  exact Nat.find_min h hj ⟨lt_trans hj (Nat.find_spec h).1, hjc, hne⟩

/-- Complete description of `kalloc` on a well-formed state, given enough fuel. -/
theorem kalloc_cases (P : Params) (s : KState) (pools : Nat → List Nat) (fuel cid : Nat)
    (hrep : Pools P s pools) (hcid : cid < P.NCPU)
    (hfuel : ∀ i, i < P.NCPU → (pools i).length ≤ fuel) :
    ∃ r s1 pools1, kalloc P fuel cid s = Res.ret r s1 ∧ Pools P s1 pools1 ∧
      ((r = 0 ∧ (∀ i, i < P.NCPU → pools i = []) ∧ pools1 = pools ∧ s1.mem = s.mem ∧
          s1.freelist = s.freelist) ∨
        (r ≠ 0 ∧ (∃ i, i < P.NCPU ∧ r ∈ pools i) ∧
          (∀ i, i < P.NCPU → ∀ a ∈ pools1 i, a ≠ r ∧ ∃ j, j < P.NCPU ∧ a ∈ pools j) ∧
          poolTotal pools1 P.NCPU + 1 = poolTotal pools P.NCPU ∧
          (∀ k, k < PGSIZE → s1.mem (r + k) = 5))) := by
  rcases hown : pools cid with _ | ⟨f, rest⟩
  · by_cases hex : ∃ i, i < P.NCPU ∧ i ≠ cid ∧ pools i ≠ []
    · obtain ⟨B, hB, hBc, hne, hlow⟩ := lowest_nonempty P.NCPU cid pools hex
      rcases hpB : pools B with _ | ⟨f, rest⟩
      · exact absurd hpB hne
      · have hlen := hfuel B hB
        rw [hpB] at hlen
        simp only [List.length_cons] at hlen
        obtain ⟨s1, e, hp1, _, hby, _⟩ := kalloc_steal_pools P s pools fuel cid B f rest hrep
          hcid hB hBc hown hpB hlow (by omega)
        have hfr : Frame P f := hrep.2.1 B hB f (by rw [hpB]; exact List.mem_cons_self f rest)
        have hcut : (rest.length + 2) / 2 = rest.length / 2 + 1 := by omega
        have htk := took_steal P pools cid B f rest
          (((f :: rest).take ((rest.length + 2) / 2)).tail)
          ((f :: rest).drop ((rest.length + 2) / 2)) hrep.2 hcid hB hBc hown hpB (by
            rw [hcut, take_tail_append_drop]; rfl)
        refine ⟨f, s1, _, e, hp1, Or.inr ⟨?_, ⟨B, hB, by rw [hpB]; exact List.mem_cons_self f rest⟩,
          htk.1, htk.2, hby⟩⟩
        intro e0
        rw [e0] at hfr
        have hch := hrep.1 B hB
        rw [hpB] at hch
        exact hch.2.1 e0
    · have hall : ∀ i, i < P.NCPU → pools i = [] := by
        intro i hi
        by_cases hic : i = cid
        · rw [hic]; exact hown
        · by_contra hne
          exact hex ⟨i, hi, hic, hne⟩
      obtain ⟨s1, e, hm, hf⟩ := kalloc_fail_pools P s pools fuel cid hrep hcid hall
      exact ⟨0, s1, pools, e, Pools.of_eq P s s1 pools hm hf hrep,
        Or.inl ⟨rfl, hall, rfl, hm, hf⟩⟩
  · obtain ⟨s1, e, hp1, _, hm⟩ := kalloc_local_pools P s pools fuel cid f rest hrep hcid hown
    have htk := took_local P pools cid f rest hrep.2 hcid hown
    have hch := hrep.1 cid hcid
    rw [hown] at hch
    refine ⟨f, s1, _, e, hp1, Or.inr ⟨hch.2.1,
      ⟨cid, hcid, by rw [hown]; exact List.mem_cons_self f rest⟩, ?_, htk.2, ?_⟩⟩
    · intro i hi a ha
      exact ⟨(htk.1 i hi a ha).1, i, hi, (htk.1 i hi a ha).2⟩
    · intro k hk
      rw [hm, memset_inside _ _ _ _ _ hk]

/-! ### Initialization -/

theorem upd_upd {α : Type} (t : Nat → α) (i : Nat) (v w : α) :
    upd (upd t i v) i w = upd t i w := by
  funext j
  unfold upd
  by_cases h : j = i <;> simp [h]

theorem frames_succ (p n : Nat) : frames p (n + 1) = p :: frames (p + PGSIZE) n := by
  unfold frames
  rw [List.range_succ_eq_map, List.map_cons, List.map_map]
  simp only [Nat.zero_mul, Nat.add_zero, List.cons.injEq, true_and]
  apply List.map_congr_left
  intro i _
  simp only [Function.comp, Nat.succ_eq_add_one]
  ring

theorem freerangeLoop_succ (P : Params) (cid pa_end fuel p : Nat) (s : KState) :
    freerangeLoop P cid pa_end (fuel + 1) p s =
      if (p + PGSIZE) % 2 ^ 64 ≤ pa_end then
        match kfree P cid p s with
        | Res.ret _ s1 => freerangeLoop P cid pa_end fuel ((p + PGSIZE) % 2 ^ 64) s1
        | Res.halt msg s1 => Res.halt msg s1
        | Res.spin => Res.spin
        | Res.sleep a s1 => Res.sleep a s1
      else Res.ret () s := rfl

/-- The loop of `freerange` pushes the frames of `[p, pa_end)` on the pool of the calling CPU,
lowest frame first. -/
theorem freerangeLoop_pools (P : Params) (cid pa_end : Nat) (hP : P.ok) (hcid : cid < P.NCPU)
    (hend : pa_end ≤ P.PHYSTOP) : ∀ (n fuel p : Nat) (s : KState) (pools : Nat → List Nat),
    Pools P s pools → p % PGSIZE = 0 → P.kend ≤ p → (pa_end - p) / PGSIZE = n → n < fuel →
    p ≤ P.PHYSTOP →
    (∀ i, i < P.NCPU → ∀ a ∈ pools i, a < p) →
    ∃ s1, freerangeLoop P cid pa_end fuel p s = Res.ret () s1 ∧
      Pools P s1 (upd pools cid ((frames p n).reverse ++ pools cid))
  | _, 0, _, _, _, _, _, _, _, hf, _, _ => by omega
  | 0, fuel + 1, p, s, pools, hrep, hal, hk, hn, _, hp, hlt => by
    rw [freerangeLoop_succ]
    have h64 := hP.2.2
    have hstop : ¬ ((p + PGSIZE) % 2 ^ 64 ≤ pa_end) := by
      unfold PGSIZE at *
      omega
    rw [if_neg hstop]
    refine ⟨s, rfl, ?_⟩
    have : upd pools cid ((frames p 0).reverse ++ pools cid) = pools := by
      funext j
      unfold upd frames
      by_cases h : j = cid <;> simp [h]
    rw [this]
    exact hrep
  | n + 1, fuel + 1, p, s, pools, hrep, hal, hk, hn, hf, hp, hlt => by
    rw [freerangeLoop_succ]
    have h64 := hP.2.2
    have hgo : (p + PGSIZE) % 2 ^ 64 ≤ pa_end := by
      unfold PGSIZE at *
      omega
    have hwrap : (p + PGSIZE) % 2 ^ 64 = p + PGSIZE := by
      unfold PGSIZE at *
      omega
    rw [if_pos hgo, hwrap]
    have hfr : Frame P p := by
      refine ⟨hal, hk, ?_⟩
      unfold PGSIZE at *
      omega
    obtain ⟨s1, e1, hp1, _, _⟩ := kfree_pools P s pools cid p hP hrep hcid hfr (by
      intro i hi hmem
      have := hlt i hi p hmem
      omega)
    rw [e1]
    obtain ⟨s2, e2, hp2⟩ := freerangeLoop_pools P cid pa_end hP hcid hend n fuel (p + PGSIZE) s1
      (upd pools cid (p :: pools cid)) hp1 (by unfold PGSIZE at *; omega)
      (by omega) (by unfold PGSIZE at *; omega) (by omega) (by unfold PGSIZE at *; omega) (by
        intro i hi a ha
        by_cases hic : i = cid
        · subst hic
          rw [upd_same] at ha
          rcases List.mem_cons.mp ha with e | e
          · rw [e]; unfold PGSIZE; omega
          · have := hlt i hi a e
            omega
        · rw [upd_ne _ _ _ _ hic] at ha
          have := hlt i hi a ha
          omega)
    refine ⟨s2, e2, ?_⟩
    rw [upd_upd, upd_same] at hp2
    rw [frames_succ, List.reverse_cons, List.append_assoc]
    exact hp2

theorem freerangeLoop_mono (P : Params) (cid pa_end d : Nat) (s1 : KState) :
    ∀ (fuel p : Nat) (s : KState), freerangeLoop P cid pa_end fuel p s = Res.ret () s1 →
      freerangeLoop P cid pa_end (fuel + d) p s = Res.ret () s1
  | 0, _, _, h => by simp [freerangeLoop] at h
  | fuel + 1, p, s, h => by
    rw [show fuel + 1 + d = (fuel + d) + 1 by omega, freerangeLoop_succ]
    rw [freerangeLoop_succ] at h
    by_cases hc : (p + PGSIZE) % 2 ^ 64 ≤ pa_end
    · rw [if_pos hc] at h ⊢
      cases hk : kfree P cid p s with
      | ret u s2 =>
        rw [hk] at h
        exact freerangeLoop_mono P cid pa_end d s1 fuel _ s2 h
      | halt msg s2 => rw [hk] at h; cases h
      | spin => rw [hk] at h; cases h
      | sleep a s2 => rw [hk] at h; cases h
    · rw [if_neg hc] at h ⊢
      exact h

theorem Pools.boot (P : Params) (m : Mem) : Pools P (KState.boot m) (fun _ => []) := by
  refine ⟨?_, ?_, ?_, ?_⟩
  · intro i _; rfl
  · intro i _ a ha; cases ha
  · intro i _; exact List.nodup_nil
  · intro i _ j _ a ha; cases ha

theorem PGROUNDUP_spec (P : Params) (hP : P.ok) :
    PGROUNDUP P.kend % PGSIZE = 0 ∧ P.kend ≤ PGROUNDUP P.kend ∧
      PGROUNDUP P.kend < P.kend + PGSIZE := by
  have h1 := hP.2.1
  have h2 := hP.2.2
  unfold PGROUNDUP PGSIZE at *
  omega

theorem PGROUNDUP_aligned (a : Nat) (h : a % PGSIZE = 0) (h64 : a + PGSIZE < 2 ^ 64) :
    PGROUNDUP a = a := by
  unfold PGROUNDUP PGSIZE at *
  omega

/-- `freerange` on a page-aligned range inside `[end, PHYSTOP]`, started with all pools empty. -/
theorem freerange_pools (P : Params) (m : Mem) (fuel cid pa_start pa_end : Nat) (hP : P.ok)
    (hcid : cid < P.NCPU) (hk : P.kend ≤ pa_start) (hend : pa_end ≤ P.PHYSTOP)
    (hps : PGROUNDUP pa_start % PGSIZE = 0 ∧ pa_start ≤ PGROUNDUP pa_start ∧
      PGROUNDUP pa_start < pa_start + PGSIZE)
    (hf : (pa_end - PGROUNDUP pa_start) / PGSIZE < fuel) (hle : pa_start ≤ P.PHYSTOP) :
    ∃ s1, freerange P fuel cid pa_start pa_end (KState.boot m) = Res.ret () s1 ∧
      Pools P s1 (onlyPool cid
        (frames (PGROUNDUP pa_start) ((pa_end - PGROUNDUP pa_start) / PGSIZE)).reverse) := by
  unfold freerange
  by_cases hbig : PGROUNDUP pa_start ≤ P.PHYSTOP
  · obtain ⟨s1, e, hp⟩ := freerangeLoop_pools P cid pa_end hP hcid hend _ fuel
      (PGROUNDUP pa_start) (KState.boot m) (fun _ => []) (Pools.boot P m) hps.1
      (by omega) rfl hf hbig (by intro i _ a ha; cases ha)
    refine ⟨s1, e, ?_⟩
    simp only [List.append_nil] at hp
    exact hp
  · -- the rounded start is beyond the end: nothing is registered
    have hz : (pa_end - PGROUNDUP pa_start) / PGSIZE = 0 := by
      have : pa_end - PGROUNDUP pa_start = 0 := by omega
      rw [this]; rfl
    have h64 := hP.2.2
    obtain ⟨f, hfe⟩ : ∃ f, fuel = f + 1 := ⟨fuel - 1, by omega⟩
    rw [hfe, freerangeLoop_succ]
    have hstop : ¬ ((PGROUNDUP pa_start + PGSIZE) % 2 ^ 64 ≤ pa_end) := by
      have := hps.2.2
      unfold PGSIZE at *
      omega
    rw [if_neg hstop, hz]
    refine ⟨_, rfl, ?_⟩
    have : onlyPool cid (frames (PGROUNDUP pa_start) 0).reverse = fun _ => [] := by
      funext j
      unfold onlyPool upd frames
      by_cases h : j = cid <;> simp [h]
    rw [this]
    exact Pools.boot P m

/-! ### Reachable states -/

theorem poolTotal_ge (pools : Nat → List Nat) (i : Nat) :
    ∀ n, i < n → (pools i).length ≤ poolTotal pools n
  | 0, h => by omega
  | n + 1, h => by
    simp only [poolTotal]
    by_cases hin : i = n
    · subst hin; omega
    · have := poolTotal_ge pools i n (by omega)
      omega

theorem poolTotal_onlyPool (cid : Nat) (l : List Nat) (n : Nat) (h : cid < n) :
    poolTotal (onlyPool cid l) n = l.length := by
  have h1 := poolTotal_upd (fun _ => []) cid l n h
  have h2 := poolTotal_zero (fun _ => ([] : List Nat)) n (fun _ _ => rfl)
  unfold onlyPool
  simp only [List.length_nil] at h1
  omega

/-- `kalloc` that returned with some fuel behaves as described by `kalloc_cases`. -/
theorem kalloc_ret_cases (P : Params) (s s1 : KState) (pools : Nat → List Nat)
    (fuel cid r : Nat) (hrep : Pools P s pools) (hcid : cid < P.NCPU)
    (hret : kalloc P fuel cid s = Res.ret r s1) :
    ∃ pools1, Pools P s1 pools1 ∧
      ((r = 0 ∧ (∀ i, i < P.NCPU → pools i = []) ∧ pools1 = pools ∧ s1.mem = s.mem ∧
          s1.freelist = s.freelist) ∨
        (r ≠ 0 ∧ (∃ i, i < P.NCPU ∧ r ∈ pools i) ∧
          (∀ i, i < P.NCPU → ∀ a ∈ pools1 i, a ≠ r ∧ ∃ j, j < P.NCPU ∧ a ∈ pools j) ∧
          poolTotal pools1 P.NCPU + 1 = poolTotal pools P.NCPU ∧
          (∀ k, k < PGSIZE → s1.mem (r + k) = 5))) := by
  have hbig := kalloc_mono P fuel (poolTotal pools P.NCPU) cid r s s1 hret
  obtain ⟨r2, s2, pools1, e, hp, hc⟩ := kalloc_cases P s pools (fuel + poolTotal pools P.NCPU)
    cid hrep hcid (fun i hi => by
      have := poolTotal_ge pools i P.NCPU hi
      omega)
  rw [hbig] at e
  injection e with er es
  subst er
  subst es
  exact ⟨pools1, hp, hc⟩

/-- Invariant of the allocator: the pools are well formed, the allocated frames are valid frames
outside all pools, none twice, and pools and allocated frames together number `N`. -/
theorem KReach.pools_inv (P : Params) (hP : P.ok) (s0 : KState) (pools0 : Nat → List Nat) (N : Nat)
    (h0 : Pools P s0 pools0) (hN : poolTotal pools0 P.NCPU = N) (s : KState) (al : List Nat)
    (hr : KReach P s0 s al) :
    ∃ pools, Pools P s pools ∧ al.Nodup ∧
      (∀ a ∈ al, Frame P a ∧ ∀ i, i < P.NCPU → a ∉ pools i) ∧
      poolTotal pools P.NCPU + al.length = N := by
  induction hr with
  | init =>
    refine ⟨pools0, h0, List.nodup_nil, ?_, by simpa using hN⟩
    intro a ha
    cases ha
  | free s s1 al cid pa _ hcid hmem hret ih =>
    obtain ⟨pools, hp, hnd, hal, htot⟩ := ih
    obtain ⟨s2, e, hp2, _, _⟩ := kfree_pools P s pools cid pa hP hp hcid (hal pa hmem).1
      (hal pa hmem).2
    rw [hret] at e
    injection e with _ es
    subst es
    refine ⟨_, hp2, hnd.erase pa, ?_, ?_⟩
    · intro a ha
      have hain : a ∈ al := List.mem_of_mem_erase ha
      have hne : a ≠ pa := by
        intro e
        rw [e] at ha
        exact (List.Nodup.not_mem_erase hnd) ha
      refine ⟨(hal a hain).1, ?_⟩
      intro i hi hmem2
      by_cases hic : i = cid
      · subst hic
        rw [upd_same] at hmem2
        rcases List.mem_cons.mp hmem2 with e | e
        · exact hne e
        · exact (hal a hain).2 i hi e
      · rw [upd_ne _ _ _ _ hic] at hmem2
        exact (hal a hain).2 i hi hmem2
    · have h1 := poolTotal_upd pools cid (pa :: pools cid) P.NCPU hcid
      have h2 := List.length_erase_of_mem hmem
      have h3 : 0 < al.length := List.length_pos_of_mem hmem
      simp only [List.length_cons] at h1
      omega
  | alloc s s1 al fuel cid r _ hcid hret hr0 ih =>
    obtain ⟨pools, hp, hnd, hal, htot⟩ := ih
    obtain ⟨pools1, hp1, hc⟩ := kalloc_ret_cases P s s1 pools fuel cid r hp hcid hret
    rcases hc with ⟨hz, _⟩ | ⟨_, ⟨i, hi, hri⟩, hsub, htot1, _⟩
    · exact absurd hz hr0
    · have hrnot : r ∉ al := fun hmem => (hal r hmem).2 i hi hri
      refine ⟨pools1, hp1, List.nodup_cons.mpr ⟨hrnot, hnd⟩, ?_, ?_⟩
      · intro a ha
        rcases List.mem_cons.mp ha with e | e
        · subst e
          refine ⟨hp.2.1 i hi a hri, ?_⟩
          intro j hj hmem
          exact (hsub j hj a hmem).1 rfl
        · refine ⟨(hal a e).1, ?_⟩
          intro j hj hmem
          obtain ⟨_, j2, hj2, hm2⟩ := hsub j hj a hmem
          exact (hal a e).2 j2 hj2 hm2
      · simp only [List.length_cons]
        omega
  | allocFail s s1 al fuel cid _ hcid hret ih =>
    obtain ⟨pools, hp, hnd, hal, htot⟩ := ih
    obtain ⟨pools1, hp1, hc⟩ := kalloc_ret_cases P s s1 pools fuel cid 0 hp hcid hret
    rcases hc with ⟨_, _, he, _, _⟩ | ⟨hz, _⟩
    · subst he
      exact ⟨pools1, hp1, hnd, hal, htot⟩
    · exact absurd rfl hz

/-- The state left by `kinit`: all registered frames are in the pool of the boot CPU. -/
theorem kinit_pools (P : Params) (m : Mem) (fuel cid : Nat) (s0 : KState) (hP : P.ok)
    (hcid : cid < P.NCPU) (hinit : kinit P fuel cid (KState.boot m) = Res.ret () s0) :
    Pools P s0 (onlyPool cid
      (frames (PGROUNDUP P.kend) ((P.PHYSTOP - PGROUNDUP P.kend) / PGSIZE)).reverse) := by
  unfold kinit at hinit
  obtain ⟨s1, e, hp⟩ := freerange_pools P m
    (fuel + ((P.PHYSTOP - PGROUNDUP P.kend) / PGSIZE + 1)) cid P.kend P.PHYSTOP hP hcid
    (le_refl _) (le_refl _) (PGROUNDUP_spec P hP) (by omega) hP.2.1
  unfold freerange at hinit e
  rw [freerangeLoop_mono P cid P.PHYSTOP _ s0 fuel _ _ hinit] at e
  injection e with _ es
  subst es
  exact hp

/-! ### Poison bytes -/

theorem stealHalf_bytes (fuel cid i r : Nat) (s s1 : KState)
    (h : stealHalf fuel cid i s = Res.ret r s1) :
    r = s.freelist i ∧ ∀ k, k < PGSIZE → s1.mem (r + k) = 5 := by
  cases hs : splitLoop s.mem fuel (s.freelist i) (s.freelist i) with
  | none =>
    unfold stealHalf at h
    simp only [hs] at h
    cases h
  | some slow =>
    rw [stealHalf_eq fuel cid i slow s hs] at h
    injection h with hr hs1
    subst hr
    subst hs1
    refine ⟨rfl, ?_⟩
    intro k hk
    simp only [KState.setMem_mem]
    rw [memset_inside _ _ _ _ _ hk]

theorem kallocSteal_bytes (fuel cid r : Nat) (s1 : KState) (hr : r ≠ 0) :
    ∀ (n i : Nat) (s : KState), kallocSteal fuel cid n i s = Res.ret r s1 →
      ∀ k, k < PGSIZE → s1.mem (r + k) = 5
  | 0, _, s, h => by
    injection h with h1 _
    exact absurd h1.symm hr
  | n + 1, i, s, h => by
    rw [kallocSteal_succ] at h
    by_cases hic : i = cid
    · rw [if_pos hic] at h
      exact kallocSteal_bytes fuel cid r s1 hr n (i + 1) s h
    · rw [if_neg hic] at h
      by_cases hz : (s.acquire i).freelist i ≠ 0
      · rw [if_pos hz] at h
        exact (stealHalf_bytes fuel cid i r _ s1 h).2
      · rw [if_neg hz] at h
        exact kallocSteal_bytes fuel cid r s1 hr n (i + 1) _ h

/-- Whenever `kalloc` returns a non-null frame, the whole frame holds the byte 5. -/
theorem kalloc_bytes (P : Params) (fuel cid r : Nat) (s s1 : KState)
    (h : kalloc P fuel cid s = Res.ret r s1) (hr : r ≠ 0) :
    ∀ k, k < PGSIZE → s1.mem (r + k) = 5 := by
  by_cases hz : s.freelist cid = 0
  · rw [kalloc_eq_steal P fuel cid s hz] at h
    exact kallocSteal_bytes fuel cid r s1 hr _ _ _ h
  · rw [kalloc_eq_local P fuel cid s hz] at h
    injection h with h1 h2
    subst h1
    subst h2
    intro k hk
    simp only [KState.setMem_mem]
    rw [memset_inside _ _ _ _ _ hk]

theorem kfree_ret (P : Params) (cid pa : Nat) (s s1 : KState)
    (h : kfree P cid pa s = Res.ret () s1) :
    s1.mem = store64 (memset s.mem pa 1 PGSIZE) pa (s.freelist cid) ∧
      s1.freelist = upd s.freelist cid pa := by
  unfold kfree at h
  by_cases hc : pa % PGSIZE ≠ 0 ∨ pa < P.kend ∨ pa ≥ P.PHYSTOP
  · rw [if_pos hc] at h
    cases h
  · rw [if_neg hc] at h
    injection h with _ h2
    subst h2
    exact ⟨rfl, rfl⟩

/-! ## Buffer cache: bookkeeping lemmas -/

@[simp] theorem BCache.emit_buf (c : BCache) (e : Ev) : (c.emit e).buf = c.buf := rfl
@[simp] theorem BCache.emit_head (c : BCache) (e : Ev) : (c.emit e).head = c.head := rfl
@[simp] theorem BCache.emit_disk (c : BCache) (e : Ev) : (c.emit e).disk = c.disk := rfl
@[simp] theorem BCache.acquire_buf (c : BCache) (l : Lock) : (c.acquire l).buf = c.buf := rfl
@[simp] theorem BCache.acquire_head (c : BCache) (l : Lock) : (c.acquire l).head = c.head := rfl
@[simp] theorem BCache.acquire_disk (c : BCache) (l : Lock) : (c.acquire l).disk = c.disk := rfl
@[simp] theorem BCache.release_buf (c : BCache) (l : Lock) : (c.release l).buf = c.buf := rfl
@[simp] theorem BCache.release_head (c : BCache) (l : Lock) : (c.release l).head = c.head := rfl
@[simp] theorem BCache.release_disk (c : BCache) (l : Lock) : (c.release l).disk = c.disk := rfl
@[simp] theorem BCache.setBuf_buf (c : BCache) (b : Nat) (v : Buf) :
    (c.setBuf b v).buf = upd c.buf b v := rfl
@[simp] theorem BCache.setBuf_head (c : BCache) (b : Nat) (v : Buf) :
    (c.setBuf b v).head = c.head := rfl
@[simp] theorem BCache.setBuf_disk (c : BCache) (b : Nat) (v : Buf) :
    (c.setBuf b v).disk = c.disk := rfl
@[simp] theorem BCache.setHead_buf (c : BCache) (i : Nat) (p : Option Nat) :
    (c.setHead i p).buf = c.buf := rfl
@[simp] theorem BCache.setHead_head (c : BCache) (i : Nat) (p : Option Nat) :
    (c.setHead i p).head = upd c.head i p := rfl
@[simp] theorem BCache.setHead_disk (c : BCache) (i : Nat) (p : Option Nat) :
    (c.setHead i p).disk = c.disk := rfl

/-! ### Bucket lists -/

theorem BList.congr_next (buf buf1 : Nat → Buf) : ∀ (l : List Nat) (h : Option Nat),
    (∀ a ∈ l, (buf1 a).next = (buf a).next) → BList buf h l → BList buf1 h l
  | [], _, _, hl => hl
  | a :: l, h, hag, hl => by
    refine ⟨hl.1, ?_⟩
    rw [hag a (List.mem_cons_self a l)]
    exact BList.congr_next buf buf1 l _ (fun b hb => hag b (List.mem_cons_of_mem a hb)) hl.2

theorem BList.entries_unique (buf : Nat → Buf) : ∀ (l l1 : List Nat) (h : Option Nat),
    BList buf h l → BList buf h l1 → l = l1
  | [], [], _, _, _ => rfl
  | [], b :: l1, h, h1, h2 => by
    have e1 : h = none := h1
    have e2 : h = some b := h2.1
    rw [e1] at e2
    cases e2
  | a :: l, [], h, h1, h2 => by
    have e1 : h = none := h2
    have e2 : h = some a := h1.1
    rw [e1] at e2
    cases e2
  | a :: l, b :: l1, h, h1, h2 => by
    have e1 : h = some a := h1.1
    have e2 : h = some b := h2.1
    rw [e1] at e2
    injection e2 with e2
    subst e2
    rw [BList.entries_unique buf l l1 _ h1.2 h2.2]

/-- A scan with enough fuel returns the first entry of the list that passes the test. -/
theorem scan_spec (test : Buf → Bool) (buf : Nat → Buf) : ∀ (l : List Nat) (h : Option Nat)
    (fuel : Nat), BList buf h l → l.length < fuel →
    scan test buf fuel h = some (l.find? (fun k => test (buf k)))
  | _, _, 0, _, hf => by omega
  | [], h, fuel + 1, hl, _ => by
    have e : h = none := hl
    rw [e]
    rfl
  | a :: l, h, fuel + 1, hl, hf => by
    have e : h = some a := hl.1
    rw [e]
    show (if test (buf a) then some (some a) else scan test buf fuel (buf a).next) = _
    by_cases ht : test (buf a) = true
    · rw [if_pos ht, List.find?_cons]
      simp only [ht]
    · rw [if_neg ht, List.find?_cons]
      have hf2 : test (buf a) = false := by simpa using ht
      simp only [hf2]
      exact scan_spec test buf l _ fuel hl.2 (by simpa using hf)

theorem Buckets.length_le (NBUF : Nat) (c : BCache) (L : Nat → List Nat)
    (h : Buckets NBUF c L) (i : Nat) (hi : i < NBUCKETS) : (L i).length ≤ NBUF := by
  have hnd := h.2.2.1 i hi
  have hlt := h.2.1 i hi
  have hsub : (L i) ⊆ List.range NBUF := fun k hk => List.mem_range.mpr (hlt k hk)
  have := (List.subperm_of_subset hnd hsub).length_le
  simpa using this

theorem Buckets.congr_links (NBUF : Nat) (c c1 : BCache) (L : Nat → List Nat)
    (hn : ∀ k, (c1.buf k).next = (c.buf k).next) (hh : c1.head = c.head)
    (h : Buckets NBUF c L) : Buckets NBUF c1 L := by
  refine ⟨?_, h.2⟩
  intro i hi
  rw [hh]
  exact BList.congr_next c.buf c1.buf _ _ (fun a _ => hn a) (h.1 i hi)

theorem IdInv.congr_ids (NBUF : Nat) (c c1 : BCache) (L : Nat → List Nat)
    (hd : ∀ k, (c1.buf k).dev = (c.buf k).dev)
    (hb : ∀ k, (c1.buf k).blockno = (c.buf k).blockno)
    (hr : ∀ k, (c1.buf k).refcnt = (c.buf k).refcnt)
    (h : IdInv NBUF c L) : IdInv NBUF c1 L := by
  refine ⟨?_, ?_⟩
  · intro k hk hpos
    rw [hb k]
    rw [hr k] at hpos
    exact h.1 k hk hpos
  · intro i hi
    refine List.Pairwise.imp ?_ (h.2 i hi)
    intro x y hxy hsame
    rw [hd x, hd y, hb x, hb y] at hsame
    rw [hr y]
    exact hxy hsame

/-! ### `binit` -/

theorem binit_heads (c : BCache) : ∀ n,
    ((List.range n).foldl (fun c i => c.setHead i none) c).buf = c.buf ∧
      (∀ i, i < n → ((List.range n).foldl (fun c i => c.setHead i none) c).head i = none)
  | 0 => ⟨rfl, fun i hi => by omega⟩
  | n + 1 => by
    rw [List.range_succ, List.foldl_append]
    obtain ⟨h1, h2⟩ := binit_heads c n
    simp only [List.foldl_cons, List.foldl_nil, BCache.setHead_buf, BCache.setHead_head]
    refine ⟨h1, ?_⟩
    intro i hi
    by_cases hin : i = n
    · subst hin
      rw [upd_same]
    · rw [upd_ne _ _ _ _ hin]
      exact h2 i (by omega)

/-- One iteration of the second loop of `binit`. -/
theorem binit_step_eq (c : BCache) (b : Nat) :
    ((fun (c : BCache) (b : Nat) =>
      let c := initsleeplock c b
      let c := c.setBuf b { c.buf b with next := c.head 0 }
      c.setHead 0 (some b)) c b).head = upd c.head 0 (some b) ∧
    ((fun (c : BCache) (b : Nat) =>
      let c := initsleeplock c b
      let c := c.setBuf b { c.buf b with next := c.head 0 }
      c.setHead 0 (some b)) c b).buf = upd c.buf b
        { c.buf b with lock := { locked := false, pid := 0 }, next := c.head 0 } := by
  refine ⟨rfl, ?_⟩
  funext k
  simp only [initsleeplock, BCache.setHead_buf, BCache.setBuf_buf, BCache.setBuf_head, upd]
  by_cases h : k = b <;> simp [h]

theorem binit_links (c : BCache) (h0 : c.head 0 = none) : ∀ n,
    BList ((List.range n).foldl (fun c b =>
        let c := initsleeplock c b
        let c := c.setBuf b { c.buf b with next := c.head 0 }
        c.setHead 0 (some b)) c).buf
      (((List.range n).foldl (fun c b =>
        let c := initsleeplock c b
        let c := c.setBuf b { c.buf b with next := c.head 0 }
        c.setHead 0 (some b)) c).head 0) (List.range n).reverse ∧
    (∀ i, i ≠ 0 → ((List.range n).foldl (fun c b =>
        let c := initsleeplock c b
        let c := c.setBuf b { c.buf b with next := c.head 0 }
        c.setHead 0 (some b)) c).head i = c.head i) ∧
    (∀ k, (((List.range n).foldl (fun c b =>
        let c := initsleeplock c b
        let c := c.setBuf b { c.buf b with next := c.head 0 }
        c.setHead 0 (some b)) c).buf k).refcnt = (c.buf k).refcnt)
  | 0 => ⟨h0, fun _ _ => rfl, fun _ => rfl⟩
  | n + 1 => by
    rw [List.range_succ, List.foldl_append]
    obtain ⟨h1, h2, h3⟩ := binit_links c h0 n
    simp only [List.foldl_cons, List.foldl_nil]
    obtain ⟨e1, e2⟩ := binit_step_eq ((List.range n).foldl (fun c b =>
        let c := initsleeplock c b
        let c := c.setBuf b { c.buf b with next := c.head 0 }
        c.setHead 0 (some b)) c) n
    rw [e1, e2]
    refine ⟨?_, ?_, ?_⟩
    · rw [List.reverse_append, List.reverse_singleton, List.singleton_append, upd_same]
      refine ⟨rfl, ?_⟩
      rw [upd_same]
      refine BList.congr_next _ _ _ _ ?_ h1
      intro a ha
      have : a < n := List.mem_range.mp (List.mem_reverse.mp ha)
      rw [upd_ne _ _ _ _ (by omega)]
    · intro i hi
      rw [upd_ne _ _ _ _ hi]
      exact h2 i hi
    · intro k
      by_cases hk : k = n
      · subst hk
        rw [upd_same]
        exact h3 k
      · rw [upd_ne _ _ _ _ hk]
        exact h3 k

/-- After `binit` all entries are in bucket 0, the last one first, and the reference counts are
those of the boot state. -/
theorem binit_buckets (NBUF : Nat) (c : BCache) :
    Buckets NBUF (binit NBUF c) (onlyPool 0 (List.range NBUF).reverse) ∧
      ∀ k, ((binit NBUF c).buf k).refcnt = (c.buf k).refcnt := by
  obtain ⟨a1, a2⟩ := binit_heads c NBUCKETS
  obtain ⟨h1, h2, h3⟩ := binit_links
    ((List.range NBUCKETS).foldl (fun c i => c.setHead i none) c)
    (a2 0 (by unfold NBUCKETS; omega)) NBUF
  have hown : onlyPool 0 (List.range NBUF).reverse 0 = (List.range NBUF).reverse := by
    unfold onlyPool; rw [upd_same]
  have hoth : ∀ i, i ≠ 0 → onlyPool 0 (List.range NBUF).reverse i = [] := by
    intro i hi
    unfold onlyPool; rw [upd_ne _ _ _ _ hi]
  refine ⟨⟨?_, ?_, ?_, ?_, ?_⟩, ?_⟩
  · intro i hi
    by_cases hi0 : i = 0
    · subst hi0
      rw [hown]
      exact h1
    · rw [hoth i hi0]
      show (binit NBUF c).head i = none
      unfold binit
      rw [h2 i hi0]
      exact a2 i hi
  · intro i _ k hk
    by_cases hi0 : i = 0
    · subst hi0
      rw [hown] at hk
      exact List.mem_range.mp (List.mem_reverse.mp hk)
    · rw [hoth i hi0] at hk
      cases hk
  · intro i _
    by_cases hi0 : i = 0
    · subst hi0
      rw [hown]
      exact List.nodup_reverse.mpr (List.nodup_range NBUF)
    · rw [hoth i hi0]
      exact List.nodup_nil
  · intro i _ j _ k hk hij hmem
    by_cases hi0 : i = 0
    · subst hi0
      rw [hoth j (Ne.symm hij)] at hmem
      cases hmem
    · rw [hoth i hi0] at hk
      cases hk
  · intro k hk
    refine ⟨0, by unfold NBUCKETS; omega, ?_⟩
    rw [hown]
    exact List.mem_reverse.mpr (List.mem_range.mpr hk)
  · intro k
    unfold binit
    rw [h3 k, a1]

/-! ### Victim search -/

theorem findVictim_succ (fuel n j : Nat) (c : BCache) :
    findVictim fuel (n + 1) j c =
      match scan isFree c.buf fuel (c.head j) with
      | none => Res.spin
      | some (some victim) => Res.ret (victim, j) (c.acquire (Lock.bucket j))
      | some none =>
        findVictim fuel n (j + 1) ((c.acquire (Lock.bucket j)).release (Lock.bucket j)) := rfl

/-- The victim search halts when no bucket holds an unreferenced entry. -/
theorem findVictim_none (fuel : Nat) (L : Nat → List Nat) : ∀ (n j : Nat) (c : BCache),
    (∀ i, i < NBUCKETS → BList c.buf (c.head i) (L i)) →
    (∀ i, i < NBUCKETS → (L i).length < fuel) → j + n ≤ NBUCKETS →
    (∀ i, j ≤ i → i < j + n → ∀ k ∈ L i, (c.buf k).refcnt ≠ 0) →
    ∃ c1, findVictim fuel n j c = Res.halt "bget: no buffers" c1 ∧ c1.buf = c.buf ∧
      c1.head = c.head ∧ c1.disk = c.disk
  | 0, _, c, _, _, _, _ => ⟨c, rfl, rfl, rfl, rfl⟩
  | n + 1, j, c, hch, hlen, hj, hfull => by
    rw [findVictim_succ, scan_spec isFree c.buf (L j) _ fuel (hch j (by omega)) (hlen j (by omega))]
    have hnone : (L j).find? (fun k => isFree (c.buf k)) = none := by
      rw [List.find?_eq_none]
      intro k hk
      have := hfull j (le_refl j) (by omega) k hk
      simp [isFree, this]
    rw [hnone]
    obtain ⟨c1, e, h1, h2, h3⟩ := findVictim_none fuel L n (j + 1)
      ((c.acquire (Lock.bucket j)).release (Lock.bucket j)) hch hlen (by omega)
      (fun i hi1 hi2 => hfull i (by omega) (by omega))
    exact ⟨c1, e, h1, h2, h3⟩

/-- The victim search returns the first unreferenced entry of the first bucket that has one. -/
theorem findVictim_some (fuel : Nat) (L : Nat → List Nat) (j0 v : Nat) :
    ∀ (n j : Nat) (c : BCache),
    (∀ i, i < NBUCKETS → BList c.buf (c.head i) (L i)) →
    (∀ i, i < NBUCKETS → (L i).length < fuel) → j + n ≤ NBUCKETS → j ≤ j0 → j0 < j + n →
    (∀ i, j ≤ i → i < j0 → ∀ k ∈ L i, (c.buf k).refcnt ≠ 0) →
    (L j0).find? (fun k => isFree (c.buf k)) = some v →
    ∃ c1, findVictim fuel n j c = Res.ret (v, j0) c1 ∧ c1.buf = c.buf ∧
      c1.head = c.head ∧ c1.disk = c.disk
  | 0, _, _, _, _, _, h1, h2, _, _ => by omega
  | n + 1, j, c, hch, hlen, hj, h1, h2, hfull, hv => by
    rw [findVictim_succ, scan_spec isFree c.buf (L j) _ fuel (hch j (by omega)) (hlen j (by omega))]
    by_cases hjj : j = j0
    · subst hjj
      rw [hv]
      exact ⟨_, rfl, rfl, rfl, rfl⟩
    · have hnone : (L j).find? (fun k => isFree (c.buf k)) = none := by
        rw [List.find?_eq_none]
        intro k hk
        have := hfull j (le_refl j) (by omega) k hk
        simp [isFree, this]
      rw [hnone]
      obtain ⟨c1, e, e1, e2, e3⟩ := findVictim_some fuel L j0 v n (j + 1)
        ((c.acquire (Lock.bucket j)).release (Lock.bucket j)) hch hlen (by omega) (by omega)
        (by omega) (fun i hi1 hi2 => hfull i (by omega) hi2) hv
      exact ⟨c1, e, e1, e2, e3⟩

/-! ### Unlinking the victim -/

theorem unlink_succ (victim old fuel : Nat) (p : Option Nat) (c : BCache) :
    unlink victim old (fuel + 1) p c =
      match c.getLink old p with
      | none => some c
      | some q =>
        if q = victim then some (c.setLink old p (c.buf victim).next)
        else unlink victim old fuel (some q) c := rfl

theorem setLink_facts (c : BCache) (old : Nat) (p v : Option Nat) :
    (c.setLink old p v).getLink old p = v ∧
      (∀ i, i ≠ old → (c.setLink old p v).head i = c.head i) ∧
      (p ≠ none → (c.setLink old p v).head = c.head) ∧
      (∀ k, p ≠ some k → (c.setLink old p v).buf k = c.buf k) ∧
      (∀ k, { (c.setLink old p v).buf k with next := (c.buf k).next } = c.buf k) ∧
      (c.setLink old p v).disk = c.disk := by
  cases p with
  | none =>
    refine ⟨?_, ?_, fun h => absurd rfl h, fun _ _ => rfl, fun _ => rfl, rfl⟩
    · simp [BCache.setLink, BCache.getLink]
    · intro i hi
      simp [BCache.setLink, upd_ne _ _ _ _ hi]
  | some k0 =>
    refine ⟨?_, fun _ _ => rfl, fun _ => rfl, ?_, ?_, rfl⟩
    · simp [BCache.setLink, BCache.getLink]
    · intro k hk
      have : k ≠ k0 := fun e => hk (by rw [e])
      simp [BCache.setLink, upd_ne _ _ _ _ this]
    · intro k
      by_cases hk : k = k0
      · subst hk
        simp [BCache.setLink]
      · simp [BCache.setLink, upd_ne _ _ _ _ hk]

/-- The unlink loop removes the victim from the list that hangs off the link `p`; it changes
one `next` link (or the list head) and nothing else. -/
theorem unlink_spec (v old : Nat) : ∀ (l : List Nat) (fuel : Nat) (p : Option Nat)
    (c : BCache), BList c.buf (c.getLink old p) l → v ∈ l → l.Nodup →
    (∀ k, p = some k → k ∉ l) → l.length ≤ fuel →
    ∃ c1, unlink v old fuel p c = some c1 ∧ BList c1.buf (c1.getLink old p) (l.erase v) ∧
      (∀ i, i ≠ old → c1.head i = c.head i) ∧ (p ≠ none → c1.head = c.head) ∧
      (∀ k, k ∉ l → p ≠ some k → c1.buf k = c.buf k) ∧
      (∀ k, { c1.buf k with next := (c.buf k).next } = c.buf k) ∧
      c1.buf v = c.buf v ∧ c1.disk = c.disk
  | [], _, _, _, _, hv, _, _, _ => by cases hv
  | _ :: _, 0, _, _, _, _, _, _, hf => by simp at hf
  | a :: l, fuel + 1, p, c, hl, hv, hnd, hp, hf => by
    have hlink : c.getLink old p = some a := hl.1
    rw [unlink_succ, hlink]
    obtain ⟨hanl, hndl⟩ := List.nodup_cons.mp hnd
    by_cases hav : a = v
    · subst hav
      simp only [if_true]
      obtain ⟨f1, f2, f3, f4, f5, f6⟩ := setLink_facts c old p (c.buf a).next
      refine ⟨_, rfl, ?_, f2, f3, ?_, f5, ?_, f6⟩
      · rw [f1, List.erase_cons_head]
        refine BList.congr_next c.buf _ _ _ ?_ hl.2
        intro k hk
        rw [f4 k (fun e => hp k e (List.mem_cons_of_mem a hk))]
      · intro k _ hk
        exact f4 k hk
      · exact f4 a (fun e => hp a e (List.mem_cons_self a l))
    · simp only [if_neg hav]
      have hvl : v ∈ l := by
        rcases List.mem_cons.mp hv with e | e
        · exact absurd e.symm hav
        · exact e
      obtain ⟨c1, e, g1, g2, g3, g4, g5, g6, g7⟩ := unlink_spec v old l fuel (some a) c hl.2 hvl
        hndl (fun k hk => by injection hk with hk; rw [← hk]; exact hanl) (by simpa using hf)
      have hhead := g3 (by simp)
      refine ⟨c1, e, ?_, g2, fun _ => hhead, ?_, g5, g6, g7⟩
      · have herase : (a :: l).erase v = a :: l.erase v := by
          rw [List.erase_cons_tail]
          simpa using hav
        rw [herase]
        refine ⟨?_, g1⟩
        cases p with
        | none =>
          show c1.head old = some a
          rw [hhead]
          exact hlink
        | some k0 =>
          show (c1.buf k0).next = some a
          have hk0 := hp k0 rfl
          rw [g4 k0 (fun h => hk0 (List.mem_cons_of_mem a h))
            (fun h => by injection h with h; exact hk0 (by rw [h]; exact List.mem_cons_self _ l))]
          exact hlink
      · intro k hk hpk
        exact g4 k (fun h => hk (List.mem_cons_of_mem a h))
          (fun h => by injection h with h; exact hk (by rw [h]; exact List.mem_cons_self _ l))

/-! ### `bget` -/

/-- `acquiresleep` returns or sleeps; either way it changes at most the lock of entry `b`. -/
theorem acquiresleep_cases (pid b : Nat) (c : BCache) :
    ∃ c1, (acquiresleep pid b c = Res.ret b c1 ∨ acquiresleep pid b c = Res.sleep b c1) ∧
      c1.head = c.head ∧ c1.disk = c.disk ∧
      (∀ k, k ≠ b → c1.buf k = c.buf k) ∧
      (∀ k, { c1.buf k with lock := (c.buf k).lock } = c.buf k) := by
  unfold acquiresleep
  by_cases hl : ((c.emit (Ev.acq (Lock.buf b))).buf b).lock.locked = true
  · simp only [hl, if_true]
    exact ⟨_, Or.inr rfl, rfl, rfl, fun _ _ => rfl, fun _ => rfl⟩
  · simp only [hl]
    refine ⟨_, Or.inl rfl, rfl, rfl, ?_, ?_⟩
    · intro k hk
      simp [upd_ne _ _ _ _ hk]
    · intro k
      by_cases hk : k = b
      · subst hk
        simp
      · simp [upd_ne _ _ _ _ hk]

theorem bget_hit_eq (fuel pid dev blockno b : Nat) (c : BCache)
    (h : scan (isBlock dev blockno) c.buf fuel (c.head (hash blockno)) = some (some b)) :
    bget fuel pid dev blockno c = acquiresleep pid b
      (((c.acquire (Lock.bucket (hash blockno))).setBuf b
        { c.buf b with refcnt := incr32 (c.buf b).refcnt }).release
        (Lock.bucket (hash blockno))) := by
  unfold bget
  simp only [BCache.acquire_buf, BCache.acquire_head, h]

theorem bget_miss_eq (fuel pid dev blockno : Nat) (c : BCache)
    (h : scan (isBlock dev blockno) c.buf fuel (c.head (hash blockno)) = some none) :
    bget fuel pid dev blockno c =
      match findVictim fuel NBUCKETS 0 (((((c.acquire (Lock.bucket (hash blockno))).release
        (Lock.bucket (hash blockno))).acquire Lock.evict).acquire
        (Lock.bucket (hash blockno))).release (Lock.bucket (hash blockno))) with
      | Res.halt msg c => Res.halt msg c
      | Res.spin => Res.spin
      | Res.sleep a c => Res.sleep a.1 c
      | Res.ret (victim, old_bucket_idx) c =>
        match unlink victim old_bucket_idx fuel none c with
        | none => Res.spin
        | some c =>
          let c := c.release (Lock.bucket old_bucket_idx)
          let c := c.setBuf victim
            { c.buf victim with dev := dev, blockno := blockno, valid := 0, refcnt := 1 }
          let c := c.acquire (Lock.bucket (hash blockno))
          let c := c.setBuf victim { c.buf victim with next := c.head (hash blockno) }
          let c := c.setHead (hash blockno) (some victim)
          let c := c.release (Lock.bucket (hash blockno))
          let c := c.release Lock.evict
          acquiresleep pid victim c := by
  unfold bget
  simp only [BCache.acquire_buf, BCache.acquire_head, BCache.release_buf, BCache.release_head, h]
  try rfl

theorem relink_mem (L : Nat → List Nat) (j i v k t : Nat) (hnd : (L j).Nodup)
    (hdis : t ≠ j → v ∉ L t) :
    k ∈ relink L j i v t ↔ (k = v ∧ t = i) ∨ (k ≠ v ∧ k ∈ L t) := by
  have hbase : k ∈ upd L j ((L j).erase v) t ↔ (k ≠ v ∧ k ∈ L t) := by
    by_cases htj : t = j
    · subst htj
      rw [upd_same]
      exact hnd.mem_erase_iff
    · rw [upd_ne _ _ _ _ htj]
      constructor
      · intro h
        refine ⟨?_, h⟩
        intro e
        rw [e] at h
        exact hdis htj h
      · exact fun h => h.2
  unfold relink
  by_cases hti : t = i
  · subst hti
    rw [upd_same, List.mem_cons, hbase]
    constructor
    · rintro (h | h)
      · exact Or.inl ⟨h, rfl⟩
      · exact Or.inr h
    · rintro (h | h)
      · exact Or.inl h.1
      · exact Or.inr h
  · rw [upd_ne _ _ _ _ hti, hbase]
    constructor
    · exact fun h => Or.inr h
    · rintro (h | h)
      · exact absurd h.2 hti
      · exact h

theorem Buckets.disjoint_of_mem (NBUF : Nat) (c : BCache) (L : Nat → List Nat)
    (h : Buckets NBUF c L) (j v : Nat) (hj : j < NBUCKETS) (hv : v ∈ L j) :
    ∀ t, t < NBUCKETS → t ≠ j → v ∉ L t :=
  fun t ht htj hmem => h.2.2.2.1 j hj t ht v hv (Ne.symm htj) hmem

/-- List part of `Buckets` after an entry has been moved. -/
theorem relink_lists (NBUF : Nat) (c : BCache) (L : Nat → List Nat) (h : Buckets NBUF c L)
    (j i v : Nat) (hj : j < NBUCKETS) (hi : i < NBUCKETS) (hv : v ∈ L j) :
    (∀ t, t < NBUCKETS → ∀ k ∈ relink L j i v t, k < NBUF) ∧
      (∀ t, t < NBUCKETS → (relink L j i v t).Nodup) ∧
      (∀ t, t < NBUCKETS → ∀ u, u < NBUCKETS → ∀ k ∈ relink L j i v t, t ≠ u →
        k ∉ relink L j i v u) ∧
      (∀ k, k < NBUF → ∃ t, t < NBUCKETS ∧ k ∈ relink L j i v t) := by
  have hnd := h.2.2.1 j hj
  have hdis : ∀ t, t < NBUCKETS → t ≠ j → v ∉ L t :=
    Buckets.disjoint_of_mem NBUF c L h j v hj hv
  have hm := fun k t (ht : t < NBUCKETS) => relink_mem L j i v k t hnd (hdis t ht)
  refine ⟨?_, ?_, ?_, ?_⟩
  · intro t ht k hk
    rcases (hm k t ht).mp hk with ⟨e, _⟩ | ⟨_, hkt⟩
    · rw [e]; exact h.2.1 j hj v hv
    · exact h.2.1 t ht k hkt
  · intro t ht
    have hbase : (upd L j ((L j).erase v) t).Nodup := by
      by_cases htj : t = j
      · subst htj
        rw [upd_same]
        exact hnd.erase v
      · rw [upd_ne _ _ _ _ htj]
        exact h.2.2.1 t ht
    unfold relink
    by_cases hti : t = i
    · subst hti
      rw [upd_same]
      refine List.nodup_cons.mpr ⟨?_, hbase⟩
      intro hmem
      by_cases htj : t = j
      · subst htj
        rw [upd_same] at hmem
        exact (hnd.mem_erase_iff.mp hmem).1 rfl
      · rw [upd_ne _ _ _ _ htj] at hmem
        exact hdis t ht htj hmem
    · rw [upd_ne _ _ _ _ hti]
      exact hbase
  · intro t ht u hu k hk htu hku
    rcases (hm k t ht).mp hk with ⟨e1, e2⟩ | ⟨n1, m1⟩ <;>
      rcases (hm k u hu).mp hku with ⟨e3, e4⟩ | ⟨n2, m2⟩
    · exact htu (e2.trans e4.symm)
    · exact n2 e1
    · exact n1 e3
    · exact h.2.2.2.1 t ht u hu k m1 htu m2
  · intro k hk
    by_cases hkv : k = v
    · exact ⟨i, hi, (hm k i hi).mpr (Or.inl ⟨hkv, rfl⟩)⟩
    · obtain ⟨t, ht, hkt⟩ := h.2.2.2.2 k hk
      exact ⟨t, ht, (hm k t ht).mpr (Or.inr ⟨hkv, hkt⟩)⟩

theorem scan_bucket (NBUF fuel : Nat) (c : BCache) (L : Nat → List Nat) (test : Buf → Bool)
    (h : Buckets NBUF c L) (hf : NBUF < fuel) (i : Nat) (hi : i < NBUCKETS) :
    scan test c.buf fuel (c.head i) = some ((L i).find? (fun k => test (c.buf k))) :=
  scan_spec test c.buf (L i) _ fuel (h.1 i hi)
    (lt_of_le_of_lt (Buckets.length_le NBUF c L h i hi) hf)

theorem hash_lt (blockno : Nat) : hash blockno < NBUCKETS := by
  unfold hash NBUCKETS
  omega

/-- Hit: the block is in its bucket; its first entry there gets one more reference. -/
theorem bget_hit (NBUF fuel pid dev blockno b : Nat) (c : BCache) (L : Nat → List Nat)
    (h : Buckets NBUF c L) (hf : NBUF < fuel)
    (hfind : (L (hash blockno)).find? (fun k => isBlock dev blockno (c.buf k)) = some b) :
    ∃ c1, (bget fuel pid dev blockno c = Res.ret b c1 ∨
        bget fuel pid dev blockno c = Res.sleep b c1) ∧
      c1.head = c.head ∧ c1.disk = c.disk ∧ (∀ k, k ≠ b → c1.buf k = c.buf k) ∧
      { c1.buf b with lock := (c.buf b).lock }
        = { c.buf b with refcnt := incr32 (c.buf b).refcnt } := by
  have hscan := scan_bucket NBUF fuel c L (isBlock dev blockno) h hf _ (hash_lt blockno)
  rw [hfind] at hscan
  rw [bget_hit_eq fuel pid dev blockno b c hscan]
  obtain ⟨c1, hres, h1, h2, h3, h4⟩ := acquiresleep_cases pid b
    (((c.acquire (Lock.bucket (hash blockno))).setBuf b
      { c.buf b with refcnt := incr32 (c.buf b).refcnt }).release (Lock.bucket (hash blockno)))
  refine ⟨c1, hres, h1, h2, ?_, ?_⟩
  · intro k hk
    rw [h3 k hk]
    simp [upd_ne _ _ _ _ hk]
  · have := h4 b
    simp only [BCache.release_buf, BCache.setBuf_buf, BCache.acquire_buf, upd_same] at this
    rw [← this]

/-- Exhaustion: the block is not in its bucket and no entry is unreferenced. -/
theorem bget_full (NBUF fuel pid dev blockno : Nat) (c : BCache) (L : Nat → List Nat)
    (h : Buckets NBUF c L) (hf : NBUF < fuel)
    (hfind : (L (hash blockno)).find? (fun k => isBlock dev blockno (c.buf k)) = none)
    (hfull : ∀ t, t < NBUCKETS → ∀ k ∈ L t, (c.buf k).refcnt ≠ 0) :
    ∃ c1, bget fuel pid dev blockno c = Res.halt "bget: no buffers" c1 ∧ c1.buf = c.buf ∧
      c1.head = c.head ∧ c1.disk = c.disk := by
  have hscan := scan_bucket NBUF fuel c L (isBlock dev blockno) h hf _ (hash_lt blockno)
  rw [hfind] at hscan
  rw [bget_miss_eq fuel pid dev blockno c hscan]
  obtain ⟨c1, e, h1, h2, h3⟩ := findVictim_none fuel L NBUCKETS 0
    (((((c.acquire (Lock.bucket (hash blockno))).release
        (Lock.bucket (hash blockno))).acquire Lock.evict).acquire
        (Lock.bucket (hash blockno))).release (Lock.bucket (hash blockno)))
    h.1 (fun i hi => lt_of_le_of_lt (Buckets.length_le NBUF c L h i hi) hf) (by omega)
    (fun t _ ht => hfull t (by omega))
  rw [e]
  exact ⟨c1, rfl, h1, h2, h3⟩

/-- Miss with eviction: the first unreferenced entry `v`, found in bucket `j0`, is moved to the
front of the bucket of the block and takes its identity with one reference. -/
theorem bget_evict (NBUF fuel pid dev blockno j0 v : Nat) (c : BCache) (L : Nat → List Nat)
    (h : Buckets NBUF c L) (hf : NBUF < fuel)
    (hfind : (L (hash blockno)).find? (fun k => isBlock dev blockno (c.buf k)) = none)
    (hj0 : j0 < NBUCKETS) (hbusy : ∀ t, t < j0 → ∀ k ∈ L t, (c.buf k).refcnt ≠ 0)
    (hv : (L j0).find? (fun k => isFree (c.buf k)) = some v) :
    ∃ c1, (bget fuel pid dev blockno c = Res.ret v c1 ∨
        bget fuel pid dev blockno c = Res.sleep v c1) ∧
      Buckets NBUF c1 (relink L j0 (hash blockno) v) ∧ c1.disk = c.disk ∧
      (∀ k, k ≠ v → { c1.buf k with next := (c.buf k).next } = c.buf k) ∧
      { c1.buf v with lock := (c.buf v).lock, next := (c.buf v).next }
        = { c.buf v with dev := dev, blockno := blockno, valid := 0, refcnt := 1 } := by
  have hi := hash_lt blockno
  have hlen : ∀ i, i < NBUCKETS → (L i).length < fuel :=
    fun i hi => lt_of_le_of_lt (Buckets.length_le NBUF c L h i hi) hf
  have hscan := scan_bucket NBUF fuel c L (isBlock dev blockno) h hf _ hi
  rw [hfind] at hscan
  rw [bget_miss_eq fuel pid dev blockno c hscan]
  -- the victim search
  obtain ⟨cv, e, v1, v2, v3⟩ := findVictim_some fuel L j0 v NBUCKETS 0
    (((((c.acquire (Lock.bucket (hash blockno))).release
        (Lock.bucket (hash blockno))).acquire Lock.evict).acquire
        (Lock.bucket (hash blockno))).release (Lock.bucket (hash blockno)))
    h.1 hlen (by omega) (Nat.zero_le _) (by omega) (fun t _ ht => hbusy t ht) hv
  simp only [BCache.acquire_buf, BCache.acquire_head, BCache.release_buf, BCache.release_head,
    BCache.acquire_disk, BCache.release_disk] at v1 v2 v3
  rw [e]
  -- the unlink loop
  have hvmem : v ∈ L j0 := List.mem_of_find?_eq_some hv
  have hnd := h.2.2.1 j0 hj0
  have hdis := Buckets.disjoint_of_mem NBUF c L h j0 v hj0 hvmem
  obtain ⟨cu, eu, u1, u2, _, u4, u5, u6, u7⟩ := unlink_spec v j0 (L j0) fuel none cv
    (by
      show BList cv.buf (cv.head j0) (L j0)
      rw [v1, v2]
      exact h.1 j0 hj0)
    hvmem hnd (fun k hk => by cases hk) (le_of_lt (hlen j0 hj0))
  simp only [eu]
  rw [v1] at u4 u5 u6
  rw [v2] at u2
  rw [v3] at u7
  have u1' : BList cu.buf (cu.head j0) ((L j0).erase v) := u1
  -- bucket lists after the unlink
  have hU : ∀ t, t < NBUCKETS → BList cu.buf (cu.head t) (upd L j0 ((L j0).erase v) t) := by
    intro t ht
    by_cases htj : t = j0
    · subst htj
      rw [upd_same]
      exact u1'
    · rw [upd_ne _ _ _ _ htj, u2 t htj]
      refine BList.congr_next c.buf _ _ _ ?_ (h.1 t ht)
      intro a ha
      rw [u4 a (fun hm => h.2.2.2.1 t ht j0 hj0 a ha htj hm) (by simp)]
  have hvU : ∀ t, t < NBUCKETS → v ∉ upd L j0 ((L j0).erase v) t := by
    intro t ht hm
    by_cases htj : t = j0
    · subst htj
      rw [upd_same] at hm
      exact (hnd.mem_erase_iff.mp hm).1 rfl
    · rw [upd_ne _ _ _ _ htj] at hm
      exact hdis t ht htj hm
  -- the final state
  obtain ⟨c1, hres, a1, a2, a3, a4⟩ := acquiresleep_cases pid v
    (((((((cu.release (Lock.bucket j0)).setBuf v
      { (cu.release (Lock.bucket j0)).buf v with
        dev := dev, blockno := blockno, valid := 0, refcnt := 1 }).acquire
      (Lock.bucket (hash blockno))).setBuf v
      { ((((cu.release (Lock.bucket j0)).setBuf v
          { (cu.release (Lock.bucket j0)).buf v with
            dev := dev, blockno := blockno, valid := 0, refcnt := 1 }).acquire
          (Lock.bucket (hash blockno))).buf v) with
        next := (((cu.release (Lock.bucket j0)).setBuf v
          { (cu.release (Lock.bucket j0)).buf v with
            dev := dev, blockno := blockno, valid := 0, refcnt := 1 }).acquire
          (Lock.bucket (hash blockno))).head (hash blockno) }).setHead (hash blockno)
      (some v)).release (Lock.bucket (hash blockno))).release Lock.evict)
  simp only [BCache.acquire_buf, BCache.acquire_head, BCache.release_buf, BCache.release_head,
    BCache.acquire_disk, BCache.release_disk, BCache.setBuf_buf, BCache.setBuf_head,
    BCache.setBuf_disk, BCache.setHead_buf, BCache.setHead_head, BCache.setHead_disk,
    upd_same] at a1 a2 a3 a4
  have hnext : ∀ k, k ≠ v → (c1.buf k).next = (cu.buf k).next := by
    intro k hk
    rw [a3 k hk, upd_ne _ _ _ _ hk, upd_ne _ _ _ _ hk]
  have hnextv : (c1.buf v).next = cu.head (hash blockno) := by
    have := congrArg Buf.next (a4 v)
    simp only [upd_same] at this
    exact this
  refine ⟨c1, hres, ⟨?_, relink_lists NBUF c L h j0 (hash blockno) v hj0 hi hvmem⟩,
    by rw [a2, u7], ?_, ?_⟩
  · intro t ht
    rw [a1]
    unfold relink
    by_cases hti : t = hash blockno
    · rw [hti, upd_same, upd_same]
      refine ⟨rfl, ?_⟩
      rw [hnextv]
      refine BList.congr_next cu.buf _ _ _ ?_ (hU _ hi)
      intro a ha
      exact hnext a (fun e => hvU _ hi (e ▸ ha))
    · rw [upd_ne _ _ _ _ hti, upd_ne _ _ _ _ hti]
      refine BList.congr_next cu.buf _ _ _ ?_ (hU t ht)
      intro a ha
      exact hnext a (fun e => hvU t ht (e ▸ ha))
  · intro k hk
    rw [a3 k hk, upd_ne _ _ _ _ hk, upd_ne _ _ _ _ hk]
    exact u5 k
  · have := a4 v
    simp only [upd_same] at this
    rw [u6] at this
    have hl := congrArg Buf.lock this
    have hd := congrArg Buf.dev this
    have hb := congrArg Buf.blockno this
    have hva := congrArg Buf.valid this
    have hr := congrArg Buf.refcnt this
    have hda := congrArg Buf.data this
    simp only at hl hd hb hva hr hda
    cases hc1 : c1.buf v
    rw [hc1] at hd hb hva hr hda
    simp only at hd hb hva hr hda
    simp only [hd, hb, hva, hr, hda]

/-! ### Fuel of the cache loops -/

theorem scan_mono (test : Buf → Bool) (buf : Nat → Buf) (d : Nat) :
    ∀ (fuel : Nat) (h : Option Nat) (r : Option Nat),
      scan test buf fuel h = some r → scan test buf (fuel + d) h = some r
  | 0, _, _, hs => by simp [scan] at hs
  | fuel + 1, none, r, hs => by
    rw [show fuel + 1 + d = (fuel + d) + 1 by omega]
    exact hs
  | fuel + 1, some b, r, hs => by
    rw [show fuel + 1 + d = (fuel + d) + 1 by omega]
    have e : ∀ f, scan test buf (f + 1) (some b)
        = if test (buf b) then some (some b) else scan test buf f (buf b).next := fun _ => rfl
    rw [e] at hs ⊢
    by_cases ht : test (buf b) = true
    · rw [if_pos ht] at hs ⊢
      exact hs
    · rw [if_neg ht] at hs ⊢
      exact scan_mono test buf d fuel _ r hs

theorem findVictim_mono (fuel d : Nat) : ∀ (n j : Nat) (c : BCache),
    findVictim fuel n j c ≠ Res.spin →
      findVictim (fuel + d) n j c = findVictim fuel n j c
  | 0, _, _, _ => rfl
  | n + 1, j, c, hne => by
    rw [findVictim_succ] at hne ⊢
    rw [findVictim_succ]
    cases hs : scan isFree c.buf fuel (c.head j) with
    | none =>
      rw [hs] at hne
      exact absurd rfl hne
    | some r =>
      rw [scan_mono isFree c.buf d fuel _ r hs]
      cases r with
      | some v => rfl
      | none =>
        rw [hs] at hne
        exact findVictim_mono fuel d n (j + 1) _ hne

theorem unlink_mono (v old d : Nat) : ∀ (fuel : Nat) (p : Option Nat) (c c1 : BCache),
    unlink v old fuel p c = some c1 → unlink v old (fuel + d) p c = some c1
  | 0, _, _, _, h => by simp [unlink] at h
  | fuel + 1, p, c, c1, h => by
    rw [show fuel + 1 + d = (fuel + d) + 1 by omega, unlink_succ]
    rw [unlink_succ] at h
    cases hl : c.getLink old p with
    | none =>
      rw [hl] at h
      exact h
    | some q =>
      rw [hl] at h
      by_cases hq : q = v
      · simp only [hq, if_true] at h ⊢
        exact h
      · simp only [if_neg hq] at h ⊢
        exact unlink_mono v old d fuel (some q) c c1 h

/-- More fuel does not change an outcome of `bget` other than `spin`. -/
theorem bget_mono (fuel d pid dev blockno : Nat) (c : BCache)
    (hne : bget fuel pid dev blockno c ≠ Res.spin) :
    bget (fuel + d) pid dev blockno c = bget fuel pid dev blockno c := by
  cases hs : scan (isBlock dev blockno) c.buf fuel (c.head (hash blockno)) with
  | none =>
    exfalso
    apply hne
    unfold bget
    simp only [BCache.acquire_buf, BCache.acquire_head, hs]
  | some r =>
    have hs2 := scan_mono (isBlock dev blockno) c.buf d fuel _ r hs
    cases r with
    | some b =>
      rw [bget_hit_eq fuel pid dev blockno b c hs, bget_hit_eq (fuel + d) pid dev blockno b c hs2]
    | none =>
      rw [bget_miss_eq fuel pid dev blockno c hs] at hne ⊢
      rw [bget_miss_eq (fuel + d) pid dev blockno c hs2]
      have hfv : findVictim fuel NBUCKETS 0 (((((c.acquire (Lock.bucket (hash blockno))).release
          (Lock.bucket (hash blockno))).acquire Lock.evict).acquire
          (Lock.bucket (hash blockno))).release (Lock.bucket (hash blockno))) ≠ Res.spin := by
        intro e
        rw [e] at hne
        exact hne rfl
      rw [findVictim_mono fuel d _ _ _ hfv]
      cases hv : findVictim fuel NBUCKETS 0 (((((c.acquire (Lock.bucket (hash blockno))).release
          (Lock.bucket (hash blockno))).acquire Lock.evict).acquire
          (Lock.bucket (hash blockno))).release (Lock.bucket (hash blockno))) with
      | spin => exact absurd hv hfv
      | halt msg c1 => rfl
      | sleep a c1 => rfl
      | ret a c1 =>
        obtain ⟨v, j⟩ := a
        rw [hv] at hne
        simp only at hne ⊢
        cases hu : unlink v j fuel none c1 with
        | none =>
          rw [hu] at hne
          exact absurd rfl hne
        | some cu =>
          rw [unlink_mono v j d fuel none c1 cu hu]

/-- Among the indices below `n` that satisfy `p` there is a least one. -/
theorem lowest_index (n : Nat) (p : Nat → Prop) (h : ∃ i, i < n ∧ p i) :
    ∃ j, j < n ∧ p j ∧ ∀ t, t < j → ¬ p t := by
  classical
  refine ⟨Nat.find h, (Nat.find_spec h).1, (Nat.find_spec h).2, ?_⟩
  intro t ht hpt
  exact Nat.find_min h ht ⟨lt_trans ht (Nat.find_spec h).1, hpt⟩

/-! ### The identity discipline is an invariant -/

theorem find_first_pairwise (p : Nat → Bool) (b : Nat) : ∀ (l : List Nat), l.Nodup →
    l.find? p = some b → l.Pairwise (fun x y => y = b → ¬ (p x = true))
  | [], _, h => by simp at h
  | a :: l, hnd, h => by
    obtain ⟨hal, hndl⟩ := List.nodup_cons.mp hnd
    rw [List.find?_cons] at h
    by_cases hpa : p a = true
    · simp only [hpa] at h
      injection h with h
      subst h
      refine List.pairwise_cons.mpr ⟨?_, ?_⟩
      · intro y hy e
        rw [e] at hy
        exact absurd hy hal
      · refine List.pairwise_of_forall_mem_list ?_
        intro x _ y hy e
        rw [e] at hy
        exact absurd hy hal
    · have hf : p a = false := by simpa using hpa
      simp only [hf] at h
      refine List.pairwise_cons.mpr ⟨fun _ _ _ => hpa, find_first_pairwise p b l hndl h⟩

theorem isBlock_iff (dev blockno : Nat) (x : Buf) :
    isBlock dev blockno x = true ↔ x.dev = dev ∧ x.blockno = blockno := by
  simp [isBlock]

/-- Changing the reference count of an entry that is the first of its identity in the bucket
of its block number keeps the identity discipline. -/
theorem IdInv.setRefcnt (NBUF : Nat) (c c1 : BCache) (L : Nat → List Nat) (b : Nat)
    (hI : IdInv NBUF c L)
    (hd : ∀ k, (c1.buf k).dev = (c.buf k).dev)
    (hbn : ∀ k, (c1.buf k).blockno = (c.buf k).blockno)
    (hr : ∀ k, k ≠ b → (c1.buf k).refcnt = (c.buf k).refcnt)
    (hmem : b ∈ L (hash (c.buf b).blockno))
    (hfirst : ∀ i, i < NBUCKETS → (L i).Pairwise (fun x y => y = b →
      ¬ ((c.buf x).dev = (c.buf y).dev ∧ (c.buf x).blockno = (c.buf y).blockno))) :
    IdInv NBUF c1 L := by
  refine ⟨?_, ?_⟩
  · intro k hk hpos
    rw [hbn k]
    by_cases hkb : k = b
    · rw [hkb]; exact hmem
    · rw [hr k hkb] at hpos
      exact hI.1 k hk hpos
  · intro i hi
    refine List.Pairwise.imp ?_ ((hI.2 i hi).and (hfirst i hi))
    intro x y hxy hsame
    rw [hd x, hd y, hbn x, hbn y] at hsame
    by_cases hyb : y = b
    · exact absurd hsame (hxy.2 hyb)
    · rw [hr y hyb]
      exact hxy.1 hsame

/-- A referenced entry is the first of its identity in its bucket. -/
theorem IdInv.first_of_ref (NBUF : Nat) (c : BCache) (L : Nat → List Nat) (b : Nat)
    (hI : IdInv NBUF c L) (hb : b < NBUF) (href : 1 ≤ (c.buf b).refcnt) :
    b ∈ L (hash (c.buf b).blockno) ∧
      ∀ i, i < NBUCKETS → (L i).Pairwise (fun x y => y = b →
        ¬ ((c.buf x).dev = (c.buf y).dev ∧ (c.buf x).blockno = (c.buf y).blockno)) := by
  refine ⟨hI.1 b hb (by omega), ?_⟩
  intro i hi
  refine List.Pairwise.imp ?_ (hI.2 i hi)
  intro x y hxy hyb hsame
  have := hxy hsame
  rw [hyb] at this
  omega

/-- The entry found by the lookup is the first of its identity in its bucket. -/
theorem first_of_find (NBUF : Nat) (c : BCache) (L : Nat → List Nat) (dev blockno b : Nat)
    (hB : Buckets NBUF c L)
    (hfind : (L (hash blockno)).find? (fun k => isBlock dev blockno (c.buf k)) = some b) :
    b ∈ L (hash (c.buf b).blockno) ∧
      ∀ i, i < NBUCKETS → (L i).Pairwise (fun x y => y = b →
        ¬ ((c.buf x).dev = (c.buf y).dev ∧ (c.buf x).blockno = (c.buf y).blockno)) := by
  have hmem : b ∈ L (hash blockno) := List.mem_of_find?_eq_some hfind
  have hpb : (fun k => isBlock dev blockno (c.buf k)) b = true :=
    @List.find?_some Nat (fun k => isBlock dev blockno (c.buf k)) b _ hfind
  have hid := (isBlock_iff dev blockno (c.buf b)).mp hpb
  refine ⟨by rw [hid.2]; exact hmem, ?_⟩
  intro i hi
  by_cases hih : i = hash blockno
  · rw [hih]
    refine List.Pairwise.imp ?_ (find_first_pairwise _ b _ (hB.2.2.1 _ (hash_lt blockno)) hfind)
    intro x y hxy hyb hsame
    apply hxy hyb
    rw [hyb, hid.1, hid.2] at hsame
    exact (isBlock_iff dev blockno (c.buf x)).mpr hsame
  · refine List.pairwise_of_forall_mem_list ?_
    intro x _ y hy hyb
    rw [hyb] at hy
    exact absurd hy (fun hm => hB.2.2.2.1 _ (hash_lt blockno) i hi b hmem (Ne.symm hih) hm)

/-- Recycling an unlisted identity keeps the identity discipline. -/
theorem IdInv.evict (NBUF : Nat) (c c1 : BCache) (L : Nat → List Nat) (j0 v dev blockno : Nat)
    (hB : Buckets NBUF c L) (hI : IdInv NBUF c L) (hj0 : j0 < NBUCKETS) (hv : v ∈ L j0)
    (hnone : ∀ x ∈ L (hash blockno), ¬ ((c.buf x).dev = dev ∧ (c.buf x).blockno = blockno))
    (hd : ∀ k, k ≠ v → (c1.buf k).dev = (c.buf k).dev)
    (hbn : ∀ k, k ≠ v → (c1.buf k).blockno = (c.buf k).blockno)
    (hr : ∀ k, k ≠ v → (c1.buf k).refcnt = (c.buf k).refcnt)
    (hvd : (c1.buf v).dev = dev) (hvb : (c1.buf v).blockno = blockno) :
    IdInv NBUF c1 (relink L j0 (hash blockno) v) := by
  have hnd := hB.2.2.1 j0 hj0
  have hdis := Buckets.disjoint_of_mem NBUF c L hB j0 v hj0 hv
  have hm := fun k t (ht : t < NBUCKETS) =>
    relink_mem L j0 (hash blockno) v k t hnd (hdis t ht)
  -- the lists without the victim
  have hUsub : ∀ t, (upd L j0 ((L j0).erase v) t).Sublist (L t) := by
    intro t
    by_cases htj : t = j0
    · subst htj
      rw [upd_same]
      exact List.erase_sublist v _
    · rw [upd_ne _ _ _ _ htj]
  have hUv : ∀ t, t < NBUCKETS → v ∉ upd L j0 ((L j0).erase v) t := by
    intro t ht hmem
    by_cases htj : t = j0
    · subst htj
      rw [upd_same] at hmem
      exact (hnd.mem_erase_iff.mp hmem).1 rfl
    · rw [upd_ne _ _ _ _ htj] at hmem
      exact hdis t ht htj hmem
  have hUp : ∀ t, t < NBUCKETS → (upd L j0 ((L j0).erase v) t).Pairwise (fun x y =>
      (c1.buf x).dev = (c1.buf y).dev ∧ (c1.buf x).blockno = (c1.buf y).blockno →
        (c1.buf y).refcnt = 0) := by
    intro t ht
    refine List.Pairwise.imp_of_mem ?_ ((hI.2 t ht).sublist (hUsub t))
    intro x y hx hy hxy hsame
    have hxv : x ≠ v := fun e => hUv t ht (e ▸ hx)
    have hyv : y ≠ v := fun e => hUv t ht (e ▸ hy)
    rw [hd x hxv, hd y hyv, hbn x hxv, hbn y hyv] at hsame
    rw [hr y hyv]
    exact hxy hsame
  refine ⟨?_, ?_⟩
  · intro k hk hpos
    by_cases hkv : k = v
    · rw [hkv, hvb]
      exact (hm v _ (hash_lt blockno)).mpr (Or.inl ⟨rfl, rfl⟩)
    · rw [hbn k hkv]
      rw [hr k hkv] at hpos
      exact (hm k _ (hash_lt _)).mpr (Or.inr ⟨hkv, hI.1 k hk hpos⟩)
  · intro t ht
    unfold relink
    by_cases hti : t = hash blockno
    · rw [hti, upd_same]
      refine List.pairwise_cons.mpr ⟨?_, hUp _ (hash_lt blockno)⟩
      intro y hy hsame
      exfalso
      have hyv : y ≠ v := fun e => hUv _ (hash_lt blockno) (e ▸ hy)
      rw [hvd, hvb, hd y hyv, hbn y hyv] at hsame
      exact hnone y ((hUsub _).subset hy) ⟨hsame.1.symm, hsame.2.symm⟩
    · rw [upd_ne _ _ _ _ hti]
      exact hUp t ht

theorem Buf.of_next_eq (x y : Buf) (n : Option Nat) (h : { x with next := n } = y) :
    x.dev = y.dev ∧ x.blockno = y.blockno ∧ x.refcnt = y.refcnt ∧ x.valid = y.valid ∧
      x.lock = y.lock ∧ x.data = y.data := by
  subst h
  exact ⟨rfl, rfl, rfl, rfl, rfl, rfl⟩

theorem Buf.of_lock_eq (x y : Buf) (l : SleepLock) (h : { x with lock := l } = y) :
    x.dev = y.dev ∧ x.blockno = y.blockno ∧ x.refcnt = y.refcnt ∧ x.valid = y.valid ∧
      x.next = y.next ∧ x.data = y.data := by
  subst h
  exact ⟨rfl, rfl, rfl, rfl, rfl, rfl⟩

theorem Buf.of_lock_next_eq (x y : Buf) (l : SleepLock) (n : Option Nat)
    (h : { x with lock := l, next := n } = y) :
    x.dev = y.dev ∧ x.blockno = y.blockno ∧ x.refcnt = y.refcnt ∧ x.valid = y.valid ∧
      x.data = y.data := by
  subst h
  exact ⟨rfl, rfl, rfl, rfl, rfl⟩

theorem ret_or_sleep_inj {σ α : Type} (X : Res σ α) (a a1 : α) (s s1 : σ)
    (h : X = Res.ret a s ∨ X = Res.sleep a s) (h1 : X = Res.ret a1 s1 ∨ X = Res.sleep a1 s1) :
    a = a1 ∧ s = s1 := by
  rcases h with h | h <;> rcases h1 with h1 | h1 <;> rw [h] at h1 <;> cases h1 <;> exact ⟨rfl, rfl⟩

/-- Complete description of `bget` on a well-formed cache, given fuel for the bucket scans. -/
theorem bget_cases (NBUF fuel pid dev blockno : Nat) (c : BCache) (L : Nat → List Nat)
    (h : Buckets NBUF c L) (hf : NBUF < fuel) :
    (∃ b c1, (L (hash blockno)).find? (fun k => isBlock dev blockno (c.buf k)) = some b ∧
        (bget fuel pid dev blockno c = Res.ret b c1 ∨
          bget fuel pid dev blockno c = Res.sleep b c1) ∧
        c1.head = c.head ∧ c1.disk = c.disk ∧ (∀ k, k ≠ b → c1.buf k = c.buf k) ∧
        { c1.buf b with lock := (c.buf b).lock }
          = { c.buf b with refcnt := incr32 (c.buf b).refcnt }) ∨
    (∃ j0 v c1, (L (hash blockno)).find? (fun k => isBlock dev blockno (c.buf k)) = none ∧
        j0 < NBUCKETS ∧ (∀ t, t < j0 → ∀ k ∈ L t, (c.buf k).refcnt ≠ 0) ∧
        (L j0).find? (fun k => isFree (c.buf k)) = some v ∧
        (bget fuel pid dev blockno c = Res.ret v c1 ∨
          bget fuel pid dev blockno c = Res.sleep v c1) ∧
        Buckets NBUF c1 (relink L j0 (hash blockno) v) ∧ c1.disk = c.disk ∧
        (∀ k, k ≠ v → { c1.buf k with next := (c.buf k).next } = c.buf k) ∧
        { c1.buf v with lock := (c.buf v).lock, next := (c.buf v).next }
          = { c.buf v with dev := dev, blockno := blockno, valid := 0, refcnt := 1 }) ∨
    (∃ c1, (L (hash blockno)).find? (fun k => isBlock dev blockno (c.buf k)) = none ∧
        (∀ t, t < NBUCKETS → ∀ k ∈ L t, (c.buf k).refcnt ≠ 0) ∧
        bget fuel pid dev blockno c = Res.halt "bget: no buffers" c1 ∧ c1.buf = c.buf ∧
        c1.head = c.head ∧ c1.disk = c.disk) := by
  cases hfind : (L (hash blockno)).find? (fun k => isBlock dev blockno (c.buf k)) with
  | some b =>
    obtain ⟨c1, h1, h2, h3, h4, h5⟩ := bget_hit NBUF fuel pid dev blockno b c L h hf hfind
    exact Or.inl ⟨b, c1, rfl, h1, h2, h3, h4, h5⟩
  | none =>
    by_cases hex : ∃ t, t < NBUCKETS ∧ ∃ k, k ∈ L t ∧ (c.buf k).refcnt = 0
    · obtain ⟨j0, hj0, ⟨k0, hk0, hk0r⟩, hlow⟩ := lowest_index NBUCKETS _ hex
      cases hv : (L j0).find? (fun k => isFree (c.buf k)) with
      | none =>
        exfalso
        have := List.find?_eq_none.mp hv k0 hk0
        simp [isFree, hk0r] at this
      | some v =>
        have hbusy : ∀ t, t < j0 → ∀ k ∈ L t, (c.buf k).refcnt ≠ 0 :=
          fun t ht k hk hz => hlow t ht ⟨k, hk, hz⟩
        obtain ⟨c1, h1, h2, h3, h4, h5⟩ := bget_evict NBUF fuel pid dev blockno j0 v c L h hf
          hfind hj0 hbusy hv
        exact Or.inr (Or.inl ⟨j0, v, c1, rfl, hj0, hbusy, hv, h1, h2, h3, h4, h5⟩)
    · have hfull : ∀ t, t < NBUCKETS → ∀ k ∈ L t, (c.buf k).refcnt ≠ 0 :=
        fun t ht k hk hz => hex ⟨t, ht, k, hk, hz⟩
      obtain ⟨c1, h1, h2, h3, h4⟩ := bget_full NBUF fuel pid dev blockno c L h hf hfind hfull
      exact Or.inr (Or.inr ⟨c1, rfl, hfull, h1, h2, h3, h4⟩)

/-- `bget` keeps the bucket structure and the identity discipline. -/
theorem bget_inv (NBUF fuel pid dev blockno b : Nat) (c c1 : BCache)
    (hinv : ∃ L, Buckets NBUF c L ∧ IdInv NBUF c L)
    (hres : bget fuel pid dev blockno c = Res.ret b c1 ∨
      bget fuel pid dev blockno c = Res.sleep b c1) :
    ∃ L, Buckets NBUF c1 L ∧ IdInv NBUF c1 L := by
  obtain ⟨L, hB, hI⟩ := hinv
  have hne : bget fuel pid dev blockno c ≠ Res.spin := by
    intro e
    rcases hres with h | h <;> rw [e] at h <;> cases h
  have hmono := bget_mono fuel (NBUF + 1) pid dev blockno c hne
  rw [← hmono] at hres
  rcases bget_cases NBUF (fuel + (NBUF + 1)) pid dev blockno c L hB (by omega) with
    ⟨b2, c2, hfind, hr2, g1, _, g3, g4⟩ | ⟨j0, v, c2, hfind, hj0, _, hv, hr2, g1, _, g3, g4⟩ |
    ⟨c2, _, _, hh, _⟩
  · obtain ⟨_, ec⟩ := ret_or_sleep_inj _ _ _ _ _ hr2 hres
    subst ec
    have hfield : ∀ k, (c2.buf k).next = (c.buf k).next ∧ (c2.buf k).dev = (c.buf k).dev ∧
        (c2.buf k).blockno = (c.buf k).blockno := by
      intro k
      by_cases hk : k = b2
      · rw [hk]
        have hq := Buf.of_lock_eq _ _ _ g4
        exact ⟨hq.2.2.2.2.1, hq.1, hq.2.1⟩
      · rw [g3 k hk]
        exact ⟨rfl, rfl, rfl⟩
    obtain ⟨f1, f2⟩ := first_of_find NBUF c L dev blockno b2 hB hfind
    exact ⟨L, Buckets.congr_links NBUF c c2 L (fun k => (hfield k).1) g1 hB,
      IdInv.setRefcnt NBUF c c2 L b2 hI (fun k => (hfield k).2.1) (fun k => (hfield k).2.2)
        (fun k hk => by rw [g3 k hk]) f1 f2⟩
  · obtain ⟨_, ec⟩ := ret_or_sleep_inj _ _ _ _ _ hr2 hres
    subst ec
    refine ⟨_, g1, IdInv.evict NBUF c c2 L j0 v dev blockno hB hI hj0
      (List.mem_of_find?_eq_some hv) ?_
      (fun k hk => (Buf.of_next_eq _ _ _ (g3 k hk)).1)
      (fun k hk => (Buf.of_next_eq _ _ _ (g3 k hk)).2.1)
      (fun k hk => (Buf.of_next_eq _ _ _ (g3 k hk)).2.2.1) (Buf.of_lock_next_eq _ _ _ _ g4).1
      (Buf.of_lock_next_eq _ _ _ _ g4).2.1⟩
    intro x hx hsame
    have := List.find?_eq_none.mp hfind x hx
    exact this ((isBlock_iff dev blockno (c.buf x)).mpr hsame)
  · rcases hres with h | h <;> rw [hh] at h <;> cases h

/-- A step that leaves heads, links and identities alone and changes the reference count of at
most one entry, which is referenced, keeps bucket structure and identity discipline. -/
theorem inv_of_refcnt_step (NBUF : Nat) (c c1 : BCache) (b : Nat)
    (hinv : ∃ L, Buckets NBUF c L ∧ IdInv NBUF c L) (hb : b < NBUF)
    (href : 1 ≤ (c.buf b).refcnt) (hh : c1.head = c.head)
    (hn : ∀ k, (c1.buf k).next = (c.buf k).next)
    (hd : ∀ k, (c1.buf k).dev = (c.buf k).dev)
    (hbn : ∀ k, (c1.buf k).blockno = (c.buf k).blockno)
    (hr : ∀ k, k ≠ b → (c1.buf k).refcnt = (c.buf k).refcnt) :
    ∃ L, Buckets NBUF c1 L ∧ IdInv NBUF c1 L := by
  obtain ⟨L, hB, hI⟩ := hinv
  obtain ⟨f1, f2⟩ := IdInv.first_of_ref NBUF c L b hI hb href
  exact ⟨L, Buckets.congr_links NBUF c c1 L hn hh hB, IdInv.setRefcnt NBUF c c1 L b hI hd hbn hr f1 f2⟩

/-- A step that leaves heads, links, identities and reference counts alone keeps bucket
structure and identity discipline. -/
theorem inv_of_quiet_step (NBUF : Nat) (c c1 : BCache)
    (hinv : ∃ L, Buckets NBUF c L ∧ IdInv NBUF c L) (hh : c1.head = c.head)
    (hn : ∀ k, (c1.buf k).next = (c.buf k).next)
    (hd : ∀ k, (c1.buf k).dev = (c.buf k).dev)
    (hbn : ∀ k, (c1.buf k).blockno = (c.buf k).blockno)
    (hr : ∀ k, (c1.buf k).refcnt = (c.buf k).refcnt) :
    ∃ L, Buckets NBUF c1 L ∧ IdInv NBUF c1 L := by
  obtain ⟨L, hB, hI⟩ := hinv
  exact ⟨L, Buckets.congr_links NBUF c c1 L hn hh hB, IdInv.congr_ids NBUF c c1 L hd hbn hr hI⟩

theorem acquiresleep_quiet (pid b : Nat) (c c1 : BCache)
    (h : acquiresleep pid b c = Res.ret b c1) :
    c1.head = c.head ∧ ∀ k, (c1.buf k).next = (c.buf k).next ∧
      (c1.buf k).dev = (c.buf k).dev ∧ (c1.buf k).blockno = (c.buf k).blockno ∧
      (c1.buf k).refcnt = (c.buf k).refcnt := by
  obtain ⟨c2, hres, h1, _, _, h4⟩ := acquiresleep_cases pid b c
  obtain ⟨_, e⟩ := ret_or_sleep_inj _ _ _ _ _ hres (Or.inl h)
  subst e
  refine ⟨h1, fun k => ?_⟩
  have hq := Buf.of_lock_eq _ _ _ (h4 k)
  exact ⟨hq.2.2.2.2.1, hq.1, hq.2.1, hq.2.2.1⟩

theorem breadFill_quiet (b : Nat) (c : BCache) :
    (breadFill b c).head = c.head ∧ ∀ k, ((breadFill b c).buf k).next = (c.buf k).next ∧
      ((breadFill b c).buf k).dev = (c.buf k).dev ∧
      ((breadFill b c).buf k).blockno = (c.buf k).blockno ∧
      ((breadFill b c).buf k).refcnt = (c.buf k).refcnt := by
  unfold breadFill
  by_cases hv : (c.buf b).valid = 0
  · rw [if_pos hv]
    refine ⟨rfl, fun k => ?_⟩
    by_cases hk : k = b
    · subst hk
      simp [virtio_disk_rw]
    · simp [virtio_disk_rw, upd_ne _ _ _ _ hk]
  · rw [if_neg hv]
    exact ⟨rfl, fun _ => ⟨rfl, rfl, rfl, rfl⟩⟩

theorem bwrite_quiet (pid b : Nat) (c c1 : BCache) (h : bwrite pid b c = Res.ret () c1) :
    c1.head = c.head ∧ c1.buf = c.buf := by
  unfold bwrite at h
  by_cases hh : (!holdingsleep pid b c) = true
  · rw [if_pos hh] at h
    cases h
  · rw [if_neg hh] at h
    injection h with _ e
    subst e
    exact ⟨rfl, rfl⟩

theorem brelse_step (pid b : Nat) (c c1 : BCache) (h : brelse pid b c = Res.ret () c1) :
    c1.head = c.head ∧ (∀ k, (c1.buf k).next = (c.buf k).next ∧
      (c1.buf k).dev = (c.buf k).dev ∧ (c1.buf k).blockno = (c.buf k).blockno) ∧
      (∀ k, k ≠ b → (c1.buf k).refcnt = (c.buf k).refcnt) ∧
      (c1.buf b).refcnt = decr32 (c.buf b).refcnt := by
  unfold brelse at h
  by_cases hh : (!holdingsleep pid b c) = true
  · rw [if_pos hh] at h
    cases h
  · rw [if_neg hh] at h
    injection h with _ e
    subst e
    refine ⟨rfl, fun k => ?_, fun k hk => ?_, ?_⟩
    · by_cases hk : k = b
      · subst hk
        simp [releasesleep]
      · simp [releasesleep, upd_ne _ _ _ _ hk]
    · simp [releasesleep, upd_ne _ _ _ _ hk]
    · simp [releasesleep]

theorem bpin_step (b : Nat) (c c1 : BCache) (h : bpin b c = Res.ret () c1) :
    c1.head = c.head ∧ (∀ k, (c1.buf k).next = (c.buf k).next ∧
      (c1.buf k).dev = (c.buf k).dev ∧ (c1.buf k).blockno = (c.buf k).blockno) ∧
      (∀ k, k ≠ b → (c1.buf k).refcnt = (c.buf k).refcnt) ∧
      (c1.buf b).refcnt = incr32 (c.buf b).refcnt := by
  unfold bpin at h
  injection h with _ e
  subst e
  refine ⟨rfl, fun k => ?_, fun k hk => ?_, ?_⟩
  · by_cases hk : k = b
    · subst hk
      simp
    · simp [upd_ne _ _ _ _ hk]
  · simp [upd_ne _ _ _ _ hk]
  · simp

theorem bunpin_step (b : Nat) (c c1 : BCache) (h : bunpin b c = Res.ret () c1) :
    c1.head = c.head ∧ (∀ k, (c1.buf k).next = (c.buf k).next ∧
      (c1.buf k).dev = (c.buf k).dev ∧ (c1.buf k).blockno = (c.buf k).blockno) ∧
      (∀ k, k ≠ b → (c1.buf k).refcnt = (c.buf k).refcnt) ∧
      (c1.buf b).refcnt = decr32 (c.buf b).refcnt := by
  unfold bunpin at h
  injection h with _ e
  subst e
  refine ⟨rfl, fun k => ?_, fun k hk => ?_, ?_⟩
  · by_cases hk : k = b
    · subst hk
      simp
    · simp [upd_ne _ _ _ _ hk]
  · simp [upd_ne _ _ _ _ hk]
  · simp

theorem bread_ret (fuel pid dev blockno b : Nat) (c c1 : BCache)
    (h : bread fuel pid dev blockno c = Res.ret b c1) :
    ∃ c2, bget fuel pid dev blockno c = Res.ret b c2 ∧ c1 = breadFill b c2 := by
  unfold bread at h
  cases hg : bget fuel pid dev blockno c with
  | ret b2 c2 =>
    rw [hg] at h
    injection h with e1 e2
    subst e1
    exact ⟨c2, rfl, e2.symm⟩
  | halt msg c2 => rw [hg] at h; cases h
  | spin => rw [hg] at h; cases h
  | sleep b2 c2 => rw [hg] at h; cases h

theorem bread_sleep (fuel pid dev blockno b : Nat) (c c1 : BCache)
    (h : bread fuel pid dev blockno c = Res.sleep b c1) :
    bget fuel pid dev blockno c = Res.sleep b c1 := by
  unfold bread at h
  cases hg : bget fuel pid dev blockno c with
  | ret b2 c2 => rw [hg] at h; cases h
  | halt msg c2 => rw [hg] at h; cases h
  | spin => rw [hg] at h; cases h
  | sleep b2 c2 =>
    rw [hg] at h
    exact h

/-- Bucket structure and identity discipline hold in the state left by `binit` and in every
state reachable from it. -/
theorem BReach.buckets_inv (NBUF : Nat) (c0 c : BCache)
    (hzero : ∀ k, k < NBUF → (c0.buf k).refcnt = 0) (hr : BReach NBUF (binit NBUF c0) c) :
    ∃ L, Buckets NBUF c L ∧ IdInv NBUF c L := by
  induction hr with
  | init =>
    obtain ⟨hB, hrc⟩ := binit_buckets NBUF c0
    refine ⟨_, hB, ?_, ?_⟩
    · intro k hk hpos
      rw [hrc k, hzero k hk] at hpos
      omega
    · intro i hi
      refine List.pairwise_of_forall_mem_list ?_
      intro x _ y hy _
      rw [hrc y]
      exact hzero y (hB.2.1 i hi y hy)
  | bget c c1 fuel pid dev blockno b _ h ih => exact bget_inv NBUF fuel pid dev blockno b c c1 ih (Or.inl h)
  | bgetSleep c c1 fuel pid dev blockno b _ h ih =>
    exact bget_inv NBUF fuel pid dev blockno b c c1 ih (Or.inr h)
  | wake c c1 pid b _ h ih =>
    obtain ⟨q1, q2⟩ := acquiresleep_quiet pid b c c1 h
    exact inv_of_quiet_step NBUF c c1 ih q1 (fun k => (q2 k).1) (fun k => (q2 k).2.1)
      (fun k => (q2 k).2.2.1) (fun k => (q2 k).2.2.2)
  | bread c c1 fuel pid dev blockno b _ h ih =>
    obtain ⟨c2, hg, e⟩ := bread_ret fuel pid dev blockno b c c1 h
    subst e
    have h2 := bget_inv NBUF fuel pid dev blockno b c c2 ih (Or.inl hg)
    obtain ⟨q1, q2⟩ := breadFill_quiet b c2
    exact inv_of_quiet_step NBUF c2 _ h2 q1 (fun k => (q2 k).1) (fun k => (q2 k).2.1)
      (fun k => (q2 k).2.2.1) (fun k => (q2 k).2.2.2)
  | breadSleep c c1 fuel pid dev blockno b _ h ih =>
    exact bget_inv NBUF fuel pid dev blockno b c c1 ih
      (Or.inr (bread_sleep fuel pid dev blockno b c c1 h))
  | wakeRead c c1 pid b _ h ih =>
    obtain ⟨q1, q2⟩ := acquiresleep_quiet pid b c c1 h
    have h2 := inv_of_quiet_step NBUF c c1 ih q1 (fun k => (q2 k).1) (fun k => (q2 k).2.1)
      (fun k => (q2 k).2.2.1) (fun k => (q2 k).2.2.2)
    obtain ⟨r1, r2⟩ := breadFill_quiet b c1
    exact inv_of_quiet_step NBUF c1 _ h2 r1 (fun k => (r2 k).1) (fun k => (r2 k).2.1)
      (fun k => (r2 k).2.2.1) (fun k => (r2 k).2.2.2)
  | bwrite c c1 pid b _ h ih =>
    obtain ⟨q1, q2⟩ := bwrite_quiet pid b c c1 h
    exact inv_of_quiet_step NBUF c c1 ih q1 (fun k => by rw [q2]) (fun k => by rw [q2])
      (fun k => by rw [q2]) (fun k => by rw [q2])
  | brelse c c1 pid b _ hb href h ih =>
    obtain ⟨q1, q2, q3, _⟩ := brelse_step pid b c c1 h
    exact inv_of_refcnt_step NBUF c c1 b ih hb href q1 (fun k => (q2 k).1)
      (fun k => (q2 k).2.1) (fun k => (q2 k).2.2) q3
  | bpin c c1 b _ hb href h ih =>
    obtain ⟨q1, q2, q3, _⟩ := bpin_step b c c1 h
    exact inv_of_refcnt_step NBUF c c1 b ih hb href q1 (fun k => (q2 k).1)
      (fun k => (q2 k).2.1) (fun k => (q2 k).2.2) q3
  | bunpin c c1 b _ hb href h ih =>
    obtain ⟨q1, q2, q3, _⟩ := bunpin_step b c c1 h
    exact inv_of_refcnt_step NBUF c c1 b ih hb href q1 (fun k => (q2 k).1)
      (fun k => (q2 k).2.1) (fun k => (q2 k).2.2) q3

/-! ## Buffer cache: the event log -/

@[simp] theorem BCache.emit_log (c : BCache) (e : Ev) : (c.emit e).log = c.log ++ [e] := rfl
@[simp] theorem BCache.acquire_log (c : BCache) (l : Lock) :
    (c.acquire l).log = c.log ++ [Ev.acq l] := rfl
@[simp] theorem BCache.release_log (c : BCache) (l : Lock) :
    (c.release l).log = c.log ++ [Ev.rel l] := rfl
@[simp] theorem BCache.setBuf_log (c : BCache) (b : Nat) (v : Buf) :
    (c.setBuf b v).log = c.log := rfl
@[simp] theorem BCache.setHead_log (c : BCache) (i : Nat) (p : Option Nat) :
    (c.setHead i p).log = c.log := rfl

theorem ioEvents_append (l1 l2 : List Ev) : ioEvents (l1 ++ l2) = ioEvents l1 ++ ioEvents l2 := by
  unfold ioEvents
  rw [List.filter_append]

@[simp] theorem ioEvents_acq (l : List Ev) (k : Lock) : ioEvents (l ++ [Ev.acq k]) = ioEvents l := by
  rw [ioEvents_append]
  simp [ioEvents]

@[simp] theorem ioEvents_rel (l : List Ev) (k : Lock) : ioEvents (l ++ [Ev.rel k]) = ioEvents l := by
  rw [ioEvents_append]
  simp [ioEvents]

theorem ioEvents_io (l : List Ev) (w : Bool) (d n : Nat) :
    ioEvents (l ++ [Ev.io w d n]) = ioEvents l ++ [Ev.io w d n] := by
  rw [ioEvents_append]
  simp [ioEvents]

/-- `acquiresleep` when the lock is free: the caller takes it. -/
theorem acquiresleep_free (pid b : Nat) (c : BCache) (h : (c.buf b).lock.locked = false) :
    acquiresleep pid b c = Res.ret b ((c.emit (Ev.acq (Lock.buf b))).setBuf b
      { c.buf b with lock := { locked := true, pid := pid } }) := by
  unfold acquiresleep
  simp [h]

/-- `acquiresleep` when the lock is held: the caller sleeps. -/
theorem acquiresleep_held (pid b : Nat) (c : BCache) (h : (c.buf b).lock.locked = true) :
    acquiresleep pid b c = Res.sleep b (c.emit (Ev.acq (Lock.buf b))) := by
  unfold acquiresleep
  simp [h]

theorem acquiresleep_io (pid b : Nat) (c : BCache) :
    (acquiresleep pid b c).holds (fun c1 => ioEvents c1.log = ioEvents c.log) := by
  cases hl : (c.buf b).lock.locked with
  | false =>
    rw [acquiresleep_free pid b c hl]
    simp [Res.holds]
  | true =>
    rw [acquiresleep_held pid b c hl]
    simp [Res.holds]

theorem findVictim_io (fuel : Nat) : ∀ (n j : Nat) (c : BCache),
    (findVictim fuel n j c).holds (fun c1 => ioEvents c1.log = ioEvents c.log)
  | 0, _, _ => rfl
  | n + 1, j, c => by
    rw [findVictim_succ]
    cases hs : scan isFree c.buf fuel (c.head j) with
    | none => trivial
    | some r =>
      cases r with
      | some v => simp [Res.holds]
      | none =>
        have := findVictim_io fuel n (j + 1) ((c.acquire (Lock.bucket j)).release (Lock.bucket j))
        simp only [BCache.release_log, BCache.acquire_log, ioEvents_acq, ioEvents_rel] at this
        exact this

theorem unlink_log (v old : Nat) : ∀ (fuel : Nat) (p : Option Nat) (c c1 : BCache),
    unlink v old fuel p c = some c1 → c1.log = c.log
  | 0, _, _, _, h => by simp [unlink] at h
  | fuel + 1, p, c, c1, h => by
    rw [unlink_succ] at h
    cases hl : c.getLink old p with
    | none =>
      rw [hl] at h
      injection h with h
      rw [← h]
    | some q =>
      rw [hl] at h
      by_cases hq : q = v
      · simp only [hq, if_true] at h
        injection h with h
        rw [← h]
        cases p <;> rfl
      · simp only [if_neg hq] at h
        exact unlink_log v old fuel (some q) c c1 h

/-- `bget` issues no disk transfer. -/
theorem bget_io (fuel pid dev blockno : Nat) (c : BCache) :
    (bget fuel pid dev blockno c).holds (fun c1 => ioEvents c1.log = ioEvents c.log) := by
  cases hs : scan (isBlock dev blockno) c.buf fuel (c.head (hash blockno)) with
  | none =>
    have : bget fuel pid dev blockno c = Res.spin := by
      unfold bget
      simp only [BCache.acquire_buf, BCache.acquire_head, hs]
    rw [this]
    trivial
  | some r =>
    cases r with
    | some b =>
      rw [bget_hit_eq fuel pid dev blockno b c hs]
      have := acquiresleep_io pid b (((c.acquire (Lock.bucket (hash blockno))).setBuf b
        { c.buf b with refcnt := incr32 (c.buf b).refcnt }).release (Lock.bucket (hash blockno)))
      simp only [BCache.release_log, BCache.acquire_log, BCache.setBuf_log, ioEvents_acq,
        ioEvents_rel] at this
      exact this
    | none =>
      rw [bget_miss_eq fuel pid dev blockno c hs]
      have hfv := findVictim_io fuel NBUCKETS 0 (((((c.acquire (Lock.bucket (hash blockno))).release
        (Lock.bucket (hash blockno))).acquire Lock.evict).acquire
        (Lock.bucket (hash blockno))).release (Lock.bucket (hash blockno)))
      simp only [BCache.release_log, BCache.acquire_log, ioEvents_acq, ioEvents_rel] at hfv
      cases hv : findVictim fuel NBUCKETS 0 (((((c.acquire (Lock.bucket (hash blockno))).release
        (Lock.bucket (hash blockno))).acquire Lock.evict).acquire
        (Lock.bucket (hash blockno))).release (Lock.bucket (hash blockno))) with
      | spin => trivial
      | halt msg c1 =>
        rw [hv] at hfv
        exact hfv
      | sleep a c1 =>
        rw [hv] at hfv
        exact hfv
      | ret a c1 =>
        obtain ⟨v, j⟩ := a
        rw [hv] at hfv
        simp only
        cases hu : unlink v j fuel none c1 with
        | none => trivial
        | some cu =>
          have hlog := unlink_log v j fuel none c1 cu hu
          have := acquiresleep_io pid v
            (((((((cu.release (Lock.bucket j)).setBuf v
              { (cu.release (Lock.bucket j)).buf v with
                dev := dev, blockno := blockno, valid := 0, refcnt := 1 }).acquire
              (Lock.bucket (hash blockno))).setBuf v
              { ((((cu.release (Lock.bucket j)).setBuf v
                  { (cu.release (Lock.bucket j)).buf v with
                    dev := dev, blockno := blockno, valid := 0, refcnt := 1 }).acquire
                  (Lock.bucket (hash blockno))).buf v) with
                next := (((cu.release (Lock.bucket j)).setBuf v
                  { (cu.release (Lock.bucket j)).buf v with
                    dev := dev, blockno := blockno, valid := 0, refcnt := 1 }).acquire
                  (Lock.bucket (hash blockno))).head (hash blockno) }).setHead (hash blockno)
              (some v)).release (Lock.bucket (hash blockno))).release Lock.evict)
          simp only [BCache.release_log, BCache.acquire_log, BCache.setBuf_log,
            BCache.setHead_log, ioEvents_acq, ioEvents_rel, hlog] at this
          rw [← hfv]
          exact this

/-! ### The hit path -/

/-- When the fast path misses, `bget` is its slow path run on the state left by the fast
path. -/
theorem bget_eq_slow (fuel pid dev blockno : Nat) (c : BCache)
    (h : scan (isBlock dev blockno) c.buf fuel (c.head (hash blockno)) = some none) :
    bget fuel pid dev blockno c = bgetSlow fuel pid dev blockno
      ((c.acquire (Lock.bucket (hash blockno))).release (Lock.bucket (hash blockno))) := by
  unfold bget bgetSlow
  simp only [BCache.acquire_buf, BCache.acquire_head, BCache.release_buf, BCache.release_head, h]
  try rfl

theorem bgetSlow_hit_eq (fuel pid dev blockno b : Nat) (c : BCache)
    (h : scan (isBlock dev blockno) c.buf fuel (c.head (hash blockno)) = some (some b)) :
    bgetSlow fuel pid dev blockno c = acquiresleep pid b
      (((((c.acquire Lock.evict).acquire (Lock.bucket (hash blockno))).setBuf b
        { c.buf b with refcnt := incr32 (c.buf b).refcnt }).release
        (Lock.bucket (hash blockno))).release Lock.evict) := by
  unfold bgetSlow
  simp only [BCache.acquire_buf, BCache.acquire_head, h]

/-- Effect of `acquiresleep` on a state `c` whose entries and heads are those of `c0` except
for the reference count `r` of entry `b`: exact outcome and state. -/
theorem hit_tail (pid b r : Nat) (c0 c : BCache) (hh : c.head = c0.head) (hd : c.disk = c0.disk)
    (hb : c.buf = upd c0.buf b { c0.buf b with refcnt := r }) :
    ∃ c1, ((c0.buf b).lock.locked = false → acquiresleep pid b c = Res.ret b c1) ∧
        ((c0.buf b).lock.locked = true → acquiresleep pid b c = Res.sleep b c1) ∧
        c1.log = c.log ++ [Ev.acq (Lock.buf b)] ∧
        c1.head = c0.head ∧ c1.disk = c0.disk ∧ (∀ k, k ≠ b → c1.buf k = c0.buf k) ∧
        c1.buf b = { c0.buf b with
          refcnt := r,
          lock := if (c0.buf b).lock.locked then (c0.buf b).lock
            else { locked := true, pid := pid } } := by
  have hbb : c.buf b = { c0.buf b with refcnt := r } := by rw [hb, upd_same]
  have hlk : (c.buf b).lock = (c0.buf b).lock := by rw [hbb]
  cases hl : (c0.buf b).lock.locked with
  | false =>
    have hl2 : (c.buf b).lock.locked = false := by rw [hlk]; exact hl
    rw [acquiresleep_free pid b c hl2]
    refine ⟨_, fun _ => rfl, (fun h => by cases h), rfl, hh, hd, ?_, ?_⟩
    · intro k hk
      simp [upd_ne _ _ _ _ hk, hb]
    · simp [hbb]
  | true =>
    have hl2 : (c.buf b).lock.locked = true := by rw [hlk]; exact hl
    rw [acquiresleep_held pid b c hl2]
    refine ⟨_, (fun h => by cases h), fun _ => rfl, rfl, hh, hd, ?_, ?_⟩
    · intro k hk
      simp [upd_ne _ _ _ _ hk, hb]
    · simp [hbb]

/-- A bucket that holds an entry passing the test has a first one. -/
theorem find_of_mem (p : Nat → Bool) (l : List Nat) (k : Nat) (hk : k ∈ l) (hp : p k = true) :
    ∃ b, l.find? p = some b := by
  cases h : l.find? p with
  | some b => exact ⟨b, rfl⟩
  | none =>
    exfalso
    exact List.find?_eq_none.mp h k hk hp

/-- Fast-path hit of `bget`, exactly. -/
theorem bget_hit_effect (NBUF fuel pid dev blockno b : Nat) (c : BCache) (L : Nat → List Nat)
    (h : Buckets NBUF c L) (hf : NBUF < fuel)
    (hfind : (L (hash blockno)).find? (fun k => isBlock dev blockno (c.buf k)) = some b) :
    ∃ c1, ((c.buf b).lock.locked = false → bget fuel pid dev blockno c = Res.ret b c1) ∧
      ((c.buf b).lock.locked = true → bget fuel pid dev blockno c = Res.sleep b c1) ∧
      HitEffect pid b c c1 ∧
      c1.log = c.log ++ [Ev.acq (Lock.bucket (hash blockno)), Ev.rel (Lock.bucket (hash blockno)),
        Ev.acq (Lock.buf b)] := by
  have hscan := scan_bucket NBUF fuel c L (isBlock dev blockno) h hf _ (hash_lt blockno)
  rw [hfind] at hscan
  rw [bget_hit_eq fuel pid dev blockno b c hscan]
  obtain ⟨c1, h1, h2, h3, h4, h5, h6, h7⟩ := hit_tail pid b (incr32 (c.buf b).refcnt) c
    (((c.acquire (Lock.bucket (hash blockno))).setBuf b
      { c.buf b with refcnt := incr32 (c.buf b).refcnt }).release (Lock.bucket (hash blockno)))
    rfl rfl rfl
  refine ⟨c1, h1, h2, ⟨h4, h5, h6, h7⟩, ?_⟩
  rw [h3]
  simp

/-- Slow-path hit (the re-check under the arbiter lock), exactly. -/
theorem bgetSlow_hit_effect (NBUF fuel pid dev blockno b : Nat) (c : BCache)
    (L : Nat → List Nat) (h : Buckets NBUF c L) (hf : NBUF < fuel)
    (hfind : (L (hash blockno)).find? (fun k => isBlock dev blockno (c.buf k)) = some b) :
    ∃ c1, ((c.buf b).lock.locked = false → bgetSlow fuel pid dev blockno c = Res.ret b c1) ∧
      ((c.buf b).lock.locked = true → bgetSlow fuel pid dev blockno c = Res.sleep b c1) ∧
      HitEffect pid b c c1 ∧
      c1.log = c.log ++ [Ev.acq Lock.evict, Ev.acq (Lock.bucket (hash blockno)),
        Ev.rel (Lock.bucket (hash blockno)), Ev.rel Lock.evict, Ev.acq (Lock.buf b)] := by
  have hscan := scan_bucket NBUF fuel c L (isBlock dev blockno) h hf _ (hash_lt blockno)
  rw [hfind] at hscan
  rw [bgetSlow_hit_eq fuel pid dev blockno b c hscan]
  obtain ⟨c1, h1, h2, h3, h4, h5, h6, h7⟩ := hit_tail pid b (incr32 (c.buf b).refcnt) c
    (((((c.acquire Lock.evict).acquire (Lock.bucket (hash blockno))).setBuf b
        { c.buf b with refcnt := incr32 (c.buf b).refcnt }).release
        (Lock.bucket (hash blockno))).release Lock.evict)
    rfl rfl rfl
  refine ⟨c1, h1, h2, ⟨h4, h5, h6, h7⟩, ?_⟩
  rw [h3]
  simp

theorem HitEffect.buckets (NBUF pid b : Nat) (c c1 : BCache) (L : Nat → List Nat)
    (he : HitEffect pid b c c1) (h : Buckets NBUF c L) : Buckets NBUF c1 L := by
  refine Buckets.congr_links NBUF c c1 L ?_ he.1 h
  intro k
  by_cases hk : k = b
  · rw [hk, he.2.2.2]
  · rw [he.2.2.1 k hk]

theorem incr32_exact (n : Nat) (h : n + 1 < 2 ^ 32) : incr32 n = n + 1 := by
  unfold incr32
  omega

theorem incr32_wrap : incr32 4294967295 = 0 := by
  unfold incr32
  norm_num

theorem decr32_exact (n : Nat) (h1 : 1 ≤ n) (h2 : n < 2 ^ 32) : decr32 n = n - 1 := by
  unfold decr32
  omega

theorem decr32_incr32 (n : Nat) (h : n < 2 ^ 32) : decr32 (incr32 n) = n := by
  unfold decr32 incr32
  omega

/-! ### The disk -/

theorem acquiresleep_disk (pid b : Nat) (c : BCache) :
    (acquiresleep pid b c).holds (fun c1 => c1.disk = c.disk) := by
  cases hl : (c.buf b).lock.locked with
  | false =>
    rw [acquiresleep_free pid b c hl]
    simp [Res.holds]
  | true =>
    rw [acquiresleep_held pid b c hl]
    simp [Res.holds]

theorem findVictim_disk (fuel : Nat) : ∀ (n j : Nat) (c : BCache),
    (findVictim fuel n j c).holds (fun c1 => c1.disk = c.disk)
  | 0, _, _ => rfl
  | n + 1, j, c => by
    rw [findVictim_succ]
    cases hs : scan isFree c.buf fuel (c.head j) with
    | none => trivial
    | some r =>
      cases r with
      | some v => simp [Res.holds]
      | none =>
        have := findVictim_disk fuel n (j + 1) ((c.acquire (Lock.bucket j)).release (Lock.bucket j))
        simp only [BCache.release_disk, BCache.acquire_disk] at this
        exact this

theorem unlink_disk (v old : Nat) : ∀ (fuel : Nat) (p : Option Nat) (c c1 : BCache),
    unlink v old fuel p c = some c1 → c1.disk = c.disk
  | 0, _, _, _, h => by simp [unlink] at h
  | fuel + 1, p, c, c1, h => by
    rw [unlink_succ] at h
    cases hl : c.getLink old p with
    | none =>
      rw [hl] at h
      injection h with h
      rw [← h]
    | some q =>
      rw [hl] at h
      by_cases hq : q = v
      · simp only [hq, if_true] at h
        injection h with h
        rw [← h]
        cases p <;> rfl
      · simp only [if_neg hq] at h
        exact unlink_disk v old fuel (some q) c c1 h

/-- `bget` leaves the disk alone. -/
theorem bget_disk (fuel pid dev blockno : Nat) (c : BCache) :
    (bget fuel pid dev blockno c).holds (fun c1 => c1.disk = c.disk) := by
  cases hs : scan (isBlock dev blockno) c.buf fuel (c.head (hash blockno)) with
  | none =>
    have : bget fuel pid dev blockno c = Res.spin := by
      unfold bget
      simp only [BCache.acquire_buf, BCache.acquire_head, hs]
    rw [this]
    trivial
  | some r =>
    cases r with
    | some b =>
      rw [bget_hit_eq fuel pid dev blockno b c hs]
      have := acquiresleep_disk pid b (((c.acquire (Lock.bucket (hash blockno))).setBuf b
        { c.buf b with refcnt := incr32 (c.buf b).refcnt }).release (Lock.bucket (hash blockno)))
      simp only [BCache.release_disk, BCache.acquire_disk, BCache.setBuf_disk] at this
      exact this
    | none =>
      rw [bget_miss_eq fuel pid dev blockno c hs]
      have hfv := findVictim_disk fuel NBUCKETS 0 (((((c.acquire (Lock.bucket (hash blockno))).release
        (Lock.bucket (hash blockno))).acquire Lock.evict).acquire
        (Lock.bucket (hash blockno))).release (Lock.bucket (hash blockno)))
      simp only [BCache.release_disk, BCache.acquire_disk] at hfv
      cases hv : findVictim fuel NBUCKETS 0 (((((c.acquire (Lock.bucket (hash blockno))).release
        (Lock.bucket (hash blockno))).acquire Lock.evict).acquire
        (Lock.bucket (hash blockno))).release (Lock.bucket (hash blockno))) with
      | spin => trivial
      | halt msg c1 =>
        rw [hv] at hfv
        exact hfv
      | sleep a c1 =>
        rw [hv] at hfv
        exact hfv
      | ret a c1 =>
        obtain ⟨v, j⟩ := a
        rw [hv] at hfv
        simp only
        cases hu : unlink v j fuel none c1 with
        | none => trivial
        | some cu =>
          have hdisk := unlink_disk v j fuel none c1 cu hu
          have := acquiresleep_disk pid v
            (((((((cu.release (Lock.bucket j)).setBuf v
              { (cu.release (Lock.bucket j)).buf v with
                dev := dev, blockno := blockno, valid := 0, refcnt := 1 }).acquire
              (Lock.bucket (hash blockno))).setBuf v
              { ((((cu.release (Lock.bucket j)).setBuf v
                  { (cu.release (Lock.bucket j)).buf v with
                    dev := dev, blockno := blockno, valid := 0, refcnt := 1 }).acquire
                  (Lock.bucket (hash blockno))).buf v) with
                next := (((cu.release (Lock.bucket j)).setBuf v
                  { (cu.release (Lock.bucket j)).buf v with
                    dev := dev, blockno := blockno, valid := 0, refcnt := 1 }).acquire
                  (Lock.bucket (hash blockno))).head (hash blockno) }).setHead (hash blockno)
              (some v)).release (Lock.bucket (hash blockno))).release Lock.evict)
          simp only [BCache.release_disk, BCache.acquire_disk, BCache.setBuf_disk,
            BCache.setHead_disk, hdisk] at this
          rw [← hfv]
          exact this

/-- The read-through tail of `bread`, case by case. -/
theorem breadFill_clear (b : Nat) (c : BCache) (h : (c.buf b).valid = 0) :
    breadFill b c = ((c.emit (Ev.io false (c.buf b).dev (c.buf b).blockno)).setBuf b
      { c.buf b with data := c.disk (c.buf b).dev (c.buf b).blockno, valid := 1 }) := by
  unfold breadFill virtio_disk_rw
  simp [h, BCache.setBuf, BCache.emit, upd_upd, upd_same]

theorem breadFill_set (b : Nat) (c : BCache) (h : (c.buf b).valid ≠ 0) : breadFill b c = c := by
  unfold breadFill
  simp [h]

theorem breadFill_disk (b : Nat) (c : BCache) : (breadFill b c).disk = c.disk := by
  by_cases h : (c.buf b).valid = 0
  · rw [breadFill_clear b c h]
    rfl
  · rw [breadFill_set b c h]

theorem bread_disk (fuel pid dev blockno b : Nat) (c c1 : BCache)
    (h : bread fuel pid dev blockno c = Res.ret b c1) : c1.disk = c.disk := by
  obtain ⟨c2, hg, he⟩ := bread_ret fuel pid dev blockno b c c1 h
  have := bget_disk fuel pid dev blockno c
  rw [hg] at this
  rw [he, breadFill_disk]
  exact this

theorem brelse_ret (pid b : Nat) (c : BCache) (h : holdingsleep pid b c = true) :
    brelse pid b c = Res.ret () ((((releasesleep b c).acquire
      (Lock.bucket (hash (c.buf b).blockno))).setBuf b
      { c.buf b with lock := { locked := false, pid := 0 },
                     refcnt := decr32 (c.buf b).refcnt }).release
      (Lock.bucket (hash (c.buf b).blockno))) := by
  unfold brelse releasesleep
  simp [h, BCache.setBuf, BCache.emit, BCache.acquire, BCache.release, upd_upd, upd_same]

theorem brelse_halt (pid b : Nat) (c : BCache) (h : holdingsleep pid b c = false) :
    brelse pid b c = Res.halt "brelse" c := by
  unfold brelse
  simp [h]

theorem bwrite_ret (pid b : Nat) (c : BCache) (h : holdingsleep pid b c = true) :
    bwrite pid b c = Res.ret () (virtio_disk_rw b true c) := by
  unfold bwrite
  simp [h]

theorem bwrite_halt (pid b : Nat) (c : BCache) (h : holdingsleep pid b c = false) :
    bwrite pid b c = Res.halt "bwrite" c := by
  unfold bwrite
  simp [h]

theorem brelse_disk (pid b : Nat) (c c1 : BCache) (h : brelse pid b c = Res.ret () c1) :
    c1.disk = c.disk := by
  cases hh : holdingsleep pid b c with
  | false =>
    rw [brelse_halt pid b c hh] at h
    cases h
  | true =>
    rw [brelse_ret pid b c hh] at h
    injection h with _ h
    rw [← h]
    rfl

theorem churn_disk (fuel pid : Nat) : ∀ (ys : List (Nat × Nat)) (c c1 : BCache),
    churn fuel pid ys c = some c1 → c1.disk = c.disk
  | [], c, c1, h => by
    simp only [churn] at h
    injection h with h
    rw [h]
  | (dev, blockno) :: ys, c, c1, h => by
    simp only [churn] at h
    cases hb : bread fuel pid dev blockno c with
    | spin => rw [hb] at h; cases h
    | halt m s => rw [hb] at h; cases h
    | sleep a s => rw [hb] at h; cases h
    | ret b s =>
      rw [hb] at h
      simp only at h
      cases hr : brelse pid b s with
      | spin => rw [hr] at h; cases h
      | halt m s => rw [hr] at h; cases h
      | sleep a s => rw [hr] at h; cases h
      | ret u s2 =>
        rw [hr] at h
        simp only at h
        rw [churn_disk fuel pid ys s2 c1 h, brelse_disk pid b s s2 hr, bread_disk fuel pid dev blockno b c s hb]

/-- The entry `bget` resolves to carries the identity asked for. -/
theorem bget_identity (NBUF fuel pid dev blockno b : Nat) (c c1 : BCache) (L : Nat → List Nat)
    (hB : Buckets NBUF c L) (hf : NBUF < fuel)
    (hres : bget fuel pid dev blockno c = Res.ret b c1 ∨
      bget fuel pid dev blockno c = Res.sleep b c1) :
    b < NBUF ∧ (c1.buf b).dev = dev ∧ (c1.buf b).blockno = blockno ∧
      (c1.buf b).data = (c.buf b).data := by
  rcases bget_cases NBUF fuel pid dev blockno c L hB hf with
    ⟨b2, c2, hfind, hres2, _, _, _, hb⟩ | ⟨j0, v, c2, _, hj0, _, hv, hres2, _, _, _, hb⟩ |
    ⟨c2, _, _, hh, _⟩
  · obtain ⟨e1, e2⟩ := ret_or_sleep_inj _ b2 b c2 c1 hres2 hres
    subst e1
    subst e2
    have hp : (fun k => isBlock dev blockno (c.buf k)) b2 = true :=
      @List.find?_some Nat (fun k => isBlock dev blockno (c.buf k)) b2 _ hfind
    have hid := (isBlock_iff dev blockno (c.buf b2)).mp hp
    have := Buf.of_lock_eq _ _ _ hb
    exact ⟨hB.2.1 _ (hash_lt blockno) b2 (List.mem_of_find?_eq_some hfind),
      this.1.trans hid.1, this.2.1.trans hid.2, this.2.2.2.2.2⟩
  · obtain ⟨e1, e2⟩ := ret_or_sleep_inj _ v b c2 c1 hres2 hres
    subst e1
    subst e2
    have := Buf.of_lock_next_eq _ _ _ _ hb
    exact ⟨hB.2.1 j0 hj0 v (List.mem_of_find?_eq_some hv), this.1, this.2.1, this.2.2.2.2⟩
  · rcases hres with h | h <;> rw [hh] at h <;> cases h

theorem bwrite_disk (pid b : Nat) (c c1 : BCache) (h : bwrite pid b c = Res.ret () c1) :
    c1.disk (c.buf b).dev (c.buf b).blockno = (c.buf b).data := by
  cases hh : holdingsleep pid b c with
  | false =>
    rw [bwrite_halt pid b c hh] at h
    cases h
  | true =>
    rw [bwrite_ret pid b c hh] at h
    injection h with _ h
    rw [← h]
    simp [virtio_disk_rw, BCache.emit]

/-- A `bread` of a block that is not in the cache returns an entry filled from the disk. -/
theorem bread_miss_data (NBUF fuel pid dev blockno b : Nat) (c c1 : BCache) (L : Nat → List Nat)
    (hB : Buckets NBUF c L) (hf : NBUF < fuel)
    (hgone : ∀ k ∈ L (hash blockno), ¬ ((c.buf k).dev = dev ∧ (c.buf k).blockno = blockno))
    (h : bread fuel pid dev blockno c = Res.ret b c1) :
    (c1.buf b).data = c.disk dev blockno ∧ (c1.buf b).dev = dev ∧
      (c1.buf b).blockno = blockno ∧ (c1.buf b).valid = 1 := by
  obtain ⟨c2, hg, he⟩ := bread_ret fuel pid dev blockno b c c1 h
  rcases bget_cases NBUF fuel pid dev blockno c L hB hf with
    ⟨b2, c3, hfind, _⟩ | ⟨j0, v, c3, _, _, _, _, hres, _, hdisk, _, hb⟩ | ⟨c3, _, _, hh, _⟩
  · exfalso
    have hp : (fun k => isBlock dev blockno (c.buf k)) b2 = true :=
      @List.find?_some Nat (fun k => isBlock dev blockno (c.buf k)) b2 _ hfind
    exact hgone b2 (List.mem_of_find?_eq_some hfind) ((isBlock_iff dev blockno (c.buf b2)).mp hp)
  · obtain ⟨e1, e2⟩ := ret_or_sleep_inj _ v b c3 c2 hres (Or.inl hg)
    subst e1
    subst e2
    have hf5 := Buf.of_lock_next_eq _ _ _ _ hb
    have hd : (c3.buf v).dev = dev := hf5.1
    have hbn : (c3.buf v).blockno = blockno := hf5.2.1
    have hv : (c3.buf v).valid = 0 := hf5.2.2.2.1
    have hkey : (breadFill v c3).buf v = { c3.buf v with
        data := c3.disk (c3.buf v).dev (c3.buf v).blockno, valid := 1 } := by
      rw [breadFill_clear v c3 hv]
      simp only [BCache.setBuf_buf, BCache.emit_buf, upd_same]
    rw [he, hkey]
    refine ⟨?_, hd, hbn, rfl⟩
    show c3.disk (c3.buf v).dev (c3.buf v).blockno = c.disk dev blockno
    rw [hd, hbn, hdisk]
  · rw [hh] at hg
    cases hg

/-! ### Who holds the lock of a returned entry -/

theorem acquiresleep_ret_lock (pid b b1 : Nat) (c c1 : BCache)
    (h : acquiresleep pid b c = Res.ret b1 c1) :
    (c1.buf b1).lock = { locked := true, pid := pid } := by
  cases hl : (c.buf b).lock.locked with
  | false =>
    rw [acquiresleep_free pid b c hl] at h
    injection h with h1 h2
    subst h1
    rw [← h2]
    simp only [BCache.setBuf_buf, upd_same]
  | true =>
    rw [acquiresleep_held pid b c hl] at h
    cases h

/-- An entry returned by `bget` is locked by the caller. -/
theorem bget_ret_lock (fuel pid dev blockno : Nat) (c : BCache) :
    ∀ b c1, bget fuel pid dev blockno c = Res.ret b c1 →
      (c1.buf b).lock = { locked := true, pid := pid } := by
  cases hs : scan (isBlock dev blockno) c.buf fuel (c.head (hash blockno)) with
  | none =>
    have : bget fuel pid dev blockno c = Res.spin := by
      unfold bget
      simp only [BCache.acquire_buf, BCache.acquire_head, hs]
    rw [this]
    intro b c1 h
    cases h
  | some r =>
    cases r with
    | some b0 =>
      rw [bget_hit_eq fuel pid dev blockno b0 c hs]
      intro b c1 h
      exact acquiresleep_ret_lock pid b0 b _ c1 h
    | none =>
      rw [bget_miss_eq fuel pid dev blockno c hs]
      cases hv : findVictim fuel NBUCKETS 0 (((((c.acquire (Lock.bucket (hash blockno))).release
        (Lock.bucket (hash blockno))).acquire Lock.evict).acquire
        (Lock.bucket (hash blockno))).release (Lock.bucket (hash blockno))) with
      | spin =>
        intro b c1 h
        cases h
      | halt msg c2 =>
        intro b c1 h
        cases h
      | sleep a c2 =>
        intro b c1 h
        cases h
      | ret a c2 =>
        obtain ⟨v, j⟩ := a
        simp only
        cases hu : unlink v j fuel none c2 with
        | none =>
          intro b c1 h
          cases h
        | some cu =>
          intro b c1 h
          exact acquiresleep_ret_lock pid v b _ c1 h

theorem relink_head (L : Nat → List Nat) (j i v : Nat) :
    relink L j i v i = v :: upd L j ((L j).erase v) i := by
  unfold relink
  rw [upd_same]

/-- After `bget(dev, blockno)` has resolved to entry `b`, a scan of bucket `hash(blockno)` for
`(dev, blockno)` finds `b`; if the identity was not referenced before the call, the reference
count of `b` is 1. -/
theorem bget_then_find (NBUF fuel pid dev blockno b : Nat) (c c1 : BCache) (L : Nat → List Nat)
    (hB : Buckets NBUF c L) (hf : NBUF < fuel)
    (hres : bget fuel pid dev blockno c = Res.ret b c1 ∨
      bget fuel pid dev blockno c = Res.sleep b c1) :
    ∃ L1, Buckets NBUF c1 L1 ∧
      (L1 (hash blockno)).find? (fun k => isBlock dev blockno (c1.buf k)) = some b ∧
      ((∀ k, k < NBUF → (c.buf k).dev = dev ∧ (c.buf k).blockno = blockno →
        (c.buf k).refcnt = 0) → (c1.buf b).refcnt = 1) := by
  rcases bget_cases NBUF fuel pid dev blockno c L hB hf with
    ⟨b2, c2, hfind, hres2, hh, _, hoth, hb⟩ |
    ⟨j0, v, c2, _, hj0, _, hv, hres2, hB2, _, _, hb⟩ | ⟨c2, _, _, hh, _⟩
  · obtain ⟨e1, e2⟩ := ret_or_sleep_inj _ b2 b c2 c1 hres2 hres
    subst e1
    subst e2
    have hfld := Buf.of_lock_eq _ _ _ hb
    have hbmem : b2 ∈ L (hash blockno) := List.mem_of_find?_eq_some hfind
    have hpb : (fun k => isBlock dev blockno (c.buf k)) b2 = true :=
      @List.find?_some Nat (fun k => isBlock dev blockno (c.buf k)) b2 _ hfind
    have hid := (isBlock_iff dev blockno (c.buf b2)).mp hpb
    have hp : (fun k => isBlock dev blockno (c2.buf k))
        = (fun k => isBlock dev blockno (c.buf k)) := by
      funext k
      by_cases hk : k = b2
      · subst hk
        have e1 : (c2.buf k).dev = (c.buf k).dev := hfld.1
        have e2 : (c2.buf k).blockno = (c.buf k).blockno := hfld.2.1
        simp only [isBlock, e1, e2]
      · rw [hoth k hk]
    refine ⟨L, ?_, ?_, ?_⟩
    · refine Buckets.congr_links NBUF c c2 L ?_ hh hB
      intro k
      by_cases hk : k = b2
      · subst hk
        exact hfld.2.2.2.2.1
      · rw [hoth k hk]
    · rw [hp]
      exact hfind
    · intro hun
      have h0 := hun b2 (hB.2.1 _ (hash_lt blockno) b2 hbmem) hid
      have e3 : (c2.buf b2).refcnt = incr32 (c.buf b2).refcnt := hfld.2.2.1
      rw [e3, h0]
      rfl
  · obtain ⟨e1, e2⟩ := ret_or_sleep_inj _ v b c2 c1 hres2 hres
    subst e1
    subst e2
    have hfld := Buf.of_lock_next_eq _ _ _ _ hb
    refine ⟨_, hB2, ?_, fun _ => hfld.2.2.1⟩
    rw [relink_head]
    apply List.find?_cons_of_pos
    exact (isBlock_iff dev blockno (c2.buf v)).mpr ⟨hfld.1, hfld.2.1⟩
  · rcases hres with h | h <;> rw [hh] at h <;> cases h

/-- The bucket lists after a move, list by list: the moved entry at the front of the target
bucket, and every list otherwise the old one without that entry, in the old order. -/
theorem relink_erase (NBUF : Nat) (c : BCache) (L : Nat → List Nat) (hB : Buckets NBUF c L)
    (j i v : Nat) (hj : j < NBUCKETS) (hv : v ∈ L j) :
    ∀ t, t < NBUCKETS →
      relink L j i v t = if t = i then v :: (L t).erase v else (L t).erase v := by
  intro t ht
  have hbase : upd L j ((L j).erase v) t = (L t).erase v := by
    by_cases htj : t = j
    · subst htj
      rw [upd_same]
    · rw [upd_ne _ _ _ _ htj]
      exact (List.erase_of_not_mem
        (Buckets.disjoint_of_mem NBUF c L hB j v hj hv t ht htj)).symm
  by_cases hti : t = i
  · subst hti
    rw [relink_head, hbase, if_pos rfl]
  · unfold relink
    rw [upd_ne _ _ _ _ hti, hbase, if_neg hti]

theorem head_of_blist (buf : Nat → Buf) (h : Option Nat) (a : Nat) (l : List Nat)
    (hl : BList buf h (a :: l)) : h = some a :=
  hl.1

/-! ### Every entry sits in the bucket of its block number -/

theorem binit_blockno_loop (c : BCache) : ∀ n k,
    (((List.range n).foldl (fun c b =>
        let c := initsleeplock c b
        let c := c.setBuf b { c.buf b with next := c.head 0 }
        c.setHead 0 (some b)) c).buf k).blockno = (c.buf k).blockno
  | 0, _ => rfl
  | n + 1, k => by
    rw [List.range_succ, List.foldl_append]
    have ih := binit_blockno_loop c n k
    simp only [List.foldl_cons, List.foldl_nil]
    obtain ⟨_, e2⟩ := binit_step_eq ((List.range n).foldl (fun c b =>
        let c := initsleeplock c b
        let c := c.setBuf b { c.buf b with next := c.head 0 }
        c.setHead 0 (some b)) c) n
    rw [e2]
    by_cases hk : k = n
    · subst hk
      rw [upd_same]
      exact ih
    · rw [upd_ne _ _ _ _ hk]
      exact ih

/-- The function `binit` leaves the block numbers of the entries as they are. -/
theorem binit_blockno (NBUF : Nat) (c : BCache) (k : Nat) :
    ((binit NBUF c).buf k).blockno = (c.buf k).blockno := by
  unfold binit
  rw [binit_blockno_loop, (binit_heads c NBUCKETS).1]

theorem hash_inv_of_quiet (NBUF : Nat) (c c1 : BCache)
    (hinv : ∃ L, Buckets NBUF c L ∧ HashInv c L) (hh : c1.head = c.head)
    (hn : ∀ k, (c1.buf k).next = (c.buf k).next)
    (hbn : ∀ k, (c1.buf k).blockno = (c.buf k).blockno) :
    ∃ L, Buckets NBUF c1 L ∧ HashInv c1 L := by
  obtain ⟨L, hB, hH⟩ := hinv
  refine ⟨L, Buckets.congr_links NBUF c c1 L hn hh hB, ?_⟩
  intro i hi k hk
  rw [hbn k]
  exact hH i hi k hk

theorem bget_hash_inv (NBUF fuel pid dev blockno b : Nat) (c c1 : BCache)
    (hinv : ∃ L, Buckets NBUF c L ∧ HashInv c L)
    (hres : bget fuel pid dev blockno c = Res.ret b c1 ∨
      bget fuel pid dev blockno c = Res.sleep b c1) :
    ∃ L, Buckets NBUF c1 L ∧ HashInv c1 L := by
  have hne : bget fuel pid dev blockno c ≠ Res.spin := by
    intro e
    rcases hres with h | h <;> rw [e] at h <;> cases h
  have hm := bget_mono fuel (NBUF + 1) pid dev blockno c hne
  rw [← hm] at hres
  obtain ⟨L, hB, hH⟩ := hinv
  rcases bget_cases NBUF (fuel + (NBUF + 1)) pid dev blockno c L hB (by omega) with
    ⟨b2, c2, _, hres2, hh, _, hoth, hb⟩ |
    ⟨j0, v, c2, _, hj0, _, hv, hres2, hB2, _, hoth, hb⟩ | ⟨c2, _, _, hh, _⟩
  · obtain ⟨e1, e2⟩ := ret_or_sleep_inj _ b2 b c2 c1 hres2 hres
    subst e1
    subst e2
    have hfld := Buf.of_lock_eq _ _ _ hb
    refine hash_inv_of_quiet NBUF c c2 ⟨L, hB, hH⟩ hh ?_ ?_
    · intro k
      by_cases hk : k = b2
      · subst hk
        exact hfld.2.2.2.2.1
      · rw [hoth k hk]
    · intro k
      by_cases hk : k = b2
      · subst hk
        exact hfld.2.1
      · rw [hoth k hk]
  · obtain ⟨e1, e2⟩ := ret_or_sleep_inj _ v b c2 c1 hres2 hres
    subst e1
    subst e2
    have hfld := Buf.of_lock_next_eq _ _ _ _ hb
    have hvmem : v ∈ L j0 := List.mem_of_find?_eq_some hv
    refine ⟨_, hB2, ?_⟩
    intro t ht k hk
    rw [relink_mem L j0 (hash blockno) v k t (hB.2.2.1 j0 hj0)
      (fun htj => Buckets.disjoint_of_mem NBUF c L hB j0 v hj0 hvmem t ht htj)] at hk
    rcases hk with ⟨hkv, hti⟩ | ⟨hkv, hkt⟩
    · rw [hkv, hti]
      have : (c2.buf v).blockno = blockno := hfld.2.1
      rw [this]
    · have := (Buf.of_next_eq _ _ _ (hoth k hkv)).2.1
      rw [this]
      exact hH t ht k hkt
  · rcases hres with h | h <;> rw [hh] at h <;> cases h

/-- One operation keeps the bucket lists well formed and every entry in the bucket of its block
number. -/
theorem BStep.hash_inv (NBUF : Nat) (c c1 : BCache) (h : BStep c c1)
    (hinv : ∃ L, Buckets NBUF c L ∧ HashInv c L) : ∃ L, Buckets NBUF c1 L ∧ HashInv c1 L := by
  revert hinv
  induction h with
  | bget c1 fuel pid dev blockno b hg =>
    intro hinv
    exact bget_hash_inv NBUF fuel pid dev blockno b c c1 hinv (Or.inl hg)
  | bgetSleep c1 fuel pid dev blockno b hg =>
    intro hinv
    exact bget_hash_inv NBUF fuel pid dev blockno b c c1 hinv (Or.inr hg)
  | wake c1 pid b hw =>
    intro hinv
    obtain ⟨hh, hq⟩ := acquiresleep_quiet pid b c c1 hw
    exact hash_inv_of_quiet NBUF c c1 hinv hh (fun k => (hq k).1) (fun k => (hq k).2.2.1)
  | bread c1 fuel pid dev blockno b hb =>
    intro hinv
    obtain ⟨c2, hg, he⟩ := bread_ret fuel pid dev blockno b c c1 hb
    have h2 := bget_hash_inv NBUF fuel pid dev blockno b c c2 hinv (Or.inl hg)
    obtain ⟨hh, hq⟩ := breadFill_quiet b c2
    rw [he]
    exact hash_inv_of_quiet NBUF c2 _ h2 hh (fun k => (hq k).1) (fun k => (hq k).2.2.1)
  | breadSleep c1 fuel pid dev blockno b hb =>
    intro hinv
    exact bget_hash_inv NBUF fuel pid dev blockno b c c1 hinv
      (Or.inr (bread_sleep fuel pid dev blockno b c c1 hb))
  | fill b =>
    intro hinv
    obtain ⟨hh, hq⟩ := breadFill_quiet b c
    exact hash_inv_of_quiet NBUF c _ hinv hh (fun k => (hq k).1) (fun k => (hq k).2.2.1)
  | bwrite c1 pid b hw =>
    intro hinv
    obtain ⟨hh, hb⟩ := bwrite_quiet pid b c c1 hw
    exact hash_inv_of_quiet NBUF c c1 hinv hh (fun k => by rw [hb]) (fun k => by rw [hb])
  | brelse c1 pid b hr =>
    intro hinv
    obtain ⟨hh, hq, _⟩ := brelse_step pid b c c1 hr
    exact hash_inv_of_quiet NBUF c c1 hinv hh (fun k => (hq k).1) (fun k => (hq k).2.2)
  | bpin c1 b hp =>
    intro hinv
    obtain ⟨hh, hq, _⟩ := bpin_step b c c1 hp
    exact hash_inv_of_quiet NBUF c c1 hinv hh (fun k => (hq k).1) (fun k => (hq k).2.2)
  | bunpin c1 b hp =>
    intro hinv
    obtain ⟨hh, hq, _⟩ := bunpin_step b c c1 hp
    exact hash_inv_of_quiet NBUF c c1 hinv hh (fun k => (hq k).1) (fun k => (hq k).2.2)

/-- After `binit` on zero-initialised storage every entry is in bucket `hash(0) = 0`. -/
theorem binit_hash_inv (NBUF : Nat) (c0 : BCache)
    (hzero : ∀ k, k < NBUF → (c0.buf k).blockno = 0) :
    HashInv (binit NBUF c0) (onlyPool 0 (List.range NBUF).reverse) := by
  intro i hi k hk
  by_cases hi0 : i = 0
  · subst hi0
    have hmem : k ∈ (List.range NBUF).reverse := by
      unfold onlyPool at hk
      rw [upd_same] at hk
      exact hk
    have hlt : k < NBUF := List.mem_range.mp (List.mem_reverse.mp hmem)
    rw [binit_blockno, hzero k hlt]
    rfl
  · unfold onlyPool at hk
    rw [upd_ne _ _ _ _ hi0] at hk
    cases hk

/-! ### Exact effect of `brelse`, `bpin`, `bunpin` -/

theorem releasesleep_other (b k : Nat) (c : BCache) (hk : k ≠ b) :
    (releasesleep b c).buf k = c.buf k := by
  unfold releasesleep
  simp only [BCache.setBuf_buf, BCache.emit_buf, upd_ne _ _ _ _ hk]

theorem brelse_exact (pid b : Nat) (c c1 : BCache) (h : brelse pid b c = Res.ret () c1) :
    holdingsleep pid b c = true ∧
      c1.buf b = { c.buf b with lock := { locked := false, pid := 0 },
                                refcnt := decr32 (c.buf b).refcnt } ∧
      (∀ k, k ≠ b → c1.buf k = c.buf k) ∧ c1.head = c.head ∧ c1.disk = c.disk ∧
      c1.log = c.log ++ [Ev.rel (Lock.buf b), Ev.acq (Lock.bucket (hash (c.buf b).blockno)),
        Ev.rel (Lock.bucket (hash (c.buf b).blockno))] := by
  cases hh : holdingsleep pid b c with
  | false =>
    rw [brelse_halt pid b c hh] at h
    cases h
  | true =>
    rw [brelse_ret pid b c hh] at h
    injection h with _ h
    subst h
    refine ⟨rfl, ?_, ?_, rfl, rfl, ?_⟩
    · simp only [BCache.release_buf, BCache.setBuf_buf, upd_same]
    · intro k hk
      simp only [BCache.release_buf, BCache.setBuf_buf, BCache.acquire_buf,
        upd_ne _ _ _ _ hk, releasesleep_other b k c hk]
    · simp [releasesleep]

theorem bpin_exact (b : Nat) (c c1 : BCache) (h : bpin b c = Res.ret () c1) :
    c1.buf b = { c.buf b with refcnt := incr32 (c.buf b).refcnt } ∧
      (∀ k, k ≠ b → c1.buf k = c.buf k) ∧ c1.head = c.head ∧ c1.disk = c.disk ∧
      c1.log = c.log ++ [Ev.acq (Lock.bucket (hash (c.buf b).blockno)),
        Ev.rel (Lock.bucket (hash (c.buf b).blockno))] := by
  unfold bpin at h
  injection h with _ h
  subst h
  refine ⟨?_, ?_, rfl, rfl, ?_⟩
  · simp only [BCache.release_buf, BCache.setBuf_buf, BCache.acquire_buf, upd_same]
  · intro k hk
    simp only [BCache.release_buf, BCache.setBuf_buf, BCache.acquire_buf, upd_ne _ _ _ _ hk]
  · simp

theorem bunpin_exact (b : Nat) (c c1 : BCache) (h : bunpin b c = Res.ret () c1) :
    c1.buf b = { c.buf b with refcnt := decr32 (c.buf b).refcnt } ∧
      (∀ k, k ≠ b → c1.buf k = c.buf k) ∧ c1.head = c.head ∧ c1.disk = c.disk ∧
      c1.log = c.log ++ [Ev.acq (Lock.bucket (hash (c.buf b).blockno)),
        Ev.rel (Lock.bucket (hash (c.buf b).blockno))] := by
  unfold bunpin at h
  injection h with _ h
  subst h
  refine ⟨?_, ?_, rfl, rfl, ?_⟩
  · simp only [BCache.release_buf, BCache.setBuf_buf, BCache.acquire_buf, upd_same]
  · intro k hk
    simp only [BCache.release_buf, BCache.setBuf_buf, BCache.acquire_buf, upd_ne _ _ _ _ hk]
  · simp

/-! ### Identity and validity of an entry across one operation -/

/-- If entry `b` alone changes, and only in fields other than `dev`, `blockno`, `valid`, then
identity and validity of every entry are kept. -/
theorem same_id_valid (c c1 : BCache) (b : Nat) (x : Buf) (hb : c1.buf b = x)
    (hx : x.dev = (c.buf b).dev ∧ x.blockno = (c.buf b).blockno ∧ x.valid = (c.buf b).valid)
    (hoth : ∀ k, k ≠ b → c1.buf k = c.buf k) (k : Nat) :
    (c1.buf k).dev = (c.buf k).dev ∧ (c1.buf k).blockno = (c.buf k).blockno ∧
      (c1.buf k).valid = (c.buf k).valid := by
  by_cases hk : k = b
  · rw [hk, hb]
    exact hx
  · rw [hoth k hk]
    exact ⟨rfl, rfl, rfl⟩

theorem acquiresleep_id_valid (pid b : Nat) (c c1 : BCache)
    (h : acquiresleep pid b c = Res.ret b c1) (k : Nat) :
    (c1.buf k).dev = (c.buf k).dev ∧ (c1.buf k).blockno = (c.buf k).blockno ∧
      (c1.buf k).valid = (c.buf k).valid := by
  obtain ⟨c2, hres, _, _, _, hfld⟩ := acquiresleep_cases pid b c
  obtain ⟨_, e⟩ := ret_or_sleep_inj _ b b c2 c1 hres (Or.inl h)
  subst e
  have := Buf.of_lock_eq _ _ _ (hfld k)
  exact ⟨this.1, this.2.1, this.2.2.2.1⟩

theorem breadFill_id_valid (b : Nat) (c : BCache) (k : Nat) :
    ((breadFill b c).buf k).dev = (c.buf k).dev ∧
      ((breadFill b c).buf k).blockno = (c.buf k).blockno ∧
      ((c.buf k).valid ≠ 0 → ((breadFill b c).buf k).valid = (c.buf k).valid) := by
  by_cases hv : (c.buf b).valid = 0
  · by_cases hk : k = b
    · subst hk
      have hkey : (breadFill k c).buf k = { c.buf k with
          data := c.disk (c.buf k).dev (c.buf k).blockno, valid := 1 } := by
        rw [breadFill_clear k c hv]
        simp only [BCache.setBuf_buf, BCache.emit_buf, upd_same]
      rw [hkey]
      exact ⟨rfl, rfl, fun h => absurd hv h⟩
    · have hkey : (breadFill b c).buf k = c.buf k := by
        rw [breadFill_clear b c hv]
        simp only [BCache.setBuf_buf, BCache.emit_buf, upd_ne _ _ _ _ hk]
      rw [hkey]
      exact ⟨rfl, rfl, fun _ => rfl⟩
  · rw [breadFill_set b c hv]
    exact ⟨rfl, rfl, fun _ => rfl⟩

/-- An entry with a reference count of at least 1 keeps identity and validity across `bget`. -/
theorem bget_stable (NBUF fuel pid dev blockno b : Nat) (c c1 : BCache) (L : Nat → List Nat)
    (hB : Buckets NBUF c L)
    (hres : bget fuel pid dev blockno c = Res.ret b c1 ∨
      bget fuel pid dev blockno c = Res.sleep b c1)
    (k : Nat) (href : 1 ≤ (c.buf k).refcnt) :
    (c1.buf k).dev = (c.buf k).dev ∧ (c1.buf k).blockno = (c.buf k).blockno ∧
      (c1.buf k).valid = (c.buf k).valid := by
  have hne : bget fuel pid dev blockno c ≠ Res.spin := by
    intro e
    rcases hres with h | h <;> rw [e] at h <;> cases h
  have hm := bget_mono fuel (NBUF + 1) pid dev blockno c hne
  rw [← hm] at hres
  rcases bget_cases NBUF (fuel + (NBUF + 1)) pid dev blockno c L hB (by omega) with
    ⟨b2, c2, _, hres2, _, _, hoth, hb⟩ |
    ⟨j0, v, c2, _, _, _, hv, hres2, _, _, hoth, _⟩ | ⟨c2, _, _, hh, _⟩
  · obtain ⟨e1, e2⟩ := ret_or_sleep_inj _ b2 b c2 c1 hres2 hres
    subst e1
    subst e2
    have hfld := Buf.of_lock_eq _ _ _ hb
    exact same_id_valid c c2 b2 _ rfl ⟨hfld.1, hfld.2.1, hfld.2.2.2.1⟩ hoth k
  · obtain ⟨e1, e2⟩ := ret_or_sleep_inj _ v b c2 c1 hres2 hres
    subst e1
    subst e2
    have hvfree : (c.buf v).refcnt = 0 := by
      have : (fun k => isFree (c.buf k)) v = true :=
        @List.find?_some Nat (fun k => isFree (c.buf k)) v _ hv
      simpa [isFree] using this
    have hkv : k ≠ v := by
      intro e
      rw [e, hvfree] at href
      omega
    have := Buf.of_next_eq _ _ _ (hoth k hkv)
    exact ⟨this.1, this.2.1, this.2.2.2.1⟩
  · rcases hres with h | h <;> rw [hh] at h <;> cases h

/-- Across one operation an entry with a reference count of at least 1 keeps its identity, and
its validity flag if that was set. -/
theorem BStep.stable (NBUF : Nat) (c c1 : BCache) (L : Nat → List Nat) (h : BStep c c1)
    (hB : Buckets NBUF c L) (k : Nat) (href : 1 ≤ (c.buf k).refcnt) :
    (c1.buf k).dev = (c.buf k).dev ∧ (c1.buf k).blockno = (c.buf k).blockno ∧
      ((c.buf k).valid ≠ 0 → (c1.buf k).valid = (c.buf k).valid) := by
  revert hB href
  induction h with
  | bget c1 fuel pid dev blockno b hg =>
    intro hB href
    have := bget_stable NBUF fuel pid dev blockno b c c1 L hB (Or.inl hg) k href
    exact ⟨this.1, this.2.1, fun _ => this.2.2⟩
  | bgetSleep c1 fuel pid dev blockno b hg =>
    intro hB href
    have := bget_stable NBUF fuel pid dev blockno b c c1 L hB (Or.inr hg) k href
    exact ⟨this.1, this.2.1, fun _ => this.2.2⟩
  | wake c1 pid b hw =>
    intro _ _
    have := acquiresleep_id_valid pid b c c1 hw k
    exact ⟨this.1, this.2.1, fun _ => this.2.2⟩
  | bread c1 fuel pid dev blockno b hb =>
    intro hB href
    obtain ⟨c2, hg, he⟩ := bread_ret fuel pid dev blockno b c c1 hb
    have h1 := bget_stable NBUF fuel pid dev blockno b c c2 L hB (Or.inl hg) k href
    have h2 := breadFill_id_valid b c2 k
    rw [he]
    refine ⟨h2.1.trans h1.1, h2.2.1.trans h1.2.1, ?_⟩
    intro hv
    rw [← h1.2.2] at hv
    rw [h2.2.2 hv, h1.2.2]
  | breadSleep c1 fuel pid dev blockno b hb =>
    intro hB href
    have := bget_stable NBUF fuel pid dev blockno b c c1 L hB
      (Or.inr (bread_sleep fuel pid dev blockno b c c1 hb)) k href
    exact ⟨this.1, this.2.1, fun _ => this.2.2⟩
  | fill b =>
    intro _ _
    exact breadFill_id_valid b c k
  | bwrite c1 pid b hw =>
    intro _ _
    obtain ⟨_, hb⟩ := bwrite_quiet pid b c c1 hw
    rw [hb]
    exact ⟨rfl, rfl, fun _ => rfl⟩
  | brelse c1 pid b hr =>
    intro _ _
    obtain ⟨_, hb, hoth, _⟩ := brelse_exact pid b c c1 hr
    have := same_id_valid c c1 b _ hb ⟨rfl, rfl, rfl⟩ hoth k
    exact ⟨this.1, this.2.1, fun _ => this.2.2⟩
  | bpin c1 b hp =>
    intro _ _
    obtain ⟨hb, hoth, _⟩ := bpin_exact b c c1 hp
    have := same_id_valid c c1 b _ hb ⟨rfl, rfl, rfl⟩ hoth k
    exact ⟨this.1, this.2.1, fun _ => this.2.2⟩
  | bunpin c1 b hp =>
    intro _ _
    obtain ⟨hb, hoth, _⟩ := bunpin_exact b c c1 hp
    have := same_id_valid c c1 b _ hb ⟨rfl, rfl, rfl⟩ hoth k
    exact ⟨this.1, this.2.1, fun _ => this.2.2⟩

theorem bpin_ret (b : Nat) (c : BCache) : bpin b c = Res.ret () ((bpin b c).state c) := rfl

theorem bunpin_ret (b : Nat) (c : BCache) : bunpin b c = Res.ret () ((bunpin b c).state c) := rfl

/-- If entry `b` alone changes and keeps its link, the bucket lists are the same. -/
theorem Buckets.of_frame (NBUF : Nat) (c c1 : BCache) (L : Nat → List Nat) (b : Nat) (x : Buf)
    (hb : c1.buf b = x) (hx : x.next = (c.buf b).next)
    (hoth : ∀ k, k ≠ b → c1.buf k = c.buf k) (hh : c1.head = c.head)
    (hB : Buckets NBUF c L) : Buckets NBUF c1 L := by
  refine Buckets.congr_links NBUF c c1 L ?_ hh hB
  intro k
  by_cases hk : k = b
  · rw [hk, hb]
    exact hx
  · rw [hoth k hk]

theorem BCache.eq_of_fields (c c1 : BCache) (hb : c1.buf = c.buf) (hh : c1.head = c.head)
    (hd : c1.disk = c.disk) : { c1 with log := c.log } = c := by
  cases c
  cases c1
  simp only at hb hh hd
  subst hb
  subst hh
  subst hd
  rfl

/-! ## Lock discipline -/

@[simp] theorem KState.acquire_klog (s : KState) (i : Nat) :
    (s.acquire i).log = s.log ++ [Ev.acq (Lock.kmem i)] := rfl
@[simp] theorem KState.release_klog (s : KState) (i : Nat) :
    (s.release i).log = s.log ++ [Ev.rel (Lock.kmem i)] := rfl
@[simp] theorem KState.setFreelist_klog (s : KState) (i v : Nat) :
    (s.setFreelist i v).log = s.log := rfl
@[simp] theorem KState.setMem_klog (s : KState) (m : Mem) : (s.setMem m).log = s.log := rfl

/-- Replaying two sequences one after the other. -/
theorem discipline_append : ∀ (evs1 evs2 : List Ev) (held : List Lock),
    discipline held (evs1 ++ evs2) = (discipline held evs1).bind (fun h => discipline h evs2)
  | [], _, _ => rfl
  | Ev.acq l :: es, evs2, held => by
    simp only [List.cons_append, discipline]
    by_cases hp : permitted held l = true
    · simp only [hp, if_true]
      exact discipline_append es evs2 (l :: held)
    · simp only [hp]
      rfl
  | Ev.rel l :: es, evs2, held => by
    simp only [List.cons_append, discipline]
    exact discipline_append es evs2 (held.erase l)
  | Ev.io w d n :: es, evs2, held => by
    simp only [List.cons_append, discipline]
    exact discipline_append es evs2 held

theorem discipline_then (evs1 evs2 : List Ev) (h0 h1 h2 : List Lock)
    (e1 : discipline h0 evs1 = some h1) (e2 : discipline h1 evs2 = some h2) :
    discipline h0 (evs1 ++ evs2) = some h2 := by
  rw [discipline_append, e1]
  exact e2

/-- A replay that succeeds has permitted every request at the moment it was made. -/
theorem discipline_split (held final : List Lock) (pre post : List Ev) (l : Lock)
    (h : discipline held (pre ++ Ev.acq l :: post) = some final) :
    ∃ h1, discipline held pre = some h1 ∧ permitted h1 l = true := by
  rw [discipline_append] at h
  cases hp : discipline held pre with
  | none =>
    rw [hp] at h
    cases h
  | some h1 =>
    rw [hp] at h
    refine ⟨h1, rfl, ?_⟩
    by_contra hn
    have : discipline h1 (Ev.acq l :: post) = none := by
      simp only [discipline, hn]
      rfl
    rw [Option.some_bind, this] at h
    cases h

/-- What a permitted request excludes. -/
theorem permitted_spec (held : List Lock) (l : Lock) (h : permitted held l = true) :
    (l.isPool = true → ∀ x ∈ held, x.isPool = false) ∧
      ((l = Lock.evict ∨ l.isBucket = true) → ∀ x ∈ held, x.isBucket = false) ∧
      (l.isSpin = false → ∀ x ∈ held, x.isSpin = false) := by
  cases l with
  | kmem i =>
    simp only [permitted, List.all_eq_true, Bool.not_eq_true'] at h
    refine ⟨fun _ => h, ?_, ?_⟩
    · rintro (e | e)
      · cases e
      · simp [Lock.isBucket] at e
    · intro e
      simp [Lock.isSpin] at e
  | evict =>
    simp only [permitted, List.all_eq_true, Bool.not_eq_true'] at h
    refine ⟨?_, fun _ => h, ?_⟩
    · intro e
      simp [Lock.isPool] at e
    · intro e
      simp [Lock.isSpin] at e
  | bucket i =>
    simp only [permitted, List.all_eq_true, Bool.not_eq_true'] at h
    refine ⟨?_, fun _ => h, ?_⟩
    · intro e
      simp [Lock.isPool] at e
    · intro e
      simp [Lock.isSpin] at e
  | buf b =>
    simp only [permitted, List.all_eq_true, Bool.not_eq_true'] at h
    refine ⟨?_, ?_, fun _ => h⟩
    · intro e
      simp [Lock.isPool] at e
    · rintro (e | e)
      · cases e
      · simp [Lock.isBucket] at e

/-- The events added to a log that grew by `evs`. -/
theorem emitted_append (base evs : List Ev) : emitted base (base ++ evs) = evs := by
  unfold emitted
  exact List.drop_left base evs

/-- A critical section on one pool lock, entered with no lock held. -/
theorem discipline_pool (i : Nat) :
    discipline [] [Ev.acq (Lock.kmem i), Ev.rel (Lock.kmem i)] = some [] := by
  simp [discipline, permitted]

/-- The lock events of a steal: the victim's lock taken and released, then the own lock. -/
theorem discipline_steal (i cid : Nat) :
    discipline [] [Ev.acq (Lock.kmem i), Ev.rel (Lock.kmem i), Ev.acq (Lock.kmem cid),
      Ev.rel (Lock.kmem cid)] = some [] := by
  simp [discipline, permitted]

theorem kfree_log (P : Params) (cid pa : Nat) (s s1 : KState)
    (h : kfree P cid pa s = Res.ret () s1) :
    s1.log = s.log ++ [Ev.acq (Lock.kmem cid), Ev.rel (Lock.kmem cid)] := by
  unfold kfree at h
  by_cases hg : pa % PGSIZE ≠ 0 ∨ pa < P.kend ∨ pa ≥ P.PHYSTOP
  · rw [if_pos hg] at h
    cases h
  · rw [if_neg hg] at h
    injection h with _ h
    rw [← h]
    simp

theorem kfree_halt_state (P : Params) (cid pa : Nat) (s s1 : KState) (msg : String)
    (h : kfree P cid pa s = Res.halt msg s1) : s1 = s := by
  unfold kfree at h
  by_cases hg : pa % PGSIZE ≠ 0 ∨ pa < P.kend ∨ pa ≥ P.PHYSTOP
  · rw [if_pos hg] at h
    injection h with _ h
    exact h.symm
  · rw [if_neg hg] at h
    cases h

theorem stealHalf_spin (fuel cid i : Nat) (s : KState)
    (h : splitLoop s.mem fuel (s.freelist i) (s.freelist i) = none) :
    stealHalf fuel cid i s = Res.spin := by
  unfold stealHalf
  simp only [h]

/-- Lock events of the stealing loop of `kalloc`. -/
theorem kallocSteal_discipline (fuel cid : Nat) : ∀ (n i : Nat) (s : KState),
    (kallocSteal fuel cid n i s).holds
      (fun s1 => ∃ evs, s1.log = s.log ++ evs ∧ discipline [] evs = some [])
  | 0, _, s => ⟨[], by simp, rfl⟩
  | n + 1, i, s => by
    rw [kallocSteal_succ]
    by_cases hic : i = cid
    · rw [if_pos hic]
      exact kallocSteal_discipline fuel cid n (i + 1) s
    · rw [if_neg hic]
      by_cases hnz : (s.acquire i).freelist i ≠ 0
      · rw [if_pos hnz]
        cases hsl : splitLoop (s.acquire i).mem fuel ((s.acquire i).freelist i)
            ((s.acquire i).freelist i) with
        | none =>
          rw [stealHalf_spin fuel cid i _ hsl]
          trivial
        | some slow =>
          rw [stealHalf_eq fuel cid i slow _ hsl]
          refine ⟨[Ev.acq (Lock.kmem i), Ev.rel (Lock.kmem i), Ev.acq (Lock.kmem cid),
            Ev.rel (Lock.kmem cid)], ?_, discipline_steal i cid⟩
          simp
      · rw [if_neg hnz]
        have ih := kallocSteal_discipline fuel cid n (i + 1) ((s.acquire i).release i)
        cases hk : kallocSteal fuel cid n (i + 1) ((s.acquire i).release i) with
        | spin => trivial
        | ret r s1 =>
          rw [hk] at ih
          obtain ⟨evs, hl, hd⟩ := ih
          refine ⟨[Ev.acq (Lock.kmem i), Ev.rel (Lock.kmem i)] ++ evs, ?_,
            discipline_then _ _ _ _ _ (discipline_pool i) hd⟩
          rw [hl]
          simp
        | halt m s1 =>
          rw [hk] at ih
          obtain ⟨evs, hl, hd⟩ := ih
          refine ⟨[Ev.acq (Lock.kmem i), Ev.rel (Lock.kmem i)] ++ evs, ?_,
            discipline_then _ _ _ _ _ (discipline_pool i) hd⟩
          rw [hl]
          simp
        | sleep a s1 =>
          rw [hk] at ih
          obtain ⟨evs, hl, hd⟩ := ih
          refine ⟨[Ev.acq (Lock.kmem i), Ev.rel (Lock.kmem i)] ++ evs, ?_,
            discipline_then _ _ _ _ _ (discipline_pool i) hd⟩
          rw [hl]
          simp

/-- Lock events of `kalloc`: at most one pool lock is held at any moment and none at the
end. -/
theorem kalloc_discipline (P : Params) (fuel cid : Nat) (s : KState) :
    (kalloc P fuel cid s).holds
      (fun s1 => ∃ evs, s1.log = s.log ++ evs ∧ discipline [] evs = some []) := by
  by_cases hnz : s.freelist cid ≠ 0
  · rw [kalloc_eq_local P fuel cid s hnz]
    refine ⟨[Ev.acq (Lock.kmem cid), Ev.rel (Lock.kmem cid)], ?_, discipline_pool cid⟩
    simp
  · have hz : s.freelist cid = 0 := by
      by_contra h
      exact hnz h
    rw [kalloc_eq_steal P fuel cid s hz]
    have ih := kallocSteal_discipline fuel cid P.NCPU 0 ((s.acquire cid).release cid)
    cases hk : kallocSteal fuel cid P.NCPU 0 ((s.acquire cid).release cid) with
    | spin => trivial
    | ret r s1 =>
      rw [hk] at ih
      obtain ⟨evs, hl, hd⟩ := ih
      refine ⟨[Ev.acq (Lock.kmem cid), Ev.rel (Lock.kmem cid)] ++ evs, ?_,
        discipline_then _ _ _ _ _ (discipline_pool cid) hd⟩
      rw [hl]
      simp
    | halt m s1 =>
      rw [hk] at ih
      obtain ⟨evs, hl, hd⟩ := ih
      refine ⟨[Ev.acq (Lock.kmem cid), Ev.rel (Lock.kmem cid)] ++ evs, ?_,
        discipline_then _ _ _ _ _ (discipline_pool cid) hd⟩
      rw [hl]
      simp
    | sleep a s1 =>
      rw [hk] at ih
      obtain ⟨evs, hl, hd⟩ := ih
      refine ⟨[Ev.acq (Lock.kmem cid), Ev.rel (Lock.kmem cid)] ++ evs, ?_,
        discipline_then _ _ _ _ _ (discipline_pool cid) hd⟩
      rw [hl]
      simp

/-! ### Lock events of the buffer cache -/

theorem Res.outcome_imp {σ α : Type} (p p1 : α → σ → Prop) (q q1 : σ → Prop) (X : Res σ α)
    (hp : ∀ a s, p a s → p1 a s) (hq : ∀ s, q s → q1 s) (h : X.outcome p q) :
    X.outcome p1 q1 := by
  cases X with
  | ret a s => exact hp a s h
  | halt m s => exact hq s h
  | spin => trivial
  | sleep a s => exact hp a s h

/-- The fast path on a hit: bucket lock taken and released, then the sleep-lock requested. -/
theorem discipline_hit (i b : Nat) :
    discipline [] [Ev.acq (Lock.bucket i), Ev.rel (Lock.bucket i), Ev.acq (Lock.buf b)]
      = some [Lock.buf b] := by
  simp [discipline, permitted]

/-- The fast path on a miss: bucket lock taken and released. -/
theorem discipline_fast (i : Nat) :
    discipline [] [Ev.acq (Lock.bucket i), Ev.rel (Lock.bucket i)] = some [] := by
  simp [discipline, permitted]

/-- The slow path on a hit. -/
theorem discipline_rehit (i b : Nat) :
    discipline [] [Ev.acq Lock.evict, Ev.acq (Lock.bucket i), Ev.rel (Lock.bucket i),
      Ev.rel Lock.evict, Ev.acq (Lock.buf b)] = some [Lock.buf b] := by
  simp [discipline, permitted, Lock.isBucket]

/-- The slow path up to the victim search. -/
theorem discipline_enter (i : Nat) :
    discipline [] [Ev.acq Lock.evict, Ev.acq (Lock.bucket i), Ev.rel (Lock.bucket i)]
      = some [Lock.evict] := by
  simp [discipline, permitted, Lock.isBucket]

/-- A bucket visited in vain by the victim search. -/
theorem discipline_visit (j : Nat) :
    discipline [Lock.evict] [Ev.acq (Lock.bucket j), Ev.rel (Lock.bucket j)]
      = some [Lock.evict] := by
  simp [discipline, permitted, Lock.isBucket]

/-- The bucket in which the victim is found: its lock stays held. -/
theorem discipline_found (j : Nat) :
    discipline [Lock.evict] [Ev.acq (Lock.bucket j)] = some [Lock.bucket j, Lock.evict] := by
  simp [discipline, permitted, Lock.isBucket]

/-- From the unlinking of the victim to the request of its sleep-lock. -/
theorem discipline_install (j i v : Nat) :
    discipline [Lock.bucket j, Lock.evict] [Ev.rel (Lock.bucket j), Ev.acq (Lock.bucket i),
      Ev.rel (Lock.bucket i), Ev.rel Lock.evict, Ev.acq (Lock.buf v)] = some [Lock.buf v] := by
  simp [discipline, permitted, Lock.isBucket]

theorem acquiresleep_trace (pid b : Nat) (c : BCache) :
    (acquiresleep pid b c).outcome
      (fun b1 c1 => b1 = b ∧ c1.log = c.log ++ [Ev.acq (Lock.buf b)]) (fun _ => False) := by
  cases hl : (c.buf b).lock.locked with
  | false =>
    rw [acquiresleep_free pid b c hl]
    exact ⟨rfl, rfl⟩
  | true =>
    rw [acquiresleep_held pid b c hl]
    exact ⟨rfl, rfl⟩

/-- Lock events of the victim search, entered with the arbiter lock held. -/
theorem findVictim_discipline (fuel : Nat) : ∀ (n j : Nat) (c : BCache),
    (findVictim fuel n j c).outcome
      (fun a c1 => ∃ evs, c1.log = c.log ++ evs ∧
        discipline [Lock.evict] evs = some [Lock.bucket a.2, Lock.evict])
      (fun c1 => ∃ evs, c1.log = c.log ++ evs ∧ discipline [Lock.evict] evs = some [Lock.evict])
  | 0, _, c => ⟨[], by simp, rfl⟩
  | n + 1, j, c => by
    rw [findVictim_succ]
    cases hs : scan isFree c.buf fuel (c.head j) with
    | none => trivial
    | some r =>
      cases r with
      | some v => exact ⟨[Ev.acq (Lock.bucket j)], rfl, discipline_found j⟩
      | none =>
        have ih := findVictim_discipline fuel n (j + 1)
          ((c.acquire (Lock.bucket j)).release (Lock.bucket j))
        refine Res.outcome_imp _ _ _ _ _ ?_ ?_ ih
        · rintro a c1 ⟨evs, hl, hd⟩
          refine ⟨[Ev.acq (Lock.bucket j), Ev.rel (Lock.bucket j)] ++ evs, ?_,
            discipline_then _ _ _ _ _ (discipline_visit j) hd⟩
          rw [hl]
          simp
        · rintro c1 ⟨evs, hl, hd⟩
          refine ⟨[Ev.acq (Lock.bucket j), Ev.rel (Lock.bucket j)] ++ evs, ?_,
            discipline_then _ _ _ _ _ (discipline_visit j) hd⟩
          rw [hl]
          simp

theorem bgetSlow_miss_eq (fuel pid dev blockno : Nat) (c : BCache)
    (h : scan (isBlock dev blockno) c.buf fuel (c.head (hash blockno)) = some none) :
    bgetSlow fuel pid dev blockno c =
      match findVictim fuel NBUCKETS 0 (((c.acquire Lock.evict).acquire
        (Lock.bucket (hash blockno))).release (Lock.bucket (hash blockno))) with
      | Res.halt msg c => Res.halt msg c
      | Res.spin => Res.spin
      | Res.sleep a c => Res.sleep a.1 c
      | Res.ret (victim, old_bucket_idx) c =>
        match unlink victim old_bucket_idx fuel none c with
        | none => Res.spin
        | some c =>
          let c := c.release (Lock.bucket old_bucket_idx)
          let c := c.setBuf victim
            { c.buf victim with dev := dev, blockno := blockno, valid := 0, refcnt := 1 }
          let c := c.acquire (Lock.bucket (hash blockno))
          let c := c.setBuf victim { c.buf victim with next := c.head (hash blockno) }
          let c := c.setHead (hash blockno) (some victim)
          let c := c.release (Lock.bucket (hash blockno))
          let c := c.release Lock.evict
          acquiresleep pid victim c := by
  unfold bgetSlow
  simp only [BCache.acquire_buf, BCache.acquire_head, h]
  try rfl

theorem findVictim_awake (fuel : Nat) : ∀ (n j : Nat) (c : BCache) (a : Nat × Nat)
    (c1 : BCache), findVictim fuel n j c ≠ Res.sleep a c1
  | 0, _, _, _, _ => by
    intro h
    cases h
  | n + 1, j, c, a, c1 => by
    rw [findVictim_succ]
    cases hs : scan isFree c.buf fuel (c.head j) with
    | none =>
      intro h
      cases h
    | some r =>
      cases r with
      | some v =>
        intro h
        cases h
      | none => exact findVictim_awake fuel n (j + 1) _ a c1

/-- Lock events of the slow path of `bget`, entered with no lock held. -/
theorem bgetSlow_discipline (fuel pid dev blockno : Nat) (c : BCache) :
    (bgetSlow fuel pid dev blockno c).outcome
      (fun b c1 => ∃ evs, c1.log = c.log ++ evs ∧ discipline [] evs = some [Lock.buf b])
      (fun c1 => ∃ evs, c1.log = c.log ++ evs ∧ discipline [] evs = some [Lock.evict]) := by
  cases hs : scan (isBlock dev blockno) c.buf fuel (c.head (hash blockno)) with
  | none =>
    have : bgetSlow fuel pid dev blockno c = Res.spin := by
      unfold bgetSlow
      simp only [BCache.acquire_buf, BCache.acquire_head, hs]
    rw [this]
    trivial
  | some r =>
    cases r with
    | some b =>
      rw [bgetSlow_hit_eq fuel pid dev blockno b c hs]
      refine Res.outcome_imp _ _ _ _ _ ?_ (fun _ h => h.elim) (acquiresleep_trace pid b _)
      rintro b1 c1 ⟨hb, hl⟩
      subst hb
      refine ⟨_, ?_, discipline_rehit (hash blockno) b1⟩
      rw [hl]
      simp
    | none =>
      rw [bgetSlow_miss_eq fuel pid dev blockno c hs]
      have hfv := findVictim_discipline fuel NBUCKETS 0 (((c.acquire Lock.evict).acquire
        (Lock.bucket (hash blockno))).release (Lock.bucket (hash blockno)))
      cases hv : findVictim fuel NBUCKETS 0 (((c.acquire Lock.evict).acquire
        (Lock.bucket (hash blockno))).release (Lock.bucket (hash blockno))) with
      | spin => trivial
      | halt msg c1 =>
        rw [hv] at hfv
        obtain ⟨evs, hl, hd⟩ := hfv
        refine ⟨[Ev.acq Lock.evict, Ev.acq (Lock.bucket (hash blockno)),
          Ev.rel (Lock.bucket (hash blockno))] ++ evs, ?_,
          discipline_then _ _ _ _ _ (discipline_enter (hash blockno)) hd⟩
        rw [hl]
        simp
      | sleep a c1 => exact absurd hv (findVictim_awake fuel NBUCKETS 0 _ a c1)
      | ret a c2 =>
        obtain ⟨v, j⟩ := a
        rw [hv] at hfv
        obtain ⟨evs, hl, hd⟩ := hfv
        simp only
        cases hu : unlink v j fuel none c2 with
        | none => trivial
        | some cu =>
          have hlog := unlink_log v j fuel none c2 cu hu
          refine Res.outcome_imp _ _ _ _ _ ?_ (fun _ h => h.elim) (acquiresleep_trace pid v _)
          rintro b1 c1 ⟨hb, hl1⟩
          subst hb
          refine ⟨([Ev.acq Lock.evict, Ev.acq (Lock.bucket (hash blockno)),
            Ev.rel (Lock.bucket (hash blockno))] ++ evs) ++
            [Ev.rel (Lock.bucket j), Ev.acq (Lock.bucket (hash blockno)),
              Ev.rel (Lock.bucket (hash blockno)), Ev.rel Lock.evict, Ev.acq (Lock.buf b1)], ?_,
            discipline_then _ _ _ _ _
              (discipline_then _ _ _ _ _ (discipline_enter (hash blockno)) hd)
              (discipline_install j (hash blockno) b1)⟩
          rw [hl1]
          simp only [BCache.release_log, BCache.acquire_log, BCache.setBuf_log,
            BCache.setHead_log, hlog, hl]
          simp

/-- Lock events of `bget`: the arbiter lock is requested with no bucket lock held, at most one
bucket lock is held at any moment, the sleep-lock is requested with no spinlock held, and at
the end only the sleep-lock of the entry is held or waited for (the arbiter lock at a halt). -/
theorem bget_discipline (fuel pid dev blockno : Nat) (c : BCache) :
    (bget fuel pid dev blockno c).outcome
      (fun b c1 => ∃ evs, c1.log = c.log ++ evs ∧ discipline [] evs = some [Lock.buf b])
      (fun c1 => ∃ evs, c1.log = c.log ++ evs ∧ discipline [] evs = some [Lock.evict]) := by
  cases hs : scan (isBlock dev blockno) c.buf fuel (c.head (hash blockno)) with
  | none =>
    have : bget fuel pid dev blockno c = Res.spin := by
      unfold bget
      simp only [BCache.acquire_buf, BCache.acquire_head, hs]
    rw [this]
    trivial
  | some r =>
    cases r with
    | some b =>
      rw [bget_hit_eq fuel pid dev blockno b c hs]
      refine Res.outcome_imp _ _ _ _ _ ?_ (fun _ h => h.elim) (acquiresleep_trace pid b _)
      rintro b1 c1 ⟨hb, hl⟩
      subst hb
      refine ⟨_, ?_, discipline_hit (hash blockno) b1⟩
      rw [hl]
      simp
    | none =>
      rw [bget_eq_slow fuel pid dev blockno c hs]
      refine Res.outcome_imp _ _ _ _ _ ?_ ?_ (bgetSlow_discipline fuel pid dev blockno _)
      · rintro b c1 ⟨evs, hl, hd⟩
        refine ⟨[Ev.acq (Lock.bucket (hash blockno)), Ev.rel (Lock.bucket (hash blockno))]
          ++ evs, ?_, discipline_then _ _ _ _ _ (discipline_fast (hash blockno)) hd⟩
        rw [hl]
        simp
      · rintro c1 ⟨evs, hl, hd⟩
        refine ⟨[Ev.acq (Lock.bucket (hash blockno)), Ev.rel (Lock.bucket (hash blockno))]
          ++ evs, ?_, discipline_then _ _ _ _ _ (discipline_fast (hash blockno)) hd⟩
        rw [hl]
        simp

/-- Lock events of `brelse` by the holder of the sleep-lock of `b`. -/
theorem discipline_release (b i : Nat) :
    discipline [Lock.buf b] [Ev.rel (Lock.buf b), Ev.acq (Lock.bucket i),
      Ev.rel (Lock.bucket i)] = some [] := by
  simp [discipline, permitted]

/-- The re-check of the slow path on a hit: the events, exactly. -/
theorem bgetSlow_rehit_log (fuel pid dev blockno b : Nat) (c : BCache)
    (h : scan (isBlock dev blockno) c.buf fuel (c.head (hash blockno)) = some (some b)) :
    ∃ c1, (bgetSlow fuel pid dev blockno c = Res.ret b c1 ∨
        bgetSlow fuel pid dev blockno c = Res.sleep b c1) ∧
      c1.log = c.log ++ [Ev.acq Lock.evict, Ev.acq (Lock.bucket (hash blockno)),
        Ev.rel (Lock.bucket (hash blockno)), Ev.rel Lock.evict, Ev.acq (Lock.buf b)] := by
  rw [bgetSlow_hit_eq fuel pid dev blockno b c h]
  have hlog : (((((c.acquire Lock.evict).acquire (Lock.bucket (hash blockno))).setBuf b
      { c.buf b with refcnt := incr32 (c.buf b).refcnt }).release
      (Lock.bucket (hash blockno))).release Lock.evict).log
      = c.log ++ [Ev.acq Lock.evict, Ev.acq (Lock.bucket (hash blockno)),
        Ev.rel (Lock.bucket (hash blockno)), Ev.rel Lock.evict] := by
    simp
  generalize ((((c.acquire Lock.evict).acquire (Lock.bucket (hash blockno))).setBuf b
      { c.buf b with refcnt := incr32 (c.buf b).refcnt }).release
      (Lock.bucket (hash blockno))).release Lock.evict = c0 at hlog ⊢
  cases hl : (c0.buf b).lock.locked with
  | false =>
    rw [acquiresleep_free pid b c0 hl]
    refine ⟨_, Or.inl rfl, ?_⟩
    simp [hlog]
  | true =>
    rw [acquiresleep_held pid b c0 hl]
    refine ⟨_, Or.inr rfl, ?_⟩
    simp [hlog]

/-- A frame whose link points to itself heads no null-terminated list. -/
theorem FreeList.no_loop (m : Mem) (a : Nat) (ha : a ≠ 0) (hl : load64 m a = a) :
    ∀ l, ¬ FreeList m a l
  | [] => fun h => ha h
  | x :: l => by
    intro h
    have hx : a = x := h.1
    have ht := h.2.2
    rw [← hx, hl] at ht
    exact FreeList.no_loop m a ha hl l ht

/-! ## Claims about the page allocator -/

/-- C1. Frame conservation: in every state reached from the state left by `kinit` through calls
of `kalloc` and `kfree` on any CPUs (each `kfree` applied to a frame that is currently
allocated), the number of frames in all per-CPU pools plus the number of frames allocated and
not yet freed equals the number of frames registered by `kinit`,
`(PHYSTOP - PGROUNDUP(end)) / PGSIZE`; this includes the states after stealing and after failed
allocations. -/
theorem frame_conservation (P : Params) (m : Mem) (fuel0 cid0 : Nat) (s0 s : KState)
    (al : List Nat) (hP : P.ok) (hcid : cid0 < P.NCPU)
    (hinit : kinit P fuel0 cid0 (KState.boot m) = Res.ret () s0) (hr : KReach P s0 s al) :
    ∃ pools, Pools P s pools ∧
      poolTotal pools P.NCPU + al.length = (P.PHYSTOP - PGROUNDUP P.kend) / PGSIZE := by
  have h0 := kinit_pools P m fuel0 cid0 s0 hP hcid hinit
  obtain ⟨pools, hp, _, _, htot⟩ := KReach.pools_inv P hP s0 _ _ h0
    (poolTotal_onlyPool cid0 _ P.NCPU hcid) s al hr
  refine ⟨pools, hp, ?_⟩
  rw [htot, List.length_reverse]
  unfold frames
  rw [List.length_map, List.length_range]

theorem frame_conservation_witness :
    ∃ pools, Pools demoParams demoStolen pools ∧
      poolTotal pools demoParams.NCPU + [0x5000].length
        = (demoParams.PHYSTOP - PGROUNDUP demoParams.kend) / PGSIZE :=
  frame_conservation demoParams (fun _ => 0) 5 0 demoInit demoStolen [0x5000] (by decide)
    (by decide) rfl
    (KReach.alloc demoInit demoStolen [] 4 1 0x5000 KReach.init (by decide) rfl (by decide))

/-- C3. Exclusive frame ownership: in every state reached from the state left by `kinit`
through calls of `kalloc` and `kfree` (each `kfree` applied to a currently allocated frame), the
per-CPU free lists are well formed lists of frames in which no frame occurs twice, neither in
one list nor in two lists; no allocated frame is in a free list; the allocated frames are
pairwise different; and a `kalloc` that succeeds never returns a frame that is currently
allocated, i.e. one returned earlier and not freed since. -/
theorem exclusive_ownership (P : Params) (m : Mem) (fuel0 cid0 : Nat) (s0 s : KState)
    (al : List Nat) (hP : P.ok) (hcid : cid0 < P.NCPU)
    (hinit : kinit P fuel0 cid0 (KState.boot m) = Res.ret () s0) (hr : KReach P s0 s al) :
    ∃ pools, Pools P s pools ∧ al.Nodup ∧
      (∀ a ∈ al, ∀ i, i < P.NCPU → a ∉ pools i) ∧
      (∀ fuel cid r s1, cid < P.NCPU → kalloc P fuel cid s = Res.ret r s1 → r ≠ 0 →
        r ∉ al) := by
  have h0 := kinit_pools P m fuel0 cid0 s0 hP hcid hinit
  obtain ⟨pools, hp, hnd, hal, _⟩ := KReach.pools_inv P hP s0 _ _ h0 rfl s al hr
  refine ⟨pools, hp, hnd, fun a ha => (hal a ha).2, ?_⟩
  intro fuel cid r s1 hc hret hr0 hmem
  obtain ⟨_, _, hcase⟩ := kalloc_ret_cases P s s1 pools fuel cid r hp hc hret
  rcases hcase with ⟨hz, _⟩ | ⟨_, ⟨i, hi, hri⟩, _⟩
  · exact hr0 hz
  · exact (hal r hmem).2 i hi hri

theorem exclusive_ownership_witness :
    ∃ pools, Pools demoParams demoStolen pools ∧ [0x5000].Nodup ∧
      (∀ a ∈ [0x5000], ∀ i, i < demoParams.NCPU → a ∉ pools i) ∧
      (∀ fuel cid r s1, cid < demoParams.NCPU →
        kalloc demoParams fuel cid demoStolen = Res.ret r s1 → r ≠ 0 → r ∉ [0x5000]) :=
  exclusive_ownership demoParams (fun _ => 0) 5 0 demoInit demoStolen [0x5000] (by decide)
    (by decide) rfl
    (KReach.alloc demoInit demoStolen [] 4 1 0x5000 KReach.init (by decide) rfl (by decide))

/-- C4. Work-stealing split: if the pool of the calling CPU `cid` is empty and `B` is the
lowest-index other CPU with a non-empty pool, holding the `k` frames `f :: rest`, then `kalloc`
on `cid` (with fuel for the tortoise/hare loop) returns `f`; afterwards the pool of `B` is the
last `k / 2` frames of the list (the list without its first `(k + 1) / 2` frames) in their
order, the pool of `cid` is the frames 2 to `(k + 1) / 2` of the list in their order, the two
pools hold `k - 1` frames together, every other pool is the same list as before with the same
head pointer, and memory outside the frames of the stolen list is unchanged. -/
theorem steal_split (P : Params) (s : KState) (pools : Nat → List Nat) (fuel cid B f : Nat)
    (rest : List Nat) (hrep : Pools P s pools) (hcid : cid < P.NCPU) (hB : B < P.NCPU)
    (hBc : B ≠ cid) (hAe : pools cid = []) (hp : pools B = f :: rest)
    (hlow : ∀ j, j < B → j ≠ cid → pools j = []) (hfuel : (f :: rest).length ≤ fuel) :
    ∃ s1, kalloc P fuel cid s = Res.ret f s1 ∧
      Pools P s1 (upd (upd pools B ((f :: rest).drop (((f :: rest).length + 1) / 2))) cid
        (((f :: rest).take (((f :: rest).length + 1) / 2)).tail)) ∧
      ((f :: rest).drop (((f :: rest).length + 1) / 2)).length = (f :: rest).length / 2 ∧
      (((f :: rest).take (((f :: rest).length + 1) / 2)).tail).length
        + ((f :: rest).drop (((f :: rest).length + 1) / 2)).length = (f :: rest).length - 1 ∧
      (∀ j, j ≠ cid → j ≠ B → s1.freelist j = s.freelist j) ∧
      (∀ x, (∀ a ∈ f :: rest, x < a ∨ a + PGSIZE ≤ x) → s1.mem x = s.mem x) := by
  simp only [List.length_cons] at hfuel ⊢
  obtain ⟨s1, e, hp1, hfl, _, hloc⟩ := kalloc_steal_pools P s pools fuel cid B f rest hrep hcid
    hB hBc hAe hp hlow (by omega)
  refine ⟨s1, e, hp1, ?_, ?_, hfl, hloc⟩
  · rw [List.length_drop, List.length_cons]
    omega
  · rw [List.length_tail, List.length_take, List.length_drop, List.length_cons]
    omega

theorem steal_split_witness :
    ∃ s1, kalloc demoParams 4 1 demoInit = Res.ret 0x5000 s1 ∧
      Pools demoParams s1
        (upd (upd (onlyPool 0 [0x5000, 0x4000, 0x3000, 0x2000]) 0
          (([0x5000, 0x4000, 0x3000, 0x2000] : List Nat).drop
            ((([0x5000, 0x4000, 0x3000, 0x2000] : List Nat).length + 1) / 2))) 1
          ((([0x5000, 0x4000, 0x3000, 0x2000] : List Nat).take
            ((([0x5000, 0x4000, 0x3000, 0x2000] : List Nat).length + 1) / 2)).tail)) ∧
      (([0x5000, 0x4000, 0x3000, 0x2000] : List Nat).drop
          ((([0x5000, 0x4000, 0x3000, 0x2000] : List Nat).length + 1) / 2)).length
        = ([0x5000, 0x4000, 0x3000, 0x2000] : List Nat).length / 2 ∧
      ((([0x5000, 0x4000, 0x3000, 0x2000] : List Nat).take
          ((([0x5000, 0x4000, 0x3000, 0x2000] : List Nat).length + 1) / 2)).tail).length
        + (([0x5000, 0x4000, 0x3000, 0x2000] : List Nat).drop
          ((([0x5000, 0x4000, 0x3000, 0x2000] : List Nat).length + 1) / 2)).length
        = ([0x5000, 0x4000, 0x3000, 0x2000] : List Nat).length - 1 ∧
      (∀ j, j ≠ 1 → j ≠ 0 → s1.freelist j = demoInit.freelist j) ∧
      (∀ x, (∀ a ∈ ([0x5000, 0x4000, 0x3000, 0x2000] : List Nat), x < a ∨ a + PGSIZE ≤ x) →
        s1.mem x = demoInit.mem x) :=
  steal_split demoParams demoInit (onlyPool 0 [0x5000, 0x4000, 0x3000, 0x2000]) 4 1 0 0x5000
    [0x4000, 0x3000, 0x2000] (by decide) (by decide) (by decide) (by decide) (by decide)
    (by decide) (by decide) (by decide)

/-- C5. Allocation failure: on a well-formed state, `kalloc` (with fuel for the tortoise/hare
loop) always returns and never halts; it returns the failure indicator 0 if and only if the
pool of the calling CPU and the pools of all other CPUs are empty, and then memory and all
free-list heads are unchanged; in every other case it returns a non-null frame address that
passes the checks of `kfree` (page-aligned, in `[end, PHYSTOP)`) and was in one of the pools. -/
theorem kalloc_failure (P : Params) (s : KState) (pools : Nat → List Nat) (fuel cid : Nat)
    (hrep : Pools P s pools) (hcid : cid < P.NCPU)
    (hfuel : ∀ i, i < P.NCPU → (pools i).length ≤ fuel) :
    ∃ r s1, kalloc P fuel cid s = Res.ret r s1 ∧
      (r = 0 ↔ ∀ i, i < P.NCPU → pools i = []) ∧
      (r = 0 → s1.mem = s.mem ∧ s1.freelist = s.freelist ∧ Pools P s1 pools) ∧
      (r ≠ 0 → Frame P r ∧ ∃ i, i < P.NCPU ∧ r ∈ pools i) := by
  obtain ⟨r, s1, pools1, e, hp1, hc⟩ := kalloc_cases P s pools fuel cid hrep hcid hfuel
  refine ⟨r, s1, e, ?_, ?_, ?_⟩
  · rcases hc with ⟨hz, hall, _⟩ | ⟨hnz, ⟨i, hi, hri⟩, _⟩
    · exact ⟨fun _ => hall, fun _ => hz⟩
    · refine ⟨fun hz => absurd hz hnz, fun hall => ?_⟩
      rw [hall i hi] at hri
      cases hri
  · intro hz
    rcases hc with ⟨_, _, he, hm, hf⟩ | ⟨hnz, _⟩
    · subst he
      exact ⟨hm, hf, hp1⟩
    · exact absurd hz hnz
  · intro hnz
    rcases hc with ⟨hz, _⟩ | ⟨_, ⟨i, hi, hri⟩, _⟩
    · exact absurd hz hnz
    · exact ⟨hrep.2.1 i hi r hri, i, hi, hri⟩

theorem kalloc_failure_witness :
    ∃ r s1, kalloc demoParams 2 2 demoStolen = Res.ret r s1 ∧
      (r = 0 ↔ ∀ i, i < demoParams.NCPU → upd (onlyPool 0 [0x3000, 0x2000]) 1 [0x4000] i = []) ∧
      (r = 0 → s1.mem = demoStolen.mem ∧ s1.freelist = demoStolen.freelist ∧
        Pools demoParams s1 (upd (onlyPool 0 [0x3000, 0x2000]) 1 [0x4000])) ∧
      (r ≠ 0 → Frame demoParams r ∧
        ∃ i, i < demoParams.NCPU ∧ r ∈ upd (onlyPool 0 [0x3000, 0x2000]) 1 [0x4000] i) :=
  kalloc_failure demoParams demoStolen (upd (onlyPool 0 [0x3000, 0x2000]) 1 [0x4000]) 2 2
    (by decide) (by decide) (by decide)

/-- C7. `kfree(pa)` halts (with `panic("kfree")`) if and only if `pa` is not a multiple of the
page size, or is below `end`, or is at or above `PHYSTOP`; when it halts the state is the one it
was called in, so no pool has been modified; otherwise it returns. -/
theorem kfree_halts_iff (P : Params) (cid pa : Nat) (s : KState) :
    ((∃ msg s1, kfree P cid pa s = Res.halt msg s1) ↔
        (pa % PGSIZE ≠ 0 ∨ pa < P.kend ∨ P.PHYSTOP ≤ pa)) ∧
      (∀ msg s1, kfree P cid pa s = Res.halt msg s1 → msg = "kfree" ∧ s1 = s) ∧
      (¬ (pa % PGSIZE ≠ 0 ∨ pa < P.kend ∨ P.PHYSTOP ≤ pa) →
        ∃ s1, kfree P cid pa s = Res.ret () s1) := by
  by_cases hc : pa % PGSIZE ≠ 0 ∨ pa < P.kend ∨ pa ≥ P.PHYSTOP
  · have e : kfree P cid pa s = Res.halt "kfree" s := by
      unfold kfree
      rw [if_pos hc]
    refine ⟨⟨fun _ => hc, fun _ => ⟨_, _, e⟩⟩, ?_, fun hn => absurd hc hn⟩
    intro msg s1 h
    rw [e] at h
    injection h with h1 h2
    exact ⟨h1.symm, h2.symm⟩
  · have e : ∃ s1, kfree P cid pa s = Res.ret () s1 := by
      unfold kfree
      rw [if_neg hc]
      exact ⟨_, rfl⟩
    obtain ⟨s1, e1⟩ := e
    refine ⟨⟨?_, fun h => absurd h hc⟩, ?_, fun _ => ⟨s1, e1⟩⟩
    · rintro ⟨msg, s2, h⟩
      rw [e1] at h
      cases h
    · intro msg s2 h
      rw [e1] at h
      cases h

/-- C8. Local fast path: on a well-formed state in which the pool of the calling CPU is
`f :: rest`, `kalloc` returns the head `f`, the pool of the calling CPU becomes `rest`, every
other pool is the same list as before with the same head pointer, memory outside the returned
frame is unchanged, and only the caller's own lock was taken (nothing is stolen). -/
theorem kalloc_local_path (P : Params) (s : KState) (pools : Nat → List Nat)
    (fuel cid f : Nat) (rest : List Nat) (hrep : Pools P s pools) (hcid : cid < P.NCPU)
    (hp : pools cid = f :: rest) :
    ∃ s1, kalloc P fuel cid s = Res.ret f s1 ∧ Pools P s1 (upd pools cid rest) ∧
      (∀ j, j ≠ cid → s1.freelist j = s.freelist j) ∧
      (∀ x, x < f ∨ f + PGSIZE ≤ x → s1.mem x = s.mem x) ∧
      s1.log = s.log ++ [Ev.acq (Lock.kmem cid), Ev.rel (Lock.kmem cid)] := by
  obtain ⟨s1, e, hp1, hfl, hm⟩ := kalloc_local_pools P s pools fuel cid f rest hrep hcid hp
  refine ⟨s1, e, hp1, ?_, ?_, ?_⟩
  · intro j hj
    rw [hfl, upd_ne _ _ _ _ hj]
  · intro x hx
    rw [hm, memset_outside _ _ _ _ _ hx]
  · have hch := hrep.1 cid hcid
    rw [hp] at hch
    have hnz : s.freelist cid ≠ 0 := by rw [hch.1]; exact hch.2.1
    rw [kalloc_eq_local P fuel cid s hnz] at e
    injection e with _ es
    rw [← es]
    simp [KState.setMem, KState.release, KState.setFreelist, KState.acquire]

theorem kalloc_local_path_witness :
    ∃ s1, kalloc demoParams 0 0 demoStolen = Res.ret 0x3000 s1 ∧
      Pools demoParams s1
        (upd (upd (onlyPool 0 [0x3000, 0x2000]) 1 [0x4000]) 0 [0x2000]) ∧
      (∀ j, j ≠ 0 → s1.freelist j = demoStolen.freelist j) ∧
      (∀ x, x < 0x3000 ∨ 0x3000 + PGSIZE ≤ x → s1.mem x = demoStolen.mem x) ∧
      s1.log = demoStolen.log ++ [Ev.acq (Lock.kmem 0), Ev.rel (Lock.kmem 0)] :=
  kalloc_local_path demoParams demoStolen (upd (onlyPool 0 [0x3000, 0x2000]) 1 [0x4000]) 0 0
    0x3000 [0x2000] (by decide) (by decide) (by decide)

/-- C9. Initialization registers the range exactly: for a page-aligned `pa_start` with
`end ≤ pa_start ≤ pa_end ≤ PHYSTOP`, `freerange(pa_start, pa_end)` run on CPU `cid` from the
boot state (all pools empty) returns, and afterwards the pool of `cid` is the list of the
frames `pa_start + i * PGSIZE`, `0 ≤ i < (pa_end - pa_start) / PGSIZE`, highest first, each
exactly once, every other pool is empty, and the total number of free frames is
`(pa_end - pa_start) / PGSIZE`. -/
theorem freerange_registers (P : Params) (m : Mem) (fuel cid pa_start pa_end : Nat)
    (hP : P.ok) (hcid : cid < P.NCPU) (hal : pa_start % PGSIZE = 0) (hk : P.kend ≤ pa_start)
    (hle : pa_start ≤ pa_end) (hend : pa_end ≤ P.PHYSTOP)
    (hfuel : (pa_end - pa_start) / PGSIZE < fuel) :
    ∃ s1 pools, freerange P fuel cid pa_start pa_end (KState.boot m) = Res.ret () s1 ∧
      Pools P s1 pools ∧
      pools cid = (frames pa_start ((pa_end - pa_start) / PGSIZE)).reverse ∧
      (∀ a, a ∈ pools cid ↔
        ∃ i, i < (pa_end - pa_start) / PGSIZE ∧ a = pa_start + i * PGSIZE) ∧
      (pools cid).Nodup ∧
      (∀ j, j ≠ cid → pools j = []) ∧
      poolTotal pools P.NCPU = (pa_end - pa_start) / PGSIZE := by
  have h64 := hP.2.2
  have hround : PGROUNDUP pa_start = pa_start :=
    PGROUNDUP_aligned pa_start hal (by unfold PGSIZE at *; omega)
  obtain ⟨s1, e, hp⟩ := freerange_pools P m fuel cid pa_start pa_end hP hcid hk hend
    (by rw [hround]; exact ⟨hal, le_refl _, by unfold PGSIZE; omega⟩)
    (by rw [hround]; exact hfuel) (by omega)
  rw [hround] at hp
  have hown : onlyPool cid (frames pa_start ((pa_end - pa_start) / PGSIZE)).reverse cid
      = (frames pa_start ((pa_end - pa_start) / PGSIZE)).reverse := by
    unfold onlyPool
    rw [upd_same]
  refine ⟨s1, _, e, hp, hown, ?_, ?_, ?_, ?_⟩
  · intro a
    rw [hown, List.mem_reverse]
    unfold frames
    rw [List.mem_map]
    constructor
    · rintro ⟨i, hi, rfl⟩
      exact ⟨i, List.mem_range.mp hi, rfl⟩
    · rintro ⟨i, hi, rfl⟩
      exact ⟨i, List.mem_range.mpr hi, rfl⟩
  · exact hp.2.2.1 cid hcid
  · intro j hj
    unfold onlyPool
    rw [upd_ne _ _ _ _ hj]
  · rw [poolTotal_onlyPool cid _ P.NCPU hcid, List.length_reverse]
    unfold frames
    rw [List.length_map, List.length_range]

theorem freerange_registers_witness :
    ∃ s1 pools, freerange demoParams 4 0 0x2000 0x5000 (KState.boot (fun _ => 0))
        = Res.ret () s1 ∧
      Pools demoParams s1 pools ∧
      pools 0 = (frames 0x2000 ((0x5000 - 0x2000) / PGSIZE)).reverse ∧
      (∀ a, a ∈ pools 0 ↔ ∃ i, i < (0x5000 - 0x2000) / PGSIZE ∧ a = 0x2000 + i * PGSIZE) ∧
      (pools 0).Nodup ∧
      (∀ j, j ≠ 0 → pools j = []) ∧
      poolTotal pools demoParams.NCPU = (0x5000 - 0x2000) / PGSIZE :=
  freerange_registers demoParams (fun _ => 0) 4 0 0x2000 0x5000 (by decide) (by decide)
    (by decide) (by decide) (by decide) (by decide) (by decide)

/-- C10, the claim as stated fails: after `kfree(0x5000)` on CPU 1, whose free list starts at
frame `0x4000`, the freed frame does not hold the byte 1 throughout: its first eight bytes are
the link to `0x4000`. -/
theorem poison_free_counterexample :
    ∃ s1, kfree demoParams 1 0x5000 demoStolen = Res.ret () s1 ∧
      s1.mem 0x5000 = 0 ∧ s1.mem 0x5001 = 0x40 ∧
      ¬ (∀ k, k < PGSIZE → s1.mem (0x5000 + k) = 1) :=
  ⟨_, rfl, by decide, by decide, fun h => absurd (h 0 (by decide)) (by decide)⟩

/-- C10, amended. Poison contract: when `kfree(pa)` returns, the bytes 8 to `PGSIZE - 1` of the
freed frame hold the free-poison byte 1 and its first eight bytes hold the free-list link (the
previous head of the caller's free list), not poison; when `kalloc` returns a frame (on the
local path and on the stealing path alike), each of the `PGSIZE` bytes of that frame holds the
byte 5, which differs from the free-poison byte and from zero. -/
theorem poison_contract (P : Params) (cid pa : Nat) (s s1 : KState) (fuel cid2 r : Nat)
    (t t1 : KState) (hfree : kfree P cid pa s = Res.ret () s1)
    (halloc : kalloc P fuel cid2 t = Res.ret r t1) (hr : r ≠ 0) :
    (∀ k, 8 ≤ k → k < PGSIZE → s1.mem (pa + k) = 1) ∧
      load64 s1.mem pa = s.freelist cid % 2 ^ 64 ∧
      (∀ k, k < PGSIZE → t1.mem (r + k) = 5 ∧ t1.mem (r + k) ≠ 1 ∧ t1.mem (r + k) ≠ 0) := by
  obtain ⟨hm, _⟩ := kfree_ret P cid pa s s1 hfree
  refine ⟨?_, ?_, ?_⟩
  · intro k h8 hk
    rw [hm]
    unfold store64
    rw [if_neg (by omega), memset_inside _ _ _ _ _ hk]
  · rw [hm, load64_store64_mod]
  · intro k hk
    have := kalloc_bytes P fuel cid2 r t t1 halloc hr k hk
    omega

theorem poison_contract_witness :
    (∀ k, 8 ≤ k → k < PGSIZE →
        ((kfree demoParams 1 0x5000 demoStolen).state demoStolen).mem (0x5000 + k) = 1) ∧
      load64 ((kfree demoParams 1 0x5000 demoStolen).state demoStolen).mem 0x5000
        = demoStolen.freelist 1 % 2 ^ 64 ∧
      (∀ k, k < PGSIZE → demoStolen.mem (0x5000 + k) = 5 ∧ demoStolen.mem (0x5000 + k) ≠ 1 ∧
        demoStolen.mem (0x5000 + k) ≠ 0) :=
  poison_contract demoParams 1 0x5000 demoStolen _ 4 1 0x5000 demoInit demoStolen rfl rfl
    (by decide)

/-! ## Claims about the buffer cache -/

/-- C2. Cache identity uniqueness: in every state reachable from the state left by `binit`
(on a boot state with all reference counts zero) through calls of `bget` / `bread`, `bwrite`,
`brelse`, `bpin` and `bunpin`, where `brelse`, `bpin` and `bunpin` are applied only to entries
whose reference count is at least 1, no two distinct cache entries with a reference count
above 0 carry the same `(dev, blockno)`. -/
theorem cache_identity_unique (NBUF : Nat) (c0 c : BCache) (k1 k2 : Nat)
    (hzero : ∀ k, k < NBUF → (c0.buf k).refcnt = 0) (hr : BReach NBUF (binit NBUF c0) c)
    (h1 : k1 < NBUF) (h2 : k2 < NBUF) (hne : k1 ≠ k2) (hp1 : 0 < (c.buf k1).refcnt)
    (hp2 : 0 < (c.buf k2).refcnt) :
    ¬ ((c.buf k1).dev = (c.buf k2).dev ∧ (c.buf k1).blockno = (c.buf k2).blockno) := by
  obtain ⟨L, _, hI⟩ := BReach.buckets_inv NBUF c0 c hzero hr
  intro hsame
  have m1 := hI.1 k1 h1 hp1
  have m2 := hI.1 k2 h2 hp2
  rw [hsame.2] at m1
  have hpw := hI.2 _ (hash_lt (c.buf k2).blockno)
  have hsym : (L (hash (c.buf k2).blockno)).Pairwise (fun x y =>
      ((c.buf x).dev = (c.buf y).dev ∧ (c.buf x).blockno = (c.buf y).blockno →
        (c.buf y).refcnt = 0) ∨
      ((c.buf y).dev = (c.buf x).dev ∧ (c.buf y).blockno = (c.buf x).blockno →
        (c.buf x).refcnt = 0)) := hpw.imp (fun h => Or.inl h)
  have := hsym.forall (fun x y h => h.symm) m1 m2 hne
  rcases this with h | h
  · have := h hsame
    omega
  · have := h ⟨hsame.1.symm, hsame.2.symm⟩
    omega

theorem cache_identity_unique_witness :
    (0 < (demoFull.buf 1).refcnt ∧ 0 < (demoFull.buf 2).refcnt) ∧
      ¬ ((demoFull.buf 1).dev = (demoFull.buf 2).dev ∧
        (demoFull.buf 1).blockno = (demoFull.buf 2).blockno) :=
  ⟨by decide,
    cache_identity_unique 3 (BCache.boot [] (fun _ _ => [])) demoFull 1 2 (by decide)
      (BReach.bget demoTwo demoFull 4 7 1 6 0
        (BReach.bget demoOne demoTwo 4 7 1 18 1
          (BReach.bget demoCache demoOne 4 7 1 5 2 BReach.init rfl) rfl) rfl)
      (by decide) (by decide) (by decide) (by decide) (by decide)⟩

/-- C6. Cache exhaustion is fatal: on a cache with well-formed bucket lists `L` (as in every
reachable state) and fuel for the bucket scans, `bget(dev, blockno)` halts if and only if no
entry in bucket `hash(blockno)` has the identity `(dev, blockno)` and every cache entry has a
reference count different from 0; it then halts in `panic("bget: no buffers")` with entries and
bucket lists untouched and returns no value. In particular it halts when all entries are
referenced and none carries the identity asked for. In every other state `bget` resolves to an
entry of the cache: it returns it, after sleeping on the entry's lock when another process
holds that lock. -/
theorem bget_exhaustion (NBUF fuel pid dev blockno : Nat) (c : BCache) (L : Nat → List Nat)
    (hB : Buckets NBUF c L) (hf : NBUF < fuel) :
    ((∃ msg c1, bget fuel pid dev blockno c = Res.halt msg c1) ↔
        ((∀ k ∈ L (hash blockno), ¬ ((c.buf k).dev = dev ∧ (c.buf k).blockno = blockno)) ∧
          (∀ k, k < NBUF → (c.buf k).refcnt ≠ 0))) ∧
      (∀ msg c1, bget fuel pid dev blockno c = Res.halt msg c1 →
        msg = "bget: no buffers" ∧ c1.buf = c.buf ∧ c1.head = c.head) ∧
      ((∀ k, k < NBUF → (c.buf k).refcnt ≠ 0 ∧
          ¬ ((c.buf k).dev = dev ∧ (c.buf k).blockno = blockno)) →
        ∃ c1, bget fuel pid dev blockno c = Res.halt "bget: no buffers" c1) ∧
      (¬ ((∀ k ∈ L (hash blockno), ¬ ((c.buf k).dev = dev ∧ (c.buf k).blockno = blockno)) ∧
          (∀ k, k < NBUF → (c.buf k).refcnt ≠ 0)) →
        ∃ b c1, b < NBUF ∧ (bget fuel pid dev blockno c = Res.ret b c1 ∨
          bget fuel pid dev blockno c = Res.sleep b c1)) := by
  have hnone_iff : (L (hash blockno)).find? (fun k => isBlock dev blockno (c.buf k)) = none ↔
      ∀ k ∈ L (hash blockno), ¬ ((c.buf k).dev = dev ∧ (c.buf k).blockno = blockno) := by
    rw [List.find?_eq_none]
    constructor
    · intro h k hk hs
      exact h k hk ((isBlock_iff dev blockno (c.buf k)).mpr hs)
    · intro h k hk hs
      exact h k hk ((isBlock_iff dev blockno (c.buf k)).mp hs)
  have hfull_iff : (∀ t, t < NBUCKETS → ∀ k ∈ L t, (c.buf k).refcnt ≠ 0) ↔
      ∀ k, k < NBUF → (c.buf k).refcnt ≠ 0 := by
    constructor
    · intro h k hk
      obtain ⟨t, ht, hkt⟩ := hB.2.2.2.2 k hk
      exact h t ht k hkt
    · intro h t ht k hk
      exact h k (hB.2.1 t ht k hk)
  have hmain : ((∃ msg c1, bget fuel pid dev blockno c = Res.halt msg c1) ↔
        ((∀ k ∈ L (hash blockno), ¬ ((c.buf k).dev = dev ∧ (c.buf k).blockno = blockno)) ∧
          (∀ k, k < NBUF → (c.buf k).refcnt ≠ 0))) ∧
      (∀ msg c1, bget fuel pid dev blockno c = Res.halt msg c1 →
        msg = "bget: no buffers" ∧ c1.buf = c.buf ∧ c1.head = c.head) ∧
      (¬ ((∀ k ∈ L (hash blockno), ¬ ((c.buf k).dev = dev ∧ (c.buf k).blockno = blockno)) ∧
          (∀ k, k < NBUF → (c.buf k).refcnt ≠ 0)) →
        ∃ b c1, b < NBUF ∧ (bget fuel pid dev blockno c = Res.ret b c1 ∨
          bget fuel pid dev blockno c = Res.sleep b c1)) := by
    rcases bget_cases NBUF fuel pid dev blockno c L hB hf with
      ⟨b, c1, hfind, hres, _⟩ | ⟨j0, v, c1, hfind, hj0, _, hv, hres, _⟩ |
      ⟨c1, hfind, hfull, hh, h1, h2, _⟩
    · have hnoh : ¬ ∃ msg c2, bget fuel pid dev blockno c = Res.halt msg c2 := by
        rintro ⟨msg, c2, e⟩
        rcases hres with h | h <;> rw [e] at h <;> cases h
      have hncond : ¬ ((∀ k ∈ L (hash blockno),
          ¬ ((c.buf k).dev = dev ∧ (c.buf k).blockno = blockno)) ∧
          (∀ k, k < NBUF → (c.buf k).refcnt ≠ 0)) := by
        rintro ⟨hn, _⟩
        rw [hnone_iff.mpr hn] at hfind
        cases hfind
      refine ⟨⟨fun h => absurd h hnoh, fun h => absurd h hncond⟩, ?_, ?_⟩
      · intro msg c2 e
        exact absurd ⟨msg, c2, e⟩ hnoh
      · intro _
        exact ⟨b, c1, hB.2.1 _ (hash_lt blockno) b (List.mem_of_find?_eq_some hfind), hres⟩
    · have hnoh : ¬ ∃ msg c2, bget fuel pid dev blockno c = Res.halt msg c2 := by
        rintro ⟨msg, c2, e⟩
        rcases hres with h | h <;> rw [e] at h <;> cases h
      have hvmem : v ∈ L j0 := List.mem_of_find?_eq_some hv
      have hvfree : (c.buf v).refcnt = 0 := by
        have : (fun k => isFree (c.buf k)) v = true :=
          @List.find?_some Nat (fun k => isFree (c.buf k)) v _ hv
        simpa [isFree] using this
      have hncond : ¬ ((∀ k ∈ L (hash blockno),
          ¬ ((c.buf k).dev = dev ∧ (c.buf k).blockno = blockno)) ∧
          (∀ k, k < NBUF → (c.buf k).refcnt ≠ 0)) := by
        rintro ⟨_, hall⟩
        exact hall v (hB.2.1 j0 hj0 v hvmem) hvfree
      refine ⟨⟨fun h => absurd h hnoh, fun h => absurd h hncond⟩, ?_, ?_⟩
      · intro msg c2 e
        exact absurd ⟨msg, c2, e⟩ hnoh
      · intro _
        exact ⟨v, c1, hB.2.1 j0 hj0 v hvmem, hres⟩
    · have hcond : (∀ k ∈ L (hash blockno),
          ¬ ((c.buf k).dev = dev ∧ (c.buf k).blockno = blockno)) ∧
          (∀ k, k < NBUF → (c.buf k).refcnt ≠ 0) :=
        ⟨hnone_iff.mp hfind, hfull_iff.mp hfull⟩
      refine ⟨⟨fun _ => hcond, fun _ => ⟨_, c1, hh⟩⟩, ?_, fun h => absurd hcond h⟩
      intro msg c2 e
      rw [hh] at e
      injection e with e1 e2
      subst e1
      subst e2
      exact ⟨rfl, h1, h2⟩
  refine ⟨hmain.1, hmain.2.1, ?_, hmain.2.2⟩
  intro hall
  have hcond : (∀ k ∈ L (hash blockno),
      ¬ ((c.buf k).dev = dev ∧ (c.buf k).blockno = blockno)) ∧
      (∀ k, k < NBUF → (c.buf k).refcnt ≠ 0) :=
    ⟨fun k hk => (hall k (hB.2.1 _ (hash_lt blockno) k hk)).2, fun k hk => (hall k hk).1⟩
  obtain ⟨msg, c1, e⟩ := hmain.1.mpr hcond
  have := (hmain.2.1 msg c1 e).1
  subst this
  exact ⟨c1, e⟩

theorem bget_exhaustion_witness :
    ((∃ msg c1, bget 4 9 1 7 demoFull = Res.halt msg c1) ↔
        ((∀ k ∈ demoFullLists (hash 7),
            ¬ ((demoFull.buf k).dev = 1 ∧ (demoFull.buf k).blockno = 7)) ∧
          (∀ k, k < 3 → (demoFull.buf k).refcnt ≠ 0))) ∧
      (∀ msg c1, bget 4 9 1 7 demoFull = Res.halt msg c1 →
        msg = "bget: no buffers" ∧ c1.buf = demoFull.buf ∧ c1.head = demoFull.head) ∧
      ((∀ k, k < 3 → (demoFull.buf k).refcnt ≠ 0 ∧
          ¬ ((demoFull.buf k).dev = 1 ∧ (demoFull.buf k).blockno = 7)) →
        ∃ c1, bget 4 9 1 7 demoFull = Res.halt "bget: no buffers" c1) ∧
      (¬ ((∀ k ∈ demoFullLists (hash 7),
            ¬ ((demoFull.buf k).dev = 1 ∧ (demoFull.buf k).blockno = 7)) ∧
          (∀ k, k < 3 → (demoFull.buf k).refcnt ≠ 0)) →
        ∃ b c1, b < 3 ∧ (bget 4 9 1 7 demoFull = Res.ret b c1 ∨
          bget 4 9 1 7 demoFull = Res.sleep b c1)) :=
  bget_exhaustion 3 4 9 1 7 demoFull demoFullLists (by decide) (by decide)

/-! ## Claims about the operations of the buffer cache -/

/-- C11 (as amended). Acquire hit: on a cache with well-formed bucket lists `L` and fuel for the
scans, if bucket `hash(blockno)` contains an entry `k0` with identity `(dev, blockno)`, then
`bget(dev, blockno)` resolves to the first such entry `b` of the list: it returns `b` when the
lock of `b` is free and sleeps on that lock when it is held. In the state `c1` it leaves, the
reference count of `b` is the old one plus 1 modulo `2^32` (`refcnt` is a `uint`: exactly one
more when the count was below `2^32 - 1`, and 0 when it was `2^32 - 1`), the lock of `b` is
taken if it was free, and nothing else differs: no
other entry, no identity, validity flag, content or link, no list head; the bucket lists are
still `L`, and the arbiter lock is never taken (the events are: bucket lock taken, bucket lock
released, entry lock requested), so no victim is evicted. The slow path entered in the same
state (`bgetSlow`, the re-check under the arbiter lock) has the same outcome and the same
effect. -/
theorem acquire_hit (NBUF fuel pid dev blockno k0 : Nat) (c : BCache) (L : Nat → List Nat)
    (hB : Buckets NBUF c L) (hf : NBUF < fuel) (hk : k0 ∈ L (hash blockno))
    (hid : (c.buf k0).dev = dev ∧ (c.buf k0).blockno = blockno) :
    ∃ b c1 c2,
      (L (hash blockno)).find? (fun k => isBlock dev blockno (c.buf k)) = some b ∧
      ((c.buf b).lock.locked = false → bget fuel pid dev blockno c = Res.ret b c1) ∧
      ((c.buf b).lock.locked = true → bget fuel pid dev blockno c = Res.sleep b c1) ∧
      HitEffect pid b c c1 ∧
      (c1.buf b).refcnt = incr32 (c.buf b).refcnt ∧
      ((c.buf b).refcnt + 1 < 2 ^ 32 → (c1.buf b).refcnt = (c.buf b).refcnt + 1) ∧
      ((c.buf b).refcnt = 4294967295 → (c1.buf b).refcnt = 0) ∧
      (∀ k, k ≠ b → c1.buf k = c.buf k) ∧
      (∀ k, (c1.buf k).dev = (c.buf k).dev ∧ (c1.buf k).blockno = (c.buf k).blockno ∧
        (c1.buf k).valid = (c.buf k).valid ∧ (c1.buf k).data = (c.buf k).data ∧
        (c1.buf k).next = (c.buf k).next) ∧
      c1.head = c.head ∧
      Buckets NBUF c1 L ∧
      c1.log = c.log ++ [Ev.acq (Lock.bucket (hash blockno)),
        Ev.rel (Lock.bucket (hash blockno)), Ev.acq (Lock.buf b)] ∧
      ((c.buf b).lock.locked = false → bgetSlow fuel pid dev blockno c = Res.ret b c2) ∧
      ((c.buf b).lock.locked = true → bgetSlow fuel pid dev blockno c = Res.sleep b c2) ∧
      HitEffect pid b c c2 := by
  obtain ⟨b, hfind⟩ := find_of_mem (fun k => isBlock dev blockno (c.buf k)) _ k0 hk
    ((isBlock_iff dev blockno (c.buf k0)).mpr hid)
  obtain ⟨c1, hr, hs, he, hlog⟩ := bget_hit_effect NBUF fuel pid dev blockno b c L hB hf hfind
  obtain ⟨c2, hr2, hs2, he2, _⟩ := bgetSlow_hit_effect NBUF fuel pid dev blockno b c L hB hf hfind
  have href : (c1.buf b).refcnt = incr32 (c.buf b).refcnt := by rw [he.2.2.2]
  refine ⟨b, c1, c2, hfind, hr, hs, he, href, ?_, ?_, he.2.2.1, ?_, he.1,
    HitEffect.buckets NBUF pid b c c1 L he hB, hlog, hr2, hs2, he2⟩
  · intro hlt
    rw [href, incr32_exact _ hlt]
  · intro hmax
    rw [href, hmax]
    exact incr32_wrap
  · intro k
    by_cases hkb : k = b
    · rw [hkb, he.2.2.2]
      exact ⟨rfl, rfl, rfl, rfl, rfl⟩
    · rw [he.2.2.1 k hkb]
      exact ⟨rfl, rfl, rfl, rfl, rfl⟩

theorem acquire_hit_witness :
    ∃ b c1 c2,
      (demoOneLists (hash 5)).find? (fun k => isBlock 1 5 (demoOne.buf k)) = some b ∧
      ((demoOne.buf b).lock.locked = false → bget 4 8 1 5 demoOne = Res.ret b c1) ∧
      ((demoOne.buf b).lock.locked = true → bget 4 8 1 5 demoOne = Res.sleep b c1) ∧
      HitEffect 8 b demoOne c1 ∧
      (c1.buf b).refcnt = incr32 (demoOne.buf b).refcnt ∧
      ((demoOne.buf b).refcnt + 1 < 2 ^ 32 → (c1.buf b).refcnt = (demoOne.buf b).refcnt + 1) ∧
      ((demoOne.buf b).refcnt = 4294967295 → (c1.buf b).refcnt = 0) ∧
      (∀ k, k ≠ b → c1.buf k = demoOne.buf k) ∧
      (∀ k, (c1.buf k).dev = (demoOne.buf k).dev ∧
        (c1.buf k).blockno = (demoOne.buf k).blockno ∧
        (c1.buf k).valid = (demoOne.buf k).valid ∧ (c1.buf k).data = (demoOne.buf k).data ∧
        (c1.buf k).next = (demoOne.buf k).next) ∧
      c1.head = demoOne.head ∧
      Buckets 3 c1 demoOneLists ∧
      c1.log = demoOne.log ++ [Ev.acq (Lock.bucket (hash 5)),
        Ev.rel (Lock.bucket (hash 5)), Ev.acq (Lock.buf b)] ∧
      ((demoOne.buf b).lock.locked = false → bgetSlow 4 8 1 5 demoOne = Res.ret b c2) ∧
      ((demoOne.buf b).lock.locked = true → bgetSlow 4 8 1 5 demoOne = Res.sleep b c2) ∧
      HitEffect 8 b demoOne c2 :=
  acquire_hit 3 4 8 1 5 2 demoOne demoOneLists (by decide) (by decide) (by decide) (by decide)

/-- C11 (as stated) fails: in `demoPinned` entry 2 is the entry of bucket `hash(5)` with
identity `(1, 5)`, its lock is free and its reference count is `2^32 - 1`; `bget(1, 5)` returns
entry 2 with reference count 0, not `2^32`: the count did not increase by 1. -/
theorem hit_wrap_counterexample :
    Buckets 3 demoPinned demoOneLists ∧
      2 ∈ demoOneLists (hash 5) ∧
      ((demoPinned.buf 2).dev = 1 ∧ (demoPinned.buf 2).blockno = 5) ∧
      (demoPinned.buf 2).refcnt = 4294967295 ∧
      bget 4 8 1 5 demoPinned = Res.ret 2 ((bget 4 8 1 5 demoPinned).state demoPinned) ∧
      (((bget 4 8 1 5 demoPinned).state demoPinned).buf 2).refcnt = 0 ∧
      (((bget 4 8 1 5 demoPinned).state demoPinned).buf 2).refcnt
        ≠ (demoPinned.buf 2).refcnt + 1 :=
  ⟨by decide, by decide, by decide, by decide, rfl, by decide, by decide⟩

/-- C12. Read-through: `bread(dev, blockno)` returns the entry `b` that `bget` returns, after
the tail `breadFill` has run on the state `c2` left by `bget` (and is blocked where `bget` is
blocked); `bget` itself issues no disk transfer. If the validity flag of `b` is clear in `c2`,
`breadFill` issues exactly one device read, of block `(b->dev, b->blockno)`, which fills the
content of `b` from the disk, and then sets the flag to 1; nothing else changes. If the flag is
set, `breadFill` leaves the state as it is: no device read, the content unchanged. In both
cases the flag of the returned entry is set. On a well-formed cache the entry carries the
identity asked for, and `bget` did not touch its content. -/
theorem bread_read_through (fuel pid dev blockno b : Nat) (c c2 : BCache) :
    (bget fuel pid dev blockno c = Res.ret b c2 →
        bread fuel pid dev blockno c = Res.ret b (breadFill b c2) ∧
        ioEvents c2.log = ioEvents c.log) ∧
      (bget fuel pid dev blockno c = Res.sleep b c2 →
        bread fuel pid dev blockno c = Res.sleep b c2 ∧ ioEvents c2.log = ioEvents c.log) ∧
      ((c2.buf b).valid = 0 →
        (breadFill b c2).log = c2.log ++ [Ev.io false (c2.buf b).dev (c2.buf b).blockno] ∧
        ioEvents (breadFill b c2).log
          = ioEvents c2.log ++ [Ev.io false (c2.buf b).dev (c2.buf b).blockno] ∧
        (breadFill b c2).buf b = { c2.buf b with
          data := c2.disk (c2.buf b).dev (c2.buf b).blockno, valid := 1 } ∧
        (∀ k, k ≠ b → (breadFill b c2).buf k = c2.buf k) ∧
        (breadFill b c2).head = c2.head ∧ (breadFill b c2).disk = c2.disk) ∧
      ((c2.buf b).valid ≠ 0 → breadFill b c2 = c2) ∧
      ((breadFill b c2).buf b).valid ≠ 0 ∧
      (∀ NBUF L, Buckets NBUF c L → NBUF < fuel →
        (bget fuel pid dev blockno c = Res.ret b c2 ∨
          bget fuel pid dev blockno c = Res.sleep b c2) →
        (c2.buf b).dev = dev ∧ (c2.buf b).blockno = blockno ∧
          (c2.buf b).data = (c.buf b).data) := by
  refine ⟨?_, ?_, ?_, breadFill_set b c2, ?_, ?_⟩
  · intro hg
    have hio := bget_io fuel pid dev blockno c
    rw [hg] at hio
    refine ⟨?_, hio⟩
    unfold bread
    rw [hg]
  · intro hg
    have hio := bget_io fuel pid dev blockno c
    rw [hg] at hio
    refine ⟨?_, hio⟩
    unfold bread
    rw [hg]
  · intro hv
    rw [breadFill_clear b c2 hv]
    refine ⟨rfl, ?_, ?_, ?_, rfl, rfl⟩
    · simp only [BCache.setBuf_log, BCache.emit_log]
      exact ioEvents_io _ _ _ _
    · simp only [BCache.setBuf_buf, BCache.emit_buf, upd_same]
    · intro k hk
      simp only [BCache.setBuf_buf, BCache.emit_buf, upd_ne _ _ _ _ hk]
  · by_cases hv : (c2.buf b).valid = 0
    · rw [breadFill_clear b c2 hv]
      simp only [BCache.setBuf_buf, BCache.emit_buf, upd_same]
      decide
    · rw [breadFill_set b c2 hv]
      exact hv
  · intro NBUF L hB hf hres
    exact (bget_identity NBUF fuel pid dev blockno b c c2 L hB hf hres).2

theorem bread_read_through_witness :
    bread 2 7 1 5 demoSingle
        = Res.ret 0 (breadFill 0 ((bget 2 7 1 5 demoSingle).state demoSingle)) ∧
      ioEvents (breadFill 0 ((bget 2 7 1 5 demoSingle).state demoSingle)).log
        = [Ev.io false 1 5] ∧
      ((breadFill 0 ((bget 2 7 1 5 demoSingle).state demoSingle)).buf 0).data = [10, 20, 30] ∧
      breadFill 0 demoRead = demoRead :=
  ⟨((bread_read_through 2 7 1 5 0 demoSingle
      ((bget 2 7 1 5 demoSingle).state demoSingle)).1 rfl).1,
    by decide, by decide,
    (bread_read_through 2 7 1 5 0 demoSingle demoRead).2.2.2.1 (by decide)⟩

/-- C13. Lock check of `bwrite` and `brelse`: each of them halts if and only if the calling
process `pid` does not hold the exclusive lock of entry `b` (the lock is free or held by another
process), with `panic("bwrite")` resp. `panic("brelse")` and the state untouched. When the
caller holds the lock, `bwrite` returns after exactly one device write, of `(b->dev, b->blockno)`
with the content of `b`: the log grows by that one event, no entry (reference count, identity,
validity flag, content, lock, link) and no list head changes, so the bucket lists are the same,
and only that block of the disk changes; and `brelse` returns. -/
theorem write_release_lock_check (pid b : Nat) (c : BCache) :
    (holdingsleep pid b c = true ↔ ((c.buf b).lock.locked = true ∧ (c.buf b).lock.pid = pid)) ∧
      ((∃ msg c1, bwrite pid b c = Res.halt msg c1) ↔ holdingsleep pid b c = false) ∧
      ((∃ msg c1, brelse pid b c = Res.halt msg c1) ↔ holdingsleep pid b c = false) ∧
      (holdingsleep pid b c = false →
        bwrite pid b c = Res.halt "bwrite" c ∧ brelse pid b c = Res.halt "brelse" c) ∧
      (holdingsleep pid b c = true →
        ∃ c1 c2, bwrite pid b c = Res.ret () c1 ∧
          c1.log = c.log ++ [Ev.io true (c.buf b).dev (c.buf b).blockno] ∧
          ioEvents c1.log = ioEvents c.log ++ [Ev.io true (c.buf b).dev (c.buf b).blockno] ∧
          c1.buf = c.buf ∧ c1.head = c.head ∧
          (∀ NBUF L, Buckets NBUF c L → Buckets NBUF c1 L) ∧
          c1.disk (c.buf b).dev (c.buf b).blockno = (c.buf b).data ∧
          (∀ d n, ¬ (d = (c.buf b).dev ∧ n = (c.buf b).blockno) → c1.disk d n = c.disk d n) ∧
          brelse pid b c = Res.ret () c2) := by
  have hw : (∃ msg c1, bwrite pid b c = Res.halt msg c1) ↔ holdingsleep pid b c = false := by
    cases hh : holdingsleep pid b c with
    | false =>
      rw [bwrite_halt pid b c hh]
      exact ⟨fun _ => rfl, fun _ => ⟨_, _, rfl⟩⟩
    | true =>
      rw [bwrite_ret pid b c hh]
      constructor
      · rintro ⟨msg, c1, h⟩
        cases h
      · intro h
        cases h
  have hr : (∃ msg c1, brelse pid b c = Res.halt msg c1) ↔ holdingsleep pid b c = false := by
    cases hh : holdingsleep pid b c with
    | false =>
      rw [brelse_halt pid b c hh]
      exact ⟨fun _ => rfl, fun _ => ⟨_, _, rfl⟩⟩
    | true =>
      rw [brelse_ret pid b c hh]
      constructor
      · rintro ⟨msg, c1, h⟩
        cases h
      · intro h
        cases h
  refine ⟨?_, hw, hr, fun hh => ⟨bwrite_halt pid b c hh, brelse_halt pid b c hh⟩, ?_⟩
  · unfold holdingsleep
    simp
  · intro hh
    refine ⟨_, _, bwrite_ret pid b c hh, ?_, ?_, ?_, ?_, ?_, ?_, ?_, brelse_ret pid b c hh⟩
    · simp [virtio_disk_rw, BCache.emit]
    · have : (virtio_disk_rw b true c).log
          = c.log ++ [Ev.io true (c.buf b).dev (c.buf b).blockno] := by
        simp [virtio_disk_rw, BCache.emit]
      rw [this]
      exact ioEvents_io _ _ _ _
    · simp [virtio_disk_rw, BCache.emit]
    · simp [virtio_disk_rw, BCache.emit]
    · intro NBUF L hB
      refine Buckets.congr_links NBUF c _ L ?_ ?_ hB
      · intro k
        simp [virtio_disk_rw, BCache.emit]
      · simp [virtio_disk_rw, BCache.emit]
    · simp [virtio_disk_rw, BCache.emit]
    · intro d n hdn
      simp [virtio_disk_rw, BCache.emit, hdn]

theorem write_release_lock_check_witness :
    ∃ c1 c2, bwrite 7 0 demoEdited = Res.ret () c1 ∧
      c1.log = demoEdited.log ++ [Ev.io true (demoEdited.buf 0).dev (demoEdited.buf 0).blockno] ∧
      ioEvents c1.log = ioEvents demoEdited.log ++
        [Ev.io true (demoEdited.buf 0).dev (demoEdited.buf 0).blockno] ∧
      c1.buf = demoEdited.buf ∧ c1.head = demoEdited.head ∧
      (∀ NBUF L, Buckets NBUF demoEdited L → Buckets NBUF c1 L) ∧
      c1.disk (demoEdited.buf 0).dev (demoEdited.buf 0).blockno = (demoEdited.buf 0).data ∧
      (∀ d n, ¬ (d = (demoEdited.buf 0).dev ∧ n = (demoEdited.buf 0).blockno) →
        c1.disk d n = demoEdited.disk d n) ∧
      brelse 7 0 demoEdited = Res.ret () c2 :=
  (write_release_lock_check 7 0 demoEdited).2.2.2.2 (by decide)

/-- C14 (as amended). `bpin` makes no lock check: in every state, whether or not the exclusive
lock of entry `b` is held by anyone, it returns (it never halts) after taking the bucket lock of
`hash(b->blockno)`, incrementing the reference count of `b` and releasing that bucket lock. Only
`bwrite` and `brelse` detect a caller that does not hold the exclusive lock and halt. -/
theorem pin_no_lock_check (pid b : Nat) (c : BCache) :
    (∃ c1, bpin b c = Res.ret () c1 ∧ (c1.buf b).refcnt = incr32 (c.buf b).refcnt ∧
        c1.log = c.log ++ [Ev.acq (Lock.bucket (hash (c.buf b).blockno)),
          Ev.rel (Lock.bucket (hash (c.buf b).blockno))]) ∧
      (∀ msg c1, bpin b c ≠ Res.halt msg c1) ∧
      (holdingsleep pid b c = false →
        bwrite pid b c = Res.halt "bwrite" c ∧ brelse pid b c = Res.halt "brelse" c) := by
  refine ⟨⟨_, rfl, ?_, ?_⟩, ?_, fun hh => ⟨bwrite_halt pid b c hh, brelse_halt pid b c hh⟩⟩
  · simp
  · simp
  · intro msg c1 h
    cases h

/-- C14 (as stated) fails: in the cache just initialised no process holds the exclusive lock
of entry 0, `bwrite` and `brelse` called by process 7 halt, and `bpin` on that entry returns
with the reference count raised from 0 to 1. -/
theorem pin_unlocked_counterexample :
    (demoCache.buf 0).lock.locked = false ∧ holdingsleep 7 0 demoCache = false ∧
      bwrite 7 0 demoCache = Res.halt "bwrite" demoCache ∧
      brelse 7 0 demoCache = Res.halt "brelse" demoCache ∧
      bpin 0 demoCache = Res.ret () ((bpin 0 demoCache).state demoCache) ∧
      (((bpin 0 demoCache).state demoCache).buf 0).refcnt = 1 ∧
      ¬ ∃ msg c1, bpin 0 demoCache = Res.halt msg c1 := by
  refine ⟨by decide, by decide, rfl, rfl, rfl, by decide, ?_⟩
  rintro ⟨msg, c1, h⟩
  cases h

/-- C15 (as amended). Write-back round trip over a disk that maps `(dev, blockno)` to block
content: let the holder of entry `b` (identity `X = (b->dev, b->blockno)`) overwrite its content
with `d`, write it back with `bwrite` and release it with `brelse`; let other blocks `ys` then
be read and released until no entry of the bucket of `X` carries the identity `X` any more (the
entry has been recycled). A `bread` of `X` that returns then yields an entry with identity `X`,
validity flag set, whose content is `d`, the bytes that were written back, whatever the content
was before the modification. -/
theorem write_back_round_trip (NBUF fuel pid b b2 : Nat) (d : List Nat)
    (ys : List (Nat × Nat)) (c0 c1 c2 c3 c4 : BCache) (L3 : Nat → List Nat)
    (hw : bwrite pid b (c0.edit b d) = Res.ret () c1)
    (hr : brelse pid b c1 = Res.ret () c2)
    (hch : churn fuel pid ys c2 = some c3)
    (hB : Buckets NBUF c3 L3) (hf : NBUF < fuel)
    (hgone : ∀ k ∈ L3 (hash (c0.buf b).blockno),
      ¬ ((c3.buf k).dev = (c0.buf b).dev ∧ (c3.buf k).blockno = (c0.buf b).blockno))
    (hre : bread fuel pid (c0.buf b).dev (c0.buf b).blockno c3 = Res.ret b2 c4) :
    (c4.buf b2).data = d ∧ (c4.buf b2).dev = (c0.buf b).dev ∧
      (c4.buf b2).blockno = (c0.buf b).blockno ∧ (c4.buf b2).valid = 1 ∧
      c1.disk (c0.buf b).dev (c0.buf b).blockno = d ∧ c3.disk = c1.disk := by
  have hd1 := bwrite_disk pid b (c0.edit b d) c1 hw
  have he : (c0.edit b d).buf b = { c0.buf b with data := d } := by
    simp [BCache.edit, upd_same]
  rw [he] at hd1
  have hd3 : c3.disk = c1.disk := by
    rw [churn_disk fuel pid ys c2 c3 hch, brelse_disk pid b c1 c2 hr]
  obtain ⟨h1, h2, h3, h4⟩ := bread_miss_data NBUF fuel pid _ _ b2 c3 c4 L3 hB hf hgone hre
  refine ⟨?_, h2, h3, h4, hd1, hd3⟩
  rw [h1, hd3]
  exact hd1

theorem write_back_round_trip_witness :
    (demoReread.buf 0).data = [11, 21, 31] ∧ (demoReread.buf 0).dev = (demoRead.buf 0).dev ∧
      (demoReread.buf 0).blockno = (demoRead.buf 0).blockno ∧ (demoReread.buf 0).valid = 1 ∧
      demoWritten.disk (demoRead.buf 0).dev (demoRead.buf 0).blockno = [11, 21, 31] ∧
      demoRecycled.disk = demoWritten.disk :=
  write_back_round_trip 1 2 7 0 0 [11, 21, 31] [(1, 6)] demoRead demoWritten demoReleased
    demoRecycled demoReread (upd (fun _ => []) 6 [0]) rfl rfl rfl (by decide) (by decide)
    (by decide) rfl

/-- C15 (as stated) fails: on a cache with a single entry, block 5 of device 1 holds
`[10, 20, 30]`; process 7 reads it, changes the content of the entry to `[11, 21, 31]`, writes
it back and releases it; reading and releasing block 6 recycles the entry for block 6; reading
block 5 again yields `[11, 21, 31]`, not the content `[10, 20, 30]` the block had before the
modification. -/
theorem round_trip_counterexample :
    bread 2 7 1 5 demoSingle = Res.ret 0 demoRead ∧
      (demoRead.buf 0).data = [10, 20, 30] ∧
      demoEdited = demoRead.edit 0 [11, 21, 31] ∧
      bwrite 7 0 demoEdited = Res.ret () demoWritten ∧
      brelse 7 0 demoWritten = Res.ret () demoReleased ∧
      churn 2 7 [(1, 6)] demoReleased = some demoRecycled ∧
      ((demoRecycled.buf 0).dev = 1 ∧ (demoRecycled.buf 0).blockno = 6) ∧
      bread 2 7 1 5 demoRecycled = Res.ret 0 demoReread ∧
      (demoReread.buf 0).data = [11, 21, 31] ∧
      (demoReread.buf 0).data ≠ (demoRead.buf 0).data :=
  ⟨rfl, by decide, rfl, rfl, rfl, rfl, by decide, rfl, by decide, by decide⟩

/-- C16. Double acquire: on a cache with well-formed bucket lists in which no entry with
identity `(dev, blockno)` is referenced, let `bget(dev, blockno)` called by process `p1` return
entry `b`. Then `b` has reference count 1 and is locked by `p1`; a second `bget(dev, blockno)`, by
`p2`, with no release in between resolves to the same entry `b` and blocks on its lock, with the
reference count of `b` at 2 and no other entry changed (no second entry gets the identity). Once
`p1` has called `brelse(b)`, which returns, the count is 1 and the lock is free; `p2` is then
granted the lock and finds on `b` the identity `(dev, blockno)` and a reference count of 1. -/
theorem double_acquire (NBUF fuel p1 p2 dev blockno b : Nat) (c c1 : BCache)
    (L : Nat → List Nat) (hB : Buckets NBUF c L) (hf : NBUF < fuel)
    (hunref : ∀ k, k < NBUF → (c.buf k).dev = dev ∧ (c.buf k).blockno = blockno →
      (c.buf k).refcnt = 0)
    (hg : bget fuel p1 dev blockno c = Res.ret b c1) :
    ∃ c2 c3 c4,
      (c1.buf b).refcnt = 1 ∧ (c1.buf b).lock = { locked := true, pid := p1 } ∧
      bget fuel p2 dev blockno c1 = Res.sleep b c2 ∧
      HitEffect p2 b c1 c2 ∧ (c2.buf b).refcnt = 2 ∧
      brelse p1 b c2 = Res.ret () c3 ∧
      (c3.buf b).refcnt = 1 ∧ (c3.buf b).lock.locked = false ∧
      acquiresleep p2 b c3 = Res.ret b c4 ∧
      (c4.buf b).refcnt = 1 ∧ (c4.buf b).lock = { locked := true, pid := p2 } ∧
      ((c4.buf b).dev = dev ∧ (c4.buf b).blockno = blockno) ∧
      (∀ k, k ≠ b → c4.buf k = c1.buf k) ∧ c4.head = c1.head := by
  obtain ⟨L1, hB1, hfind1, href⟩ :=
    bget_then_find NBUF fuel p1 dev blockno b c c1 L hB hf (Or.inl hg)
  have href1 := href hunref
  have hlock1 := bget_ret_lock fuel p1 dev blockno c b c1 hg
  have hid1 : (c1.buf b).dev = dev ∧ (c1.buf b).blockno = blockno :=
    (isBlock_iff dev blockno (c1.buf b)).mp
      (@List.find?_some Nat (fun k => isBlock dev blockno (c1.buf k)) b _ hfind1)
  obtain ⟨c2, _, hs2, he2, _⟩ := bget_hit_effect NBUF fuel p2 dev blockno b c1 L1 hB1 hf hfind1
  have hsleep := hs2 (by rw [hlock1])
  have hb2 : c2.buf b = { c1.buf b with refcnt := 2 } := by
    rw [he2.2.2.2]
    simp [hlock1, href1, incr32]
  have hhold : holdingsleep p1 b c2 = true := by
    unfold holdingsleep
    rw [hb2, hlock1]
    simp
  have hlk3 : (((((releasesleep b c2).acquire (Lock.bucket (hash (c2.buf b).blockno))).setBuf b
      { c2.buf b with lock := { locked := false, pid := 0 },
                      refcnt := decr32 (c2.buf b).refcnt }).release
      (Lock.bucket (hash (c2.buf b).blockno))).buf b).lock.locked = false := by
    simp only [BCache.release_buf, BCache.setBuf_buf, upd_same]
  refine ⟨c2, _, _, href1, hlock1, hsleep, he2, ?_, brelse_ret p1 b c2 hhold, ?_, hlk3,
    acquiresleep_free p2 b _ hlk3, ?_, ?_, ?_, ?_, ?_⟩
  · rw [hb2]
  · simp only [BCache.release_buf, BCache.setBuf_buf, upd_same]
    rw [hb2]
    exact decr32_exact 2 (by omega) (by norm_num)
  · simp only [BCache.release_buf, BCache.setBuf_buf, BCache.emit_buf, upd_same]
    rw [hb2]
    exact decr32_exact 2 (by omega) (by norm_num)
  · simp only [BCache.release_buf, BCache.setBuf_buf, BCache.emit_buf, upd_same]
  · simp only [BCache.release_buf, BCache.setBuf_buf, BCache.emit_buf, upd_same]
    rw [hb2]
    exact hid1
  · intro k hk
    simp only [BCache.release_buf, BCache.setBuf_buf, BCache.emit_buf, BCache.acquire_buf,
      upd_ne _ _ _ _ hk]
    have : (releasesleep b c2).buf k = c2.buf k := by
      unfold releasesleep
      simp only [BCache.setBuf_buf, BCache.emit_buf, upd_ne _ _ _ _ hk]
    rw [this, he2.2.2.1 k hk]
  · have : (releasesleep b c2).head = c2.head := rfl
    simp only [BCache.release_head, BCache.setBuf_head, BCache.emit_head, BCache.acquire_head,
      this, he2.1]

theorem double_acquire_witness :
    ∃ c2 c3 c4,
      (demoOne.buf 2).refcnt = 1 ∧ (demoOne.buf 2).lock = { locked := true, pid := 7 } ∧
      bget 4 8 1 5 demoOne = Res.sleep 2 c2 ∧
      HitEffect 8 2 demoOne c2 ∧ (c2.buf 2).refcnt = 2 ∧
      brelse 7 2 c2 = Res.ret () c3 ∧
      (c3.buf 2).refcnt = 1 ∧ (c3.buf 2).lock.locked = false ∧
      acquiresleep 8 2 c3 = Res.ret 2 c4 ∧
      (c4.buf 2).refcnt = 1 ∧ (c4.buf 2).lock = { locked := true, pid := 8 } ∧
      ((c4.buf 2).dev = 1 ∧ (c4.buf 2).blockno = 5) ∧
      (∀ k, k ≠ 2 → c4.buf k = demoOne.buf k) ∧ c4.head = demoOne.head :=
  double_acquire 3 4 7 8 1 5 2 demoCache demoOne demoCacheLists (by decide) (by decide)
    (by decide) rfl

/-- C17. Acquire miss: on a cache with well-formed bucket lists `L` and fuel for the scans, if
no entry of bucket `hash(blockno)` has identity `(dev, blockno)` and some entry `k0` has reference
count 0, then `bget(dev, blockno)` resolves to a victim `v` (it returns `v`, or sleeps on the
lock of `v` if that lock is held) which is the first entry with reference count 0 met when the
buckets are scanned in increasing order and each list from its head: `v` is in bucket `j0`, no
bucket before `j0` holds an entry with count 0, and no entry before `v` in the list of `j0` has
count 0. Afterwards `v` has identity `(dev, blockno)`, validity flag 0 and reference count 1 (its
content is untouched); `v` is the head of bucket `hash(blockno)`; the bucket lists are the old
ones with `v` erased and `v` put in front of the list of `hash(blockno)`, also when
`j0 = hash(blockno)`, so that every other entry keeps its bucket and its relative order; and
every other entry keeps its device, block number, validity flag, reference count, lock and
content. -/
theorem acquire_miss (NBUF fuel pid dev blockno k0 : Nat) (c : BCache) (L : Nat → List Nat)
    (hB : Buckets NBUF c L) (hf : NBUF < fuel)
    (hmiss : ∀ k ∈ L (hash blockno), ¬ ((c.buf k).dev = dev ∧ (c.buf k).blockno = blockno))
    (hk0 : k0 < NBUF) (hfree : (c.buf k0).refcnt = 0) :
    ∃ j0 v c1,
      j0 < NBUCKETS ∧ (∀ t, t < j0 → ∀ k ∈ L t, (c.buf k).refcnt ≠ 0) ∧
      (L j0).find? (fun k => isFree (c.buf k)) = some v ∧
      (∃ l1 l2, L j0 = l1 ++ v :: l2 ∧ ∀ k ∈ l1, (c.buf k).refcnt ≠ 0) ∧
      (c.buf v).refcnt = 0 ∧
      (bget fuel pid dev blockno c = Res.ret v c1 ∨
        bget fuel pid dev blockno c = Res.sleep v c1) ∧
      ((c1.buf v).dev = dev ∧ (c1.buf v).blockno = blockno ∧ (c1.buf v).valid = 0 ∧
        (c1.buf v).refcnt = 1 ∧ (c1.buf v).data = (c.buf v).data) ∧
      c1.head (hash blockno) = some v ∧
      Buckets NBUF c1 (relink L j0 (hash blockno) v) ∧
      (∀ t, t < NBUCKETS → relink L j0 (hash blockno) v t
        = if t = hash blockno then v :: (L t).erase v else (L t).erase v) ∧
      (∀ k, k ≠ v → (c1.buf k).dev = (c.buf k).dev ∧ (c1.buf k).blockno = (c.buf k).blockno ∧
        (c1.buf k).valid = (c.buf k).valid ∧ (c1.buf k).refcnt = (c.buf k).refcnt ∧
        (c1.buf k).lock = (c.buf k).lock ∧ (c1.buf k).data = (c.buf k).data) ∧
      c1.disk = c.disk := by
  rcases bget_cases NBUF fuel pid dev blockno c L hB hf with
    ⟨b2, c2, hfind, _⟩ | ⟨j0, v, c1, _, hj0, hbusy, hv, hres, hB1, hdisk, hoth, hb⟩ |
    ⟨c2, _, hfull, _⟩
  · exfalso
    have hp : (fun k => isBlock dev blockno (c.buf k)) b2 = true :=
      @List.find?_some Nat (fun k => isBlock dev blockno (c.buf k)) b2 _ hfind
    exact hmiss b2 (List.mem_of_find?_eq_some hfind) ((isBlock_iff dev blockno (c.buf b2)).mp hp)
  · have hvmem : v ∈ L j0 := List.mem_of_find?_eq_some hv
    obtain ⟨hpv, l1, l2, hsplit, hbefore⟩ := List.find?_eq_some.mp hv
    have hfld := Buf.of_lock_next_eq _ _ _ _ hb
    have hhead : c1.head (hash blockno) = some v := by
      have := hB1.1 (hash blockno) (hash_lt blockno)
      rw [relink_head] at this
      exact head_of_blist _ _ _ _ this
    refine ⟨j0, v, c1, hj0, hbusy, hv, ⟨l1, l2, hsplit, ?_⟩, ?_, hres,
      ⟨hfld.1, hfld.2.1, hfld.2.2.2.1, hfld.2.2.1, hfld.2.2.2.2⟩, hhead, hB1,
      relink_erase NBUF c L hB j0 (hash blockno) v hj0 hvmem, ?_, hdisk⟩
    · intro k hk hz
      have := hbefore k hk
      simp [isFree, hz] at this
    · simpa [isFree] using hpv
    · intro k hk
      have := Buf.of_next_eq _ _ _ (hoth k hk)
      exact ⟨this.1, this.2.1, this.2.2.2.1, this.2.2.1, this.2.2.2.2.1, this.2.2.2.2.2⟩
  · exfalso
    obtain ⟨t, ht, hkt⟩ := hB.2.2.2.2 k0 hk0
    exact hfull t ht k0 hkt hfree

theorem acquire_miss_witness :
    ∃ j0 v c1,
      j0 < NBUCKETS ∧ (∀ t, t < j0 → ∀ k ∈ demoOneLists t, (demoOne.buf k).refcnt ≠ 0) ∧
      (demoOneLists j0).find? (fun k => isFree (demoOne.buf k)) = some v ∧
      (∃ l1 l2, demoOneLists j0 = l1 ++ v :: l2 ∧ ∀ k ∈ l1, (demoOne.buf k).refcnt ≠ 0) ∧
      (demoOne.buf v).refcnt = 0 ∧
      (bget 4 7 1 18 demoOne = Res.ret v c1 ∨ bget 4 7 1 18 demoOne = Res.sleep v c1) ∧
      ((c1.buf v).dev = 1 ∧ (c1.buf v).blockno = 18 ∧ (c1.buf v).valid = 0 ∧
        (c1.buf v).refcnt = 1 ∧ (c1.buf v).data = (demoOne.buf v).data) ∧
      c1.head (hash 18) = some v ∧
      Buckets 3 c1 (relink demoOneLists j0 (hash 18) v) ∧
      (∀ t, t < NBUCKETS → relink demoOneLists j0 (hash 18) v t
        = if t = hash 18 then v :: (demoOneLists t).erase v else (demoOneLists t).erase v) ∧
      (∀ k, k ≠ v → (c1.buf k).dev = (demoOne.buf k).dev ∧
        (c1.buf k).blockno = (demoOne.buf k).blockno ∧
        (c1.buf k).valid = (demoOne.buf k).valid ∧
        (c1.buf k).refcnt = (demoOne.buf k).refcnt ∧
        (c1.buf k).lock = (demoOne.buf k).lock ∧ (c1.buf k).data = (demoOne.buf k).data) ∧
      c1.disk = demoOne.disk :=
  acquire_miss 3 4 7 1 18 1 demoOne demoOneLists (by decide) (by decide) (by decide)
    (by decide) (by decide)

/-- C18. Bucket membership: start from the state left by `binit` on the zero-initialised
`bcache` (every block number is 0 at boot, `bcache` being a static object). In that state and in
every state reached from it by any number of operations (`bget`, `bread`, `bwrite`, `brelse`,
`bpin`, `bunpin`, sleepers being woken), the hash table consists of lists `L i`, the linked list
of bucket `i` being exactly `L i`, such that each of the `NBUF` entries occurs in the list of
bucket `hash(blockno) = blockno % NBUCKETS` of its own block number, exactly once there, and in no
other bucket list; the lists hold nothing but these entries. So no eviction loses or duplicates
an entry. -/
theorem bucket_membership (NBUF : Nat) (c0 c : BCache)
    (hzero : ∀ k, k < NBUF → (c0.buf k).blockno = 0)
    (hr : Relation.ReflTransGen BStep (binit NBUF c0) c) :
    ∃ L, (∀ i, i < NBUCKETS → BList c.buf (c.head i) (L i)) ∧
      (∀ i, i < NBUCKETS → ∀ k ∈ L i, k < NBUF ∧ hash (c.buf k).blockno = i) ∧
      (∀ k, k < NBUF →
        hash (c.buf k).blockno = (c.buf k).blockno % NBUCKETS ∧
        k ∈ L (hash (c.buf k).blockno) ∧ (L (hash (c.buf k).blockno)).count k = 1 ∧
        ∀ i, i < NBUCKETS → i ≠ hash (c.buf k).blockno → k ∉ L i) ∧
      Buckets NBUF c L := by
  have hinv : ∃ L, Buckets NBUF c L ∧ HashInv c L := by
    induction hr with
    | refl => exact ⟨_, (binit_buckets NBUF c0).1, binit_hash_inv NBUF c0 hzero⟩
    | tail _ hstep ih => exact BStep.hash_inv NBUF _ _ hstep ih
  obtain ⟨L, hB, hH⟩ := hinv
  refine ⟨L, hB.1, fun i hi k hk => ⟨hB.2.1 i hi k hk, hH i hi k hk⟩, ?_, hB⟩
  intro k hk
  obtain ⟨i, hi, hki⟩ := hB.2.2.2.2 k hk
  have hhash := hH i hi k hki
  refine ⟨rfl, ?_, ?_, ?_⟩
  · rw [hhash]
    exact hki
  · rw [hhash]
    exact List.count_eq_one_of_mem (hB.2.2.1 i hi) hki
  · intro j hj hne hmem
    exact hne (hH j hj k hmem).symm

theorem bucket_membership_witness :
    ∃ L, (∀ i, i < NBUCKETS → BList demoFull.buf (demoFull.head i) (L i)) ∧
      (∀ i, i < NBUCKETS → ∀ k ∈ L i, k < 3 ∧ hash (demoFull.buf k).blockno = i) ∧
      (∀ k, k < 3 →
        hash (demoFull.buf k).blockno = (demoFull.buf k).blockno % NBUCKETS ∧
        k ∈ L (hash (demoFull.buf k).blockno) ∧
        (L (hash (demoFull.buf k).blockno)).count k = 1 ∧
        ∀ i, i < NBUCKETS → i ≠ hash (demoFull.buf k).blockno → k ∉ L i) ∧
      Buckets 3 demoFull L :=
  bucket_membership 3 (BCache.boot [] (fun _ _ => [])) demoFull (by decide)
    (Relation.ReflTransGen.tail
      (Relation.ReflTransGen.tail
        (Relation.ReflTransGen.tail Relation.ReflTransGen.refl
          (BStep.bget demoCache demoOne 4 7 1 5 2 rfl))
        (BStep.bget demoOne demoTwo 4 7 1 18 1 rfl))
      (BStep.bget demoTwo demoFull 4 7 1 6 0 rfl))

/-- C19. Acquired entries are stable: on a cache with well-formed bucket lists (as in every
reachable state), across any one operation (a `bget` or `bread` of any identity, whether it
returns or blocks, a sleeper being granted a lock, the read-through tail of `bread`, `bwrite`,
`brelse`, `bpin` or `bunpin` of any entry) an entry `k` whose reference count is at least 1 keeps
its `dev` and its `blockno`, and its validity flag does not go from set to clear. Conversely, an
entry whose identity changed or whose validity flag went from set to clear had reference
count 0. -/
theorem acquired_stable (NBUF : Nat) (c c1 : BCache) (L : Nat → List Nat) (k : Nat)
    (hB : Buckets NBUF c L) (hstep : BStep c c1) :
    (1 ≤ (c.buf k).refcnt →
        (c1.buf k).dev = (c.buf k).dev ∧ (c1.buf k).blockno = (c.buf k).blockno ∧
        ((c.buf k).valid ≠ 0 → (c1.buf k).valid ≠ 0)) ∧
      (((c1.buf k).dev ≠ (c.buf k).dev ∨ (c1.buf k).blockno ≠ (c.buf k).blockno ∨
          ((c.buf k).valid ≠ 0 ∧ (c1.buf k).valid = 0)) → (c.buf k).refcnt = 0) := by
  have key : 1 ≤ (c.buf k).refcnt →
      (c1.buf k).dev = (c.buf k).dev ∧ (c1.buf k).blockno = (c.buf k).blockno ∧
      ((c.buf k).valid ≠ 0 → (c1.buf k).valid ≠ 0) := by
    intro href
    obtain ⟨h1, h2, h3⟩ := BStep.stable NBUF c c1 L hstep hB k href
    refine ⟨h1, h2, ?_⟩
    intro hv
    rw [h3 hv]
    exact hv
  refine ⟨key, ?_⟩
  intro hch
  by_contra hne
  obtain ⟨h1, h2, h3⟩ := key (by omega)
  rcases hch with h | h | ⟨hv, h0⟩
  · exact h h1
  · exact h h2
  · exact h3 hv h0

theorem acquired_stable_witness :
    ((demoTwo.buf 2).dev = (demoOne.buf 2).dev ∧
        (demoTwo.buf 2).blockno = (demoOne.buf 2).blockno ∧
        ((demoOne.buf 2).valid ≠ 0 → (demoTwo.buf 2).valid ≠ 0)) ∧
      ((demoOne.buf 1).refcnt = 0 ∧ (demoTwo.buf 1).blockno ≠ (demoOne.buf 1).blockno) :=
  ⟨(acquired_stable 3 demoOne demoTwo demoOneLists 2 (by decide)
      (BStep.bget demoOne demoTwo 4 7 1 18 1 rfl)).1 (by decide),
    by decide⟩

/-- C20 (as amended). Reference-count-only effect of `brelse`, `bpin`, `bunpin`: let entry `b`
have a reference count `n` with `1 ≤ n` (`n` a `uint`). `brelse(b)` by the holder of its lock
returns and sets the count to `n - 1` (and frees the lock); `bunpin(b)` returns and sets the
count to `n - 1`; `bpin(b)` returns and sets the count to `n + 1` modulo `2^32`, which is
`n + 1` when `n < 2^32 - 1` and 0 when `n = 2^32 - 1`. None of the three changes any other field of `b` (device, block number,
validity flag, content, link), any other entry, any list head or the disk, so the bucket lists
and their order are the same; in particular an entry released to count 0 stays where it was.
`bpin` followed by `bunpin` gives back the state before, up to the event log. -/
theorem refcount_only (pid b n : Nat) (c : BCache) (hn : (c.buf b).refcnt = n) (h1 : 1 ≤ n)
    (h2 : n < 2 ^ 32) :
    (holdingsleep pid b c = true →
        ∃ cr, brelse pid b c = Res.ret () cr ∧ (cr.buf b).refcnt = n - 1 ∧
          cr.buf b = { c.buf b with lock := { locked := false, pid := 0 }, refcnt := n - 1 } ∧
          (∀ k, k ≠ b → cr.buf k = c.buf k) ∧ cr.head = c.head ∧ cr.disk = c.disk ∧
          (∀ NBUF L, Buckets NBUF c L → Buckets NBUF cr L)) ∧
      (∃ cu, bunpin b c = Res.ret () cu ∧ (cu.buf b).refcnt = n - 1 ∧
          cu.buf b = { c.buf b with refcnt := n - 1 } ∧
          (∀ k, k ≠ b → cu.buf k = c.buf k) ∧ cu.head = c.head ∧ cu.disk = c.disk ∧
          (∀ NBUF L, Buckets NBUF c L → Buckets NBUF cu L)) ∧
      (∃ cp cq, bpin b c = Res.ret () cp ∧ (cp.buf b).refcnt = incr32 n ∧
          (n + 1 < 2 ^ 32 → (cp.buf b).refcnt = n + 1) ∧
          (n = 4294967295 → (cp.buf b).refcnt = 0) ∧
          cp.buf b = { c.buf b with refcnt := incr32 n } ∧
          (∀ k, k ≠ b → cp.buf k = c.buf k) ∧ cp.head = c.head ∧ cp.disk = c.disk ∧
          (∀ NBUF L, Buckets NBUF c L → Buckets NBUF cp L) ∧
          bunpin b cp = Res.ret () cq ∧ { cq with log := c.log } = c) := by
  have hdec : decr32 (c.buf b).refcnt = n - 1 := by
    rw [hn]
    exact decr32_exact n h1 h2
  refine ⟨?_, ?_, ?_⟩
  · intro hh
    obtain ⟨cr, hret⟩ : ∃ cr, brelse pid b c = Res.ret () cr := ⟨_, brelse_ret pid b c hh⟩
    obtain ⟨_, hb, hoth, hhd, hdk, _⟩ := brelse_exact pid b c cr hret
    rw [hdec] at hb
    refine ⟨cr, hret, ?_, hb, hoth, hhd, hdk, ?_⟩
    · rw [hb]
    · intro NBUF L hB
      exact Buckets.of_frame NBUF c cr L b _ hb rfl hoth hhd hB
  · obtain ⟨cu, hret⟩ : ∃ cu, bunpin b c = Res.ret () cu := ⟨_, bunpin_ret b c⟩
    obtain ⟨hb, hoth, hhd, hdk, _⟩ := bunpin_exact b c cu hret
    rw [hdec] at hb
    refine ⟨cu, hret, ?_, hb, hoth, hhd, hdk, ?_⟩
    · rw [hb]
    · intro NBUF L hB
      exact Buckets.of_frame NBUF c cu L b _ hb rfl hoth hhd hB
  · obtain ⟨cp, hret⟩ : ∃ cp, bpin b c = Res.ret () cp := ⟨_, bpin_ret b c⟩
    obtain ⟨hb, hoth, hhd, hdk, _⟩ := bpin_exact b c cp hret
    rw [hn] at hb
    obtain ⟨cq, hret2⟩ : ∃ cq, bunpin b cp = Res.ret () cq := ⟨_, bunpin_ret b cp⟩
    obtain ⟨hb2, hoth2, hhd2, hdk2, _⟩ := bunpin_exact b cp cq hret2
    refine ⟨cp, cq, hret, ?_, ?_, ?_, hb, hoth, hhd, hdk, ?_, hret2, ?_⟩
    · rw [hb]
    · intro hlt
      rw [hb]
      exact incr32_exact n hlt
    · intro hmax
      rw [hb, hmax]
      exact incr32_wrap
    · intro NBUF L hB
      exact Buckets.of_frame NBUF c cp L b _ hb rfl hoth hhd hB
    · refine BCache.eq_of_fields c cq ?_ (hhd2.trans hhd) (hdk2.trans hdk)
      funext k
      by_cases hk : k = b
      · rw [hk, hb2, hb]
        have : decr32 (incr32 n) = (c.buf b).refcnt := by
          rw [decr32_incr32 n h2, hn]
        simp only [this]
      · rw [hoth2 k hk, hoth k hk]

theorem refcount_only_witness :
    holdingsleep 7 2 demoOne = true ∧ (holdingsleep 7 2 demoOne = true →
        ∃ cr, brelse 7 2 demoOne = Res.ret () cr ∧ (cr.buf 2).refcnt = 1 - 1 ∧
          cr.buf 2 = { demoOne.buf 2 with
            lock := { locked := false, pid := 0 }, refcnt := 1 - 1 } ∧
          (∀ k, k ≠ 2 → cr.buf k = demoOne.buf k) ∧ cr.head = demoOne.head ∧
          cr.disk = demoOne.disk ∧
          (∀ NBUF L, Buckets NBUF demoOne L → Buckets NBUF cr L)) ∧
      (∃ cu, bunpin 2 demoOne = Res.ret () cu ∧ (cu.buf 2).refcnt = 1 - 1 ∧
          cu.buf 2 = { demoOne.buf 2 with refcnt := 1 - 1 } ∧
          (∀ k, k ≠ 2 → cu.buf k = demoOne.buf k) ∧ cu.head = demoOne.head ∧
          cu.disk = demoOne.disk ∧
          (∀ NBUF L, Buckets NBUF demoOne L → Buckets NBUF cu L)) ∧
      (∃ cp cq, bpin 2 demoOne = Res.ret () cp ∧ (cp.buf 2).refcnt = incr32 1 ∧
          (1 + 1 < 2 ^ 32 → (cp.buf 2).refcnt = 1 + 1) ∧
          (1 = 4294967295 → (cp.buf 2).refcnt = 0) ∧
          cp.buf 2 = { demoOne.buf 2 with refcnt := incr32 1 } ∧
          (∀ k, k ≠ 2 → cp.buf k = demoOne.buf k) ∧ cp.head = demoOne.head ∧
          cp.disk = demoOne.disk ∧
          (∀ NBUF L, Buckets NBUF demoOne L → Buckets NBUF cp L) ∧
          bunpin 2 cp = Res.ret () cq ∧ { cq with log := demoOne.log } = demoOne) :=
  ⟨by decide, refcount_only 7 2 1 demoOne (by decide) (by decide) (by decide)⟩

/-- C20 (as stated) fails for `bpin`: in `demoPinned` entry 2 has reference count
`n = 2^32 - 1`, which is at least 1; `bpin` on it returns with the count at 0, not `n + 1`. -/
theorem pin_wrap_counterexample :
    (demoPinned.buf 2).refcnt = 4294967295 ∧ 1 ≤ (demoPinned.buf 2).refcnt ∧
      bpin 2 demoPinned = Res.ret () ((bpin 2 demoPinned).state demoPinned) ∧
      (((bpin 2 demoPinned).state demoPinned).buf 2).refcnt = 0 ∧
      (((bpin 2 demoPinned).state demoPinned).buf 2).refcnt ≠ (demoPinned.buf 2).refcnt + 1 :=
  ⟨by decide, by decide, rfl, by decide, by decide⟩

/-! ## Claims about local frees and the lock discipline -/

/-- C21 (as amended). A successful `kfree` of a frame that is in no pool pushes locally: on a
well-formed allocator state with pools `pools`, let CPU `cid` call `kfree(pa)` on a frame that
is in no pool (it is owned by the caller), and let the call not halt. Then it returns; afterwards the free list of `cid` is `pa`
followed by the previous list `pools cid` in the same order, every other CPU has the same list
head and the same list as before, and the state is well formed again. A `kalloc` by the same
CPU right afterwards returns `pa` and leaves the pools as they were before the `kfree`. -/
theorem kfree_pushes_local (P : Params) (s : KState) (pools : Nat → List Nat)
    (fuel cid pa : Nat) (hP : P.ok) (hrep : Pools P s pools) (hcid : cid < P.NCPU)
    (hnew : ∀ i, i < P.NCPU → pa ∉ pools i)
    (hnh : ¬ ∃ msg s1, kfree P cid pa s = Res.halt msg s1) :
    ∃ s1 s2, kfree P cid pa s = Res.ret () s1 ∧
      s1.freelist cid = pa ∧
      FreeList s1.mem (s1.freelist cid) (pa :: pools cid) ∧
      (∀ i, i < P.NCPU → i ≠ cid →
        s1.freelist i = s.freelist i ∧ FreeList s1.mem (s1.freelist i) (pools i)) ∧
      Pools P s1 (upd pools cid (pa :: pools cid)) ∧
      kalloc P fuel cid s1 = Res.ret pa s2 ∧ Pools P s2 pools := by
  have hF : Frame P pa := by
    by_contra hF
    apply hnh
    refine ⟨"kfree", s, ?_⟩
    unfold kfree
    rw [if_pos]
    unfold Frame at hF
    omega
  obtain ⟨s1, hret, hp1, hfl, _⟩ := kfree_pools P s pools cid pa hP hrep hcid hF hnew
  obtain ⟨s2, hk, hp2, _, _⟩ := kalloc_local_pools P s1 (upd pools cid (pa :: pools cid)) fuel
    cid pa (pools cid) hp1 hcid (upd_same _ _ _)
  have hback : upd (upd pools cid (pa :: pools cid)) cid (pools cid) = pools := by
    rw [upd_upd]
    funext j
    by_cases hj : j = cid
    · rw [hj, upd_same]
    · rw [upd_ne _ _ _ _ hj]
  rw [hback] at hp2
  have hown := hp1.1 cid hcid
  rw [upd_same] at hown
  refine ⟨s1, s2, hret, ?_, hown, ?_, hp1, hk, hp2⟩
  · rw [hfl, upd_same]
  · intro i hi hne
    have := hp1.1 i hi
    rw [upd_ne _ _ _ _ hne] at this
    refine ⟨?_, this⟩
    rw [hfl, upd_ne _ _ _ _ hne]

theorem kfree_pushes_local_witness :
    ∃ s1 s2, kfree demoParams 1 0x5000 demoStolen = Res.ret () s1 ∧
      s1.freelist 1 = 0x5000 ∧
      FreeList s1.mem (s1.freelist 1)
        (0x5000 :: upd (onlyPool 0 [0x3000, 0x2000]) 1 [0x4000] 1) ∧
      (∀ i, i < demoParams.NCPU → i ≠ 1 →
        s1.freelist i = demoStolen.freelist i ∧
          FreeList s1.mem (s1.freelist i) (upd (onlyPool 0 [0x3000, 0x2000]) 1 [0x4000] i)) ∧
      Pools demoParams s1 (upd (upd (onlyPool 0 [0x3000, 0x2000]) 1 [0x4000]) 1
        (0x5000 :: upd (onlyPool 0 [0x3000, 0x2000]) 1 [0x4000] 1)) ∧
      kalloc demoParams 0 1 s1 = Res.ret 0x5000 s2 ∧
      Pools demoParams s2 (upd (onlyPool 0 [0x3000, 0x2000]) 1 [0x4000]) :=
  kfree_pushes_local demoParams demoStolen (upd (onlyPool 0 [0x3000, 0x2000]) 1 [0x4000]) 0 1
    0x5000 (by decide) (by decide) (by decide) (by decide)
    (by
      rintro ⟨msg, s1, h⟩
      cases h)

/-- C21 (as stated) fails when the frame is already in a pool, which `kfree` does not check.
In `demoStolen` the pool of CPU 0 is `0x3000, 0x2000` and that of CPU 1 is `0x4000`.
When CPU 0 frees `0x3000` the call does not halt and leaves the frame linked to itself: the
free list of CPU 0 is not `0x3000` followed by its previous list, and is no null-terminated
list at all. When CPU 1 frees `0x3000` the call does not halt, its own list is `0x3000, 0x4000`,
and the list of CPU 0, whose head is unchanged, has become `0x3000, 0x4000`: the pool of
another CPU changed. -/
theorem double_free_counterexample :
    Pools demoParams demoStolen demoStolenPools ∧
      (demoStolenPools 0 = [0x3000, 0x2000] ∧ demoStolenPools 1 = [0x4000]) ∧
      kfree demoParams 0 0x3000 demoStolen = Res.ret () demoDouble ∧
      (demoDouble.freelist 0 = 0x3000 ∧ load64 demoDouble.mem 0x3000 = 0x3000) ∧
      ¬ FreeList demoDouble.mem (demoDouble.freelist 0) (0x3000 :: demoStolenPools 0) ∧
      (∀ l, ¬ FreeList demoDouble.mem (demoDouble.freelist 0) l) ∧
      kfree demoParams 1 0x3000 demoStolen = Res.ret () demoCross ∧
      FreeList demoCross.mem (demoCross.freelist 1) (0x3000 :: demoStolenPools 1) ∧
      demoCross.freelist 0 = demoStolen.freelist 0 ∧
      FreeList demoCross.mem (demoCross.freelist 0) [0x3000, 0x4000] ∧
      ¬ FreeList demoCross.mem (demoCross.freelist 0) (demoStolenPools 0) :=
  ⟨by decide, by decide, rfl, by decide, by decide,
    FreeList.no_loop demoDouble.mem (demoDouble.freelist 0) (by decide) (by decide),
    rfl, by decide, by decide, by decide, by decide⟩

/-- C22 (as amended). Lock discipline over the events each operation adds to the log, replayed
by `discipline`, which fails as soon as a pool lock is requested while a pool lock is held, the
arbiter lock or a bucket lock is requested while a bucket lock is held, or the sleep-lock of an
entry is requested while any spinlock is held. In every state and for every outcome:
`kalloc` and `kfree` pass the replay from no lock held and end with no lock held (a `kfree` that
halts takes no lock); `bget` passes the replay from no lock held, and when it returns or blocks
the only lock held or waited for is the sleep-lock of the entry it resolved to, which is not
released before `bget` returns, while at a halt only the arbiter lock is held; the same holds
of the slow path `bgetSlow` entered in any state with no lock held (with other processes
running, the state in which the arbiter lock is taken need not be the one the fast path saw, and
the re-check can then hit), also with the events of the missed fast path in front, and `bget`
after a missed fast path is that slow path; a re-check that hits emits exactly: arbiter lock
taken, bucket lock taken and released, arbiter lock released, sleep-lock requested; `brelse` by the
holder of the sleep-lock gives that lock back, takes and releases one bucket lock, and ends with
no lock held (a `brelse` that halts takes no lock). So every spinlock taken by an operation is
released before it returns. With well-formed pools resp. bucket lists and enough fuel, `kalloc`
returns and `bget` does not run out of fuel. The last two parts say what a successful replay
means: every request in the sequence was `permitted` at the moment it was made, and a permitted
request of a pool lock finds no pool lock held, one of the arbiter lock or a bucket lock finds
no bucket lock held, and one of a sleep-lock finds no spinlock held. -/
theorem lock_discipline (P : Params) (fuel cid pa pid dev blockno b : Nat) (s : KState)
    (c : BCache) :
    (∀ r s1, kalloc P fuel cid s = Res.ret r s1 →
        s1.log = s.log ++ emitted s.log s1.log ∧
        discipline [] (emitted s.log s1.log) = some []) ∧
      (∀ pools, Pools P s pools → cid < P.NCPU → (∀ i, i < P.NCPU → (pools i).length ≤ fuel) →
        ∃ r s1, kalloc P fuel cid s = Res.ret r s1) ∧
      (∀ s1, kfree P cid pa s = Res.ret () s1 →
        s1.log = s.log ++ emitted s.log s1.log ∧
        emitted s.log s1.log = [Ev.acq (Lock.kmem cid), Ev.rel (Lock.kmem cid)] ∧
        discipline [] (emitted s.log s1.log) = some []) ∧
      (∀ msg s1, kfree P cid pa s = Res.halt msg s1 → s1.log = s.log) ∧
      (∀ b1 c1, (bget fuel pid dev blockno c = Res.ret b1 c1 ∨
          bget fuel pid dev blockno c = Res.sleep b1 c1) →
        c1.log = c.log ++ emitted c.log c1.log ∧
        discipline [] (emitted c.log c1.log) = some [Lock.buf b1]) ∧
      (∀ msg c1, bget fuel pid dev blockno c = Res.halt msg c1 →
        c1.log = c.log ++ emitted c.log c1.log ∧
        discipline [] (emitted c.log c1.log) = some [Lock.evict]) ∧
      (∀ b1 c1, (bgetSlow fuel pid dev blockno c = Res.ret b1 c1 ∨
          bgetSlow fuel pid dev blockno c = Res.sleep b1 c1) →
        c1.log = c.log ++ emitted c.log c1.log ∧
        discipline [] (emitted c.log c1.log) = some [Lock.buf b1] ∧
        discipline [] ([Ev.acq (Lock.bucket (hash blockno)),
          Ev.rel (Lock.bucket (hash blockno))] ++ emitted c.log c1.log)
          = some [Lock.buf b1]) ∧
      (∀ msg c1, bgetSlow fuel pid dev blockno c = Res.halt msg c1 →
        c1.log = c.log ++ emitted c.log c1.log ∧
        discipline [] (emitted c.log c1.log) = some [Lock.evict] ∧
        discipline [] ([Ev.acq (Lock.bucket (hash blockno)),
          Ev.rel (Lock.bucket (hash blockno))] ++ emitted c.log c1.log)
          = some [Lock.evict]) ∧
      (∀ b1, scan (isBlock dev blockno) c.buf fuel (c.head (hash blockno)) = some (some b1) →
        ∃ c1, (bgetSlow fuel pid dev blockno c = Res.ret b1 c1 ∨
            bgetSlow fuel pid dev blockno c = Res.sleep b1 c1) ∧
          emitted c.log c1.log = [Ev.acq Lock.evict, Ev.acq (Lock.bucket (hash blockno)),
            Ev.rel (Lock.bucket (hash blockno)), Ev.rel Lock.evict, Ev.acq (Lock.buf b1)]) ∧
      (scan (isBlock dev blockno) c.buf fuel (c.head (hash blockno)) = some none →
        bget fuel pid dev blockno c = bgetSlow fuel pid dev blockno
          ((c.acquire (Lock.bucket (hash blockno))).release (Lock.bucket (hash blockno)))) ∧
      (∀ NBUF L, Buckets NBUF c L → NBUF < fuel → bget fuel pid dev blockno c ≠ Res.spin) ∧
      (∀ c1, brelse pid b c = Res.ret () c1 →
        c1.log = c.log ++ emitted c.log c1.log ∧
        emitted c.log c1.log = [Ev.rel (Lock.buf b),
          Ev.acq (Lock.bucket (hash (c.buf b).blockno)),
          Ev.rel (Lock.bucket (hash (c.buf b).blockno))] ∧
        discipline [Lock.buf b] (emitted c.log c1.log) = some []) ∧
      (∀ msg c1, brelse pid b c = Res.halt msg c1 → c1.log = c.log) ∧
      (∀ held final pre post l, discipline held (pre ++ Ev.acq l :: post) = some final →
        ∃ h1, discipline held pre = some h1 ∧ permitted h1 l = true) ∧
      (∀ held l, permitted held l = true →
        (l.isPool = true → ∀ x ∈ held, x.isPool = false) ∧
        ((l = Lock.evict ∨ l.isBucket = true) → ∀ x ∈ held, x.isBucket = false) ∧
        (l.isSpin = false → ∀ x ∈ held, x.isSpin = false)) := by
  refine ⟨?_, ?_, ?_, ?_, ?_, ?_, ?_, ?_, ?_, bget_eq_slow fuel pid dev blockno c, ?_, ?_, ?_,
    fun held final pre post l h => discipline_split held final pre post l h, permitted_spec⟩
  · intro r s1 h
    have hd := kalloc_discipline P fuel cid s
    rw [h] at hd
    obtain ⟨evs, hl, hd⟩ := hd
    rw [hl, emitted_append]
    exact ⟨rfl, hd⟩
  · intro pools hrep hcid hfuel
    obtain ⟨r, s1, _, h, _⟩ := kalloc_cases P s pools fuel cid hrep hcid hfuel
    exact ⟨r, s1, h⟩
  · intro s1 h
    rw [kfree_log P cid pa s s1 h, emitted_append]
    exact ⟨rfl, rfl, discipline_pool cid⟩
  · intro msg s1 h
    rw [kfree_halt_state P cid pa s s1 msg h]
  · intro b1 c1 h
    have hd := bget_discipline fuel pid dev blockno c
    rcases h with h | h
    · rw [h] at hd
      obtain ⟨evs, hl, hd⟩ := hd
      rw [hl, emitted_append]
      exact ⟨rfl, hd⟩
    · rw [h] at hd
      obtain ⟨evs, hl, hd⟩ := hd
      rw [hl, emitted_append]
      exact ⟨rfl, hd⟩
  · intro msg c1 h
    have hd := bget_discipline fuel pid dev blockno c
    rw [h] at hd
    obtain ⟨evs, hl, hd⟩ := hd
    rw [hl, emitted_append]
    exact ⟨rfl, hd⟩
  · intro b1 c1 h
    have hd := bgetSlow_discipline fuel pid dev blockno c
    rcases h with h | h
    · rw [h] at hd
      obtain ⟨evs, hl, hd⟩ := hd
      rw [hl, emitted_append]
      exact ⟨rfl, hd, discipline_then _ _ _ _ _ (discipline_fast (hash blockno)) hd⟩
    · rw [h] at hd
      obtain ⟨evs, hl, hd⟩ := hd
      rw [hl, emitted_append]
      exact ⟨rfl, hd, discipline_then _ _ _ _ _ (discipline_fast (hash blockno)) hd⟩
  · intro msg c1 h
    have hd := bgetSlow_discipline fuel pid dev blockno c
    rw [h] at hd
    obtain ⟨evs, hl, hd⟩ := hd
    rw [hl, emitted_append]
    exact ⟨rfl, hd, discipline_then _ _ _ _ _ (discipline_fast (hash blockno)) hd⟩
  · intro b1 hscan
    obtain ⟨c1, hres, hl⟩ := bgetSlow_rehit_log fuel pid dev blockno b1 c hscan
    refine ⟨c1, hres, ?_⟩
    rw [hl, emitted_append]
  · intro NBUF L hB hf hspin
    rcases bget_cases NBUF fuel pid dev blockno c L hB hf with
      ⟨b2, c2, _, hres, _⟩ | ⟨j0, v, c2, _, _, _, _, hres, _⟩ | ⟨c2, _, _, hh, _⟩
    · rcases hres with h | h <;> rw [hspin] at h <;> cases h
    · rcases hres with h | h <;> rw [hspin] at h <;> cases h
    · rw [hspin] at hh
      cases hh
  · intro c1 h
    obtain ⟨_, _, _, _, _, hl⟩ := brelse_exact pid b c c1 h
    rw [hl, emitted_append]
    exact ⟨rfl, rfl, discipline_release b _⟩
  · intro msg c1 h
    cases hh : holdingsleep pid b c with
    | false =>
      rw [brelse_halt pid b c hh] at h
      injection h with _ h
      rw [← h]
    | true =>
      rw [brelse_ret pid b c hh] at h
      cases h

theorem lock_discipline_witness :
    (demoStolen.log = demoInit.log ++ emitted demoInit.log demoStolen.log ∧
        discipline [] (emitted demoInit.log demoStolen.log) = some []) ∧
      emitted demoInit.log demoStolen.log = [Ev.acq (Lock.kmem 1), Ev.rel (Lock.kmem 1),
        Ev.acq (Lock.kmem 0), Ev.rel (Lock.kmem 0), Ev.acq (Lock.kmem 1),
        Ev.rel (Lock.kmem 1)] ∧
      (∃ c1, (bgetSlow 4 8 1 5 demoOne = Res.ret 2 c1 ∨
            bgetSlow 4 8 1 5 demoOne = Res.sleep 2 c1) ∧
          emitted demoOne.log c1.log = [Ev.acq Lock.evict, Ev.acq (Lock.bucket (hash 5)),
            Ev.rel (Lock.bucket (hash 5)), Ev.rel Lock.evict, Ev.acq (Lock.buf 2)]) ∧
      discipline [] [Ev.acq (Lock.kmem 1), Ev.acq (Lock.kmem 0)] = none ∧
      discipline [] [Ev.acq (Lock.bucket 1), Ev.acq Lock.evict] = none ∧
      discipline [] [Ev.acq (Lock.bucket 1), Ev.acq (Lock.bucket 2)] = none ∧
      discipline [] [Ev.acq Lock.evict, Ev.acq (Lock.buf 0)] = none ∧
      discipline [] [Ev.acq (Lock.bucket 1), Ev.acq (Lock.buf 0)] = none :=
  ⟨(lock_discipline demoParams 4 1 0 7 1 5 0 demoInit demoCache).1 0x5000 demoStolen rfl,
    by decide,
    (lock_discipline demoParams 4 1 0 8 1 5 0 demoInit demoOne).2.2.2.2.2.2.2.2.1 2
      (by decide),
    by decide, by decide, by decide, by decide, by decide⟩

/-- C22 (as stated) fails in its last part: `bget(1, 5)` by process 7 on the cache just
initialised returns entry 2; among the events of the call the sleep-lock of entry 2 is requested
and never released, and when `bget` returns that lock is held by the caller. -/
theorem lock_held_counterexample :
    bget 4 7 1 5 demoCache = Res.ret 2 demoOne ∧
      emitted demoCache.log demoOne.log = [Ev.acq (Lock.bucket 5), Ev.rel (Lock.bucket 5),
        Ev.acq Lock.evict, Ev.acq (Lock.bucket 5), Ev.rel (Lock.bucket 5),
        Ev.acq (Lock.bucket 0), Ev.rel (Lock.bucket 0), Ev.acq (Lock.bucket 5),
        Ev.rel (Lock.bucket 5), Ev.rel Lock.evict, Ev.acq (Lock.buf 2)] ∧
      Ev.acq (Lock.buf 2) ∈ emitted demoCache.log demoOne.log ∧
      Ev.rel (Lock.buf 2) ∉ emitted demoCache.log demoOne.log ∧
      discipline [] (emitted demoCache.log demoOne.log) = some [Lock.buf 2] ∧
      (demoOne.buf 2).lock = { locked := true, pid := 7 } ∧
      holdingsleep 7 2 demoOne = true :=
  ⟨rfl, by decide, by decide, by decide, by decide, by decide, by decide⟩

end Xv6
